import Mathlib

/-!
Verification of the `ttl-lru-cache` TypeScript package (core `TTLCache` class
plus the `TTLLRUCache` adapter) against its natural-language specification.

The embedding below is a direct shallow translation of the source:
  * JS `Map` objects become association lists with `alLookup` / `alInsert` /
    `alErase` matching `Map.get` / `Map.set` / `Map.delete`.
  * The `expirations : Record<number, K[]>` object becomes a list of
    `(timestamp, keys)` pairs kept in ascending timestamp order, because JS
    `for..in` over an object with integer-like keys visits them in ascending
    numeric order; `bucketInsert` inserts in sorted position, which is exactly
    the traversal order the code relies on.
  * `performance.now()` is modelled by an explicit `now : Nat` argument
    threaded to each operation (integer milliseconds; `Math.floor` and
    `Math.ceil` are the identity on integers).
  * `Infinity` timestamps are the `ExpiryTime.inf` constructor; the code never
    creates a bucket for them (`setTTL` skips bucket creation when
    `ttl === Infinity`).
  * The removal handler is modelled by a trace: each operation returns the
    list of `handleRemoval(value, key, reason)` invocations it performs, each
    paired with the cache state at the moment the handler is invoked.
  * The `while (this.size > this.max)` loop in `set` is modelled with fuel
    (`SetResult.outOfFuel` when the fuel runs out while still over capacity).
-/

set_option autoImplicit false
set_option linter.unusedSectionVars false
set_option linter.unusedVariables false

namespace TTL

/-- An expiration timestamp: a finite number of milliseconds, or `Infinity`. -/
inductive ExpiryTime where
  | fin (t : Nat)
  | inf
  deriving DecidableEq, Repr

/-- Reason codes passed to the removal handler (`DisposeReason` in the source). -/
inductive Reason where
  | delete
  | set
  | evict
  | stale
  deriving DecidableEq, Repr

section AssocList

variable {K A : Type} [DecidableEq K]

/-- `Map.get`: first value stored under `k`, if any. -/
def alLookup : List (K × A) → K → Option A
  | [], _ => none
  | (k, a) :: l, k' => if k = k' then some a else alLookup l k'

/-- `Map.set`: replace the value of an existing key in place, else append. -/
def alInsert : List (K × A) → K → A → List (K × A)
  | [], k, a => [(k, a)]
  | (k', a') :: l, k, a =>
      if k' = k then (k, a) :: l else (k', a') :: alInsert l k a

/-- `Map.delete`: remove the entry for `k` (all occurrences; with `Nodup` keys
there is at most one, matching a JS `Map`). -/
def alErase : List (K × A) → K → List (K × A)
  | [], _ => []
  | (k', a') :: l, k => if k' = k then alErase l k else (k', a') :: alErase l k

end AssocList

section Buckets

variable {K : Type} [DecidableEq K]

/-- Creating / overwriting the bucket for timestamp `t` in the
`expirations : Record<number, K[]>` object.  JS iterates integer-like object
keys in ascending numeric order, so the record is modelled as an association
list kept sorted by timestamp: insertion places the bucket at its sorted
position (overwriting an existing bucket in place). -/
def bucketInsert : List (Nat × List K) → Nat → List K → List (Nat × List K)
  | [], t, ks => [(t, ks)]
  | (u, us) :: l, t, ks =>
      if t < u then (t, ks) :: (u, us) :: l
      else if t = u then (t, ks) :: l
      else (u, us) :: bucketInsert l t ks

end Buckets

section Cache

variable {K V : Type} [DecidableEq K] [DecidableEq V]

/-- The mutable state of a `TTLCache` instance.

  * `expirations` — the `Record<number, K[]>` bucket object, kept in ascending
    timestamp order (the JS `for..in` traversal order for integer keys).
  * `data` — the `Map<K, V>` main store.
  * `expirationMap` — the `Map<K, number>` reverse index; `ExpiryTime.inf` is
    the JS `Infinity` timestamp.
  * `timer` — `timerExpiration` when an automatic-purge timer is armed
    (`undefined`, i.e. `none`, otherwise); the `setTimeout` handle itself has
    no observable content beyond its target. -/
structure CacheState (K V : Type) where
  expirations : List (Nat × List K)
  data : List (K × V)
  expirationMap : List (K × ExpiryTime)
  timer : Option Nat
  deriving DecidableEq, Repr

/-- Constructor configuration after validation (`TTLCacheOptions`).
`max = none` and `ttl = none` model the absent/`Infinity` default (`max`
defaults to `Infinity`; a `none` default `ttl` means every `set` must supply
one).  `customHandler` records whether an `onRemove` handler was installed,
i.e. whether `this.handleRemoval` differs from the prototype no-op. -/
structure Config where
  max : Option Nat
  ttl : Option ExpiryTime
  updateAgeOnGet : Bool
  checkAgeOnGet : Bool
  noUpdateTTL : Bool
  skipRemoveOnSet : Bool
  customHandler : Bool
  deriving DecidableEq, Repr

/-- One `handleRemoval(value, key, reason)` invocation.  `value` is an
`Option` because the code reads `this.data.get(key) as V`, which is
`undefined` when the key has no stored value. -/
structure RemovalEvent (K V : Type) where
  value : Option V
  key : K
  reason : Reason
  deriving DecidableEq, Repr

/-- The sequence of removal-handler invocations an operation performs, each
paired with the cache state at the moment the handler is invoked (all
structural mutation that precedes the call has been applied). -/
abbrev Trace (K V : Type) : Type := List (RemovalEvent K V × CacheState K V)

/-- `events` of a trace, without the state snapshots. -/
def traceEvents (tr : Trace K V) : List (RemovalEvent K V) :=
  tr.map Prod.fst

/-- `get size()` — the entry count of the main store. -/
def size (s : CacheState K V) : Nat := s.data.length

/-- `isPosIntOrInf` from the source (over the `ExpiryTime` embedding;
non-integer and negative JS numbers are not representable here). -/
def isPosIntOrInf : ExpiryTime → Bool
  | .fin t => decide (0 < t)
  | .inf => true

/-- `setTimer(expiration, ttl)`: skip when a timer for a strictly earlier
expiration is armed; otherwise cancel the old timer and arm one tagged with
`expiration`. -/
def setTimer (s : CacheState K V) (expiration : Nat) : CacheState K V :=
  match s.timer with
  | some te => if te < expiration then s else { s with timer := some expiration }
  | none => { s with timer := some expiration }

/-- `cancelTimer()`. -/
def cancelTimer (s : CacheState K V) : CacheState K V := { s with timer := none }

/-- The bucket-removal half of `setTTL`: take the key out of the expiration
list recorded for it in `expirationMap` (deleting the bucket when it has at
most one element, otherwise filtering the key out).  A `current` of
`Infinity` indexes a bucket that never exists, so the `delete` is a no-op. -/
def removeFromCurrentBucket (s : CacheState K V) (key : K) : CacheState K V :=
  match alLookup s.expirationMap key with
  | some (.fin current) =>
      match alLookup s.expirations current with
      | none => { s with expirations := alErase s.expirations current }
      | some exp =>
          if exp.length ≤ 1 then
            { s with expirations := alErase s.expirations current }
          else
            { s with expirations :=
                bucketInsert s.expirations current (exp.filter (fun k => k ≠ key)) }
  | some .inf => s
  | none => s

/-- `setTTL(key, ttl)`: relocate the key's bucket membership and reverse-index
entry to `now + ttl`; for an `Infinity` ttl only the reverse index is written
and no bucket (or timer) is touched.  Creating a bucket that did not exist
triggers `setTimer`.  (The JS path where `ttl` is `undefined` — possible via
`get` with `updateAgeOnGet` when no default ttl is configured — files the key
under a `NaN` bucket; that corrupt path is outside this model, which always
receives a resolved `ExpiryTime`.) -/
def setTTL (s : CacheState K V) (key : K) (ttl : ExpiryTime) (now : Nat) :
    CacheState K V :=
  let s1 := removeFromCurrentBucket s key
  match ttl with
  | .fin t =>
      let expiration := now + t
      let s2 := { s1 with
        expirationMap := alInsert s1.expirationMap key (.fin expiration) }
      match alLookup s2.expirations expiration with
      | some ks =>
          { s2 with expirations := bucketInsert s2.expirations expiration (ks ++ [key]) }
      | none =>
          let s3 := setTimer
            { s2 with expirations := bucketInsert s2.expirations expiration [] }
            expiration
          { s3 with expirations := bucketInsert s3.expirations expiration [key] }
  | .inf => { s1 with expirationMap := alInsert s1.expirationMap key .inf }

/-- `delete(key)`: returns the new state, the boolean result, and the trace.
All structural removal (store, reverse index, bucket) happens before the
handler runs; the `size === 0` timer cancellation happens after. -/
def delete (s : CacheState K V) (key : K) :
    CacheState K V × Bool × Trace K V :=
  match alLookup s.expirationMap key with
  | none => (s, false, [])
  | some current =>
      let value := alLookup s.data key
      let s1 := { s with
        data := alErase s.data key,
        expirationMap := alErase s.expirationMap key }
      let s2 :=
        match current with
        | .fin c =>
            match alLookup s1.expirations c with
            | none => s1
            | some exp =>
                if exp.length ≤ 1 then
                  { s1 with expirations := alErase s1.expirations c }
                else
                  { s1 with expirations :=
                      bucketInsert s1.expirations c (exp.filter (fun k => k ≠ key)) }
        | .inf => s1
      let tr : Trace K V := [(⟨value, key, .delete⟩, s2)]
      let s3 := if size s2 = 0 then cancelTimer s2 else s2
      (s3, true, tr)

/-- `removeKeys(keysToRemove, reason)`: first pass records `(key, value)`
entries while deleting every key from the store and the reverse index; the
second pass invokes the handler for each entry.  The handler therefore always
observes the fully-deleted state, which is the snapshot attached to each
event. -/
def removeKeysStruct (s : CacheState K V) :
    List K → CacheState K V × List (K × Option V)
  | [] => (s, [])
  | k :: ks =>
      let entry := (k, alLookup s.data k)
      let s1 := { s with
        data := alErase s.data k,
        expirationMap := alErase s.expirationMap k }
      let res := removeKeysStruct s1 ks
      (res.1, entry :: res.2)

def removeKeys (s : CacheState K V) (ks : List K) (reason : Reason) :
    CacheState K V × Trace K V :=
  let res := removeKeysStruct s ks
  (res.1, res.2.map (fun e => (⟨e.2, e.1, reason⟩, res.1)))

/-- The `for (const exp in this.expirations)` loop of `purgeToCapacity`,
with `m` the finite `max`.  The list argument is the current bucket object
(`for..in` visits ascending timestamps; deleting the property just visited
leaves the tail).  JS arithmetic is over actual integers, hence the `Int`
casts: `this.size - keys.length >= this.max` and
`excessCount = this.size - this.max` (a `splice` count `≤ 0` removes
nothing). -/
def purgeGo (m : Nat) : List (Nat × List K) → CacheState K V →
    CacheState K V × Trace K V
  | [], s => (s, [])
  | (t, keys) :: rest, s =>
      if (size s : Int) - keys.length ≥ (m : Int) then
        let s1 := { s with expirations := rest }
        let res := removeKeys s1 keys .evict
        let res2 := purgeGo m rest res.1
        (res2.1, res.2 ++ res2.2)
      else
        let excessCount := ((size s : Int) - (m : Int)).toNat
        let s1 := { s with expirations := (t, keys.drop excessCount) :: rest }
        removeKeys s1 (keys.take excessCount) .evict

/-- `purgeToCapacity()`. -/
def purgeToCapacity (m : Nat) (s : CacheState K V) : CacheState K V × Trace K V :=
  purgeGo m s.expirations s

/-- The `while (this.size > this.max) this.purgeToCapacity()` loop at the end
of `set`, with explicit fuel (`none` when the fuel is exhausted while still
over capacity, which models the loop not terminating). -/
def purgeLoop (m : Nat) : Nat → CacheState K V → Trace K V →
    Option (CacheState K V × Trace K V)
  | fuel, s, tr =>
      if size s ≤ m then some (s, tr)
      else
        match fuel with
        | 0 => none
        | fuel' + 1 =>
            let res := purgeToCapacity m s
            purgeLoop m fuel' res.1 (tr ++ res.2)

/-- Per-call options of `set` (`TTLCacheSetOptions`); `none` means the field
was not supplied and the constructor default applies. -/
structure SetOptions where
  ttl : Option ExpiryTime
  noUpdateTTL : Option Bool
  skipRemoveOnSet : Option Bool
  deriving DecidableEq, Repr

/-- Result of `set`: the new state and trace, a `TypeError` on ttl validation
(state unchanged), or fuel exhaustion of the capacity-purge loop. -/
inductive SetResult (K V : Type) where
  | ok (s : CacheState K V) (tr : Trace K V)
  | invalidTTL
  | outOfFuel
  deriving DecidableEq, Repr

/-- The mutation phase of `set(key, val, options)` (everything before the
capacity-purge loop).  A key present in `expirationMap` takes the update
path: optional `setTTL`, then value replacement with an optional `"set"`
removal notification for the old value (invoked after the store is
updated). -/
def setMutate (s : CacheState K V) (key : K) (val : V) (ttl : ExpiryTime)
    (noUpd skip : Bool) (now : Nat) : CacheState K V × Trace K V :=
  if (alLookup s.expirationMap key).isSome then
    let s1 := if noUpd = false then setTTL s key ttl now else s
    let oldValue := alLookup s1.data key
    if oldValue ≠ some val then
      let s2 := { s1 with data := alInsert s1.data key val }
      if skip = false then (s2, [(⟨oldValue, key, .set⟩, s2)]) else (s2, [])
    else (s1, [])
  else
    let s1 := setTTL s key ttl now
    ({ s1 with data := alInsert s1.data key val }, [])

/-- `set(key, val, options)`.  The effective ttl is
`options.ttl ?? this.ttl`; an unresolved (`undefined`) or invalid ttl throws
with no effect.  After the mutation, `purgeToCapacity` runs while the size
exceeds a finite `max`. -/
def set (cfg : Config) (s : CacheState K V) (key : K) (val : V)
    (opts : SetOptions) (now : Nat) (fuel : Nat) : SetResult K V :=
  let ttlOpt := match opts.ttl with
    | some t => some t
    | none => cfg.ttl
  match ttlOpt with
  | none => .invalidTTL
  | some ttl =>
      if isPosIntOrInf ttl = false then .invalidTTL else
      let noUpd := opts.noUpdateTTL.getD cfg.noUpdateTTL
      let skip := opts.skipRemoveOnSet.getD cfg.skipRemoveOnSet
      let mutated := setMutate s key val ttl noUpd skip now
      match cfg.max with
      | none => .ok mutated.1 mutated.2
      | some m =>
          match purgeLoop m fuel mutated.1 mutated.2 with
          | some res => .ok res.1 res.2
          | none => .outOfFuel

/-- `has(key)` — raw store membership. -/
def has (s : CacheState K V) (key : K) : Bool :=
  (alLookup s.data key).isSome

/-- `getRemainingTTL(key)`: `Infinity` for the `Infinity` sentinel,
`max(0, ceil(expiration - now()))` for a finite expiry (truncated `Nat`
subtraction), `0` for an absent key. -/
def getRemainingTTL (s : CacheState K V) (key : K) (now : Nat) : ExpiryTime :=
  match alLookup s.expirationMap key with
  | some .inf => .inf
  | some (.fin e) => .fin (e - now)
  | none => .fin 0

/-- Per-call options of `get`. -/
structure GetOptions where
  updateAgeOnGet : Option Bool
  ttl : Option ExpiryTime
  checkAgeOnGet : Option Bool
  deriving DecidableEq, Repr

/-- `get(key, options)`: reads the value first; with `checkAgeOnGet` and a
zero remaining ttl it deletes the key and reports not-found; otherwise with
`updateAgeOnGet` it refreshes the key's expiry via `setTTL` — whether or not
the key is in the store.  (The unresolved-ttl `NaN` path of the refresh is
outside the model, see `setTTL`.) -/
def get (cfg : Config) (s : CacheState K V) (key : K) (opts : GetOptions)
    (now : Nat) : Option V × CacheState K V × Trace K V :=
  let upd := opts.updateAgeOnGet.getD cfg.updateAgeOnGet
  let chk := opts.checkAgeOnGet.getD cfg.checkAgeOnGet
  let ttlOpt := match opts.ttl with
    | some t => some t
    | none => cfg.ttl
  let val := alLookup s.data key
  if chk = true ∧ getRemainingTTL s key now = .fin 0 then
    let res := delete s key
    (none, res.1, res.2.2)
  else if upd = true then
    match ttlOpt with
    | some ttl => (val, setTTL s key ttl now, [])
    | none => (val, s, [])
  else (val, s, [])

/-- `entries()` materialised: buckets in list order (ascending timestamps),
keys within a bucket in array (insertion) order, values looked up in the
store (`undefined`, i.e. `none`, when absent). -/
def entriesList (s : CacheState K V) : List (K × Option V) :=
  (s.expirations.map (fun b => b.2.map (fun k => (k, alLookup s.data k)))).flatten

/-- `keys()` materialised. -/
def keysList (s : CacheState K V) : List K :=
  (s.expirations.map (fun b => b.2)).flatten

/-- `values()` materialised. -/
def valuesList (s : CacheState K V) : List (Option V) :=
  (s.expirations.map (fun b => b.2.map (fun k => alLookup s.data k))).flatten

/-- `[Symbol.iterator]()` delegates to `entries()`. -/
def iterList (s : CacheState K V) : List (K × Option V) := entriesList s

/-- `clear()`: the current entry list is computed (via iteration) only when a
custom handler is installed; then everything including the timer is reset and
the notifications fire against the emptied state. -/
def clear (cfg : Config) (s : CacheState K V) : CacheState K V × Trace K V :=
  let entries := if cfg.customHandler then entriesList s else []
  let s1 : CacheState K V :=
    { expirations := [], data := [], expirationMap := [], timer := none }
  (s1, entries.map (fun e => (⟨e.2, e.1, .delete⟩, s1)))

/-- The `for (const exp in this.expirations)` loop of `purgeStale`: an early
`return` at the first bucket whose timestamp is still in the future (which
skips the final empty-cache timer cancellation); otherwise the bucket is
deleted whole and its keys removed with reason `"stale"`.  The
`exp === "Infinity"` guard is vacuous — `setTTL` never creates an `Infinity`
bucket.  `currentTime = Math.ceil(now())` is `now` for integer clocks. -/
def purgeStaleGo (currentTime : Nat) : List (Nat × List K) → CacheState K V →
    Trace K V → CacheState K V × Trace K V
  | [], s, tr => (if size s = 0 then cancelTimer s else s, tr)
  | (t, keys) :: rest, s, tr =>
      if t > currentTime then (s, tr)
      else
        let s1 := { s with expirations := rest }
        let res := removeKeys s1 keys .stale
        purgeStaleGo currentTime rest res.1 (tr ++ res.2)

/-- `purgeStale()`. -/
def purgeStale (s : CacheState K V) (now : Nat) : CacheState K V × Trace K V :=
  purgeStaleGo now s.expirations s []

/-- The `setTimeout` callback: clear the armed-timer state, run `purgeStale`,
then re-arm for the first (i.e. soonest) remaining bucket if one exists. -/
def onTimerFire (s : CacheState K V) (now : Nat) : CacheState K V × Trace K V :=
  let res := purgeStale { s with timer := none } now
  match res.1.expirations with
  | [] => res
  | (t, _) :: _ => (setTimer res.1 t, res.2)

/-- The state of a freshly constructed cache. -/
def emptyCache : CacheState K V :=
  { expirations := [], data := [], expirationMap := [], timer := none }

end Cache

section Invariants

variable {K V : Type} [DecidableEq K] [DecidableEq V]

/-- One reverse-index entry is backed by its bucket: a finite timestamp's
bucket exists and lists the key (`Infinity` entries have no bucket). -/
def mapBucketOK (s : CacheState K V) : K × ExpiryTime → Prop
  | (k, .fin t) => k ∈ (alLookup s.expirations t).getD []
  | (_, .inf) => True

instance mapBucketOKDec (s : CacheState K V) :
    ∀ p : K × ExpiryTime, Decidable (mapBucketOK s p)
  | (k, .fin t) =>
      inferInstanceAs (Decidable (k ∈ (alLookup s.expirations t).getD []))
  | (_, .inf) => inferInstanceAs (Decidable True)

/-- Structural well-formedness of a cache state, satisfied by every state the
operations produce: bucket timestamps strictly ascending (the `for..in`
order); buckets non-empty and duplicate-free, with every listed key's
reverse-index entry pointing back at the bucket; every finite reverse-index
entry backed by its bucket; store and reverse index duplicate-free. -/
def WF (s : CacheState K V) : Prop :=
  (s.expirations.map Prod.fst).Pairwise (· < ·) ∧
  (∀ b ∈ s.expirations, b.2 ≠ [] ∧ b.2.Nodup ∧
      ∀ k ∈ b.2, alLookup s.expirationMap k = some (.fin b.1)) ∧
  (∀ p ∈ s.expirationMap, mapBucketOK s p) ∧
  (s.data.map Prod.fst).Nodup ∧
  (s.expirationMap.map Prod.fst).Nodup

/-- Every key listed in a bucket has a stored value.  This holds for states
produced without the `get`-on-absent-key anomaly (see claim C8), which
creates bucket entries with no stored value. -/
def Coherent (s : CacheState K V) : Prop :=
  ∀ b ∈ s.expirations, ∀ k ∈ b.2, k ∈ s.data.map Prod.fst

/-- The timer discipline the code actually maintains: a timer is armed
whenever any bucket exists, and its target is less than or equal to every
bucket timestamp (it may be strictly below the minimum after deletions). -/
def TimerInv (s : CacheState K V) : Prop :=
  (s.timer = none → s.expirations = []) ∧
  ∀ b ∈ s.expirations, s.timer.getD 0 ≤ b.1

instance WFDec (s : CacheState K V) : Decidable (WF s) :=
  inferInstanceAs (Decidable (
    (s.expirations.map Prod.fst).Pairwise (· < ·) ∧
    (∀ b ∈ s.expirations, b.2 ≠ [] ∧ b.2.Nodup ∧
        ∀ k ∈ b.2, alLookup s.expirationMap k = some (.fin b.1)) ∧
    (∀ p ∈ s.expirationMap, mapBucketOK s p) ∧
    (s.data.map Prod.fst).Nodup ∧
    (s.expirationMap.map Prod.fst).Nodup))

instance CoherentDec (s : CacheState K V) : Decidable (Coherent s) :=
  inferInstanceAs (Decidable
    (∀ b ∈ s.expirations, ∀ k ∈ b.2, k ∈ s.data.map Prod.fst))

instance TimerInvDec (s : CacheState K V) : Decidable (TimerInv s) :=
  inferInstanceAs (Decidable (
    (s.timer = none → s.expirations = []) ∧
    ∀ b ∈ s.expirations, s.timer.getD 0 ≤ b.1))

/-- A removal notification is structurally clean when, in the cache state at
the moment the handler is invoked, the removed key is already gone from the
store, the reverse index, and every expiry bucket. -/
def snapshotClean (e : RemovalEvent K V × CacheState K V) : Prop :=
  alLookup e.2.data e.1.key = none ∧
  alLookup e.2.expirationMap e.1.key = none ∧
  ∀ b ∈ e.2.expirations, e.1.key ∉ b.2

instance snapshotCleanDec (e : RemovalEvent K V × CacheState K V) :
    Decidable (snapshotClean e) :=
  inferInstanceAs (Decidable (_ ∧ _ ∧ ∀ b ∈ e.2.expirations, e.1.key ∉ b.2))

/-- States reachable from a fresh cache by the public operations.  `get` is
restricted to present keys with a resolvable ttl: reading an absent key with
`updateAgeOnGet` corrupts the structures (claim C8), and an unresolvable ttl
takes the `NaN` path outside this model. -/
inductive Reach (cfg : Config) : CacheState K V → Prop where
  | empty : Reach cfg emptyCache
  | setStep {s s' : CacheState K V} {tr : Trace K V} {k : K} {v : V}
      {opts : SetOptions} {now fuel : Nat} : Reach cfg s →
      set cfg s k v opts now fuel = .ok s' tr → Reach cfg s'
  | getStep {s : CacheState K V} {k : K} {opts : GetOptions} {now : Nat} :
      Reach cfg s → has s k = true →
      (match opts.ttl with | some t => some t | none => cfg.ttl) ≠ none →
      Reach cfg (get cfg s k opts now).2.1
  | deleteStep {s : CacheState K V} {k : K} : Reach cfg s →
      Reach cfg (delete s k).1
  | purgeStaleStep {s : CacheState K V} {now : Nat} : Reach cfg s →
      Reach cfg (purgeStale s now).1
  | clearStep {s : CacheState K V} : Reach cfg s → Reach cfg (clear cfg s).1
  | timerFireStep {s : CacheState K V} {now : Nat} : Reach cfg s →
      Reach cfg (onTimerFire s now).1

end Invariants

section SpecSide

variable {K V : Type} [DecidableEq K] [DecidableEq V]

/-- The capacity-eviction policy in the specification's words: scan buckets
in ascending expiration order; if removing the entire bucket still leaves
`size ≥ max`, remove the whole bucket and continue (the running size drops by
the bucket's length); otherwise remove only the first `size − max` keys of
the bucket (FIFO) and stop.  Returns the surviving buckets and the evicted
keys in eviction order. -/
def evictSpecGo (m : Nat) : List (Nat × List K) → Nat →
    List (Nat × List K) × List K
  | [], _ => ([], [])
  | (t, ks) :: rest, sz =>
      if (sz : Int) - ks.length ≥ (m : Int) then
        let res := evictSpecGo m rest (sz - ks.length)
        (res.1, ks ++ res.2)
      else
        ((t, ks.drop ((sz : Int) - (m : Int)).toNat) :: rest,
          ks.take ((sz : Int) - (m : Int)).toNat)

/-- Specification-side statement of one `purgeToCapacity` call: the evicted
keys are removed from store and reverse index, every evicted entry is
notified with reason `"evict"` carrying its stored value, and the timer is
untouched. -/
def evictSpec (m : Nat) (s : CacheState K V) :
    CacheState K V × List (RemovalEvent K V) :=
  let res := evictSpecGo m s.expirations (size s)
  ({ expirations := res.1,
     data := s.data.filter (fun p => decide (p.1 ∉ res.2)),
     expirationMap := s.expirationMap.filter (fun p => decide (p.1 ∉ res.2)),
     timer := s.timer },
   res.2.map (fun k => ⟨alLookup s.data k, k, .evict⟩))

/-- The keys listed in the buckets whose timestamp is due (≤ now), in bucket
order (ascending timestamps) and within a bucket in insertion order. -/
def dueKeys (l : List (Nat × List K)) (now : Nat) : List K :=
  ((l.filter (fun b => decide (b.1 ≤ now))).map Prod.snd).flatten

/-- The stale sweep in the specification's words, with the timer clause as
the code implements it: every bucket with timestamp ≤ now is removed whole,
each removed key is notified with reason `"stale"`, buckets still in the
future survive, and the timer is cancelled exactly when no future bucket
stopped the sweep early and the store is empty afterwards. -/
def staleSpec (s : CacheState K V) (now : Nat) :
    CacheState K V × List (RemovalEvent K V) :=
  let due := dueKeys s.expirations now
  let rest := s.expirations.filter (fun b => decide (now < b.1))
  let data' := s.data.filter (fun p => decide (p.1 ∉ due))
  ({ expirations := rest,
     data := data',
     expirationMap := s.expirationMap.filter (fun p => decide (p.1 ∉ due)),
     timer := if rest = [] ∧ data'.length = 0 then none else s.timer },
   due.map (fun k => ⟨alLookup s.data k, k, .stale⟩))

/-- Sequential invocation of a possibly-throwing removal handler on a list of
events: the first error aborts the remaining notifications and is what the
caller of the triggering operation observes (the code wraps no handler call
in `try`/`catch`). -/
def notifyAll {E : Type} (h : RemovalEvent K V → Except E Unit) :
    List (RemovalEvent K V) → Except E Unit
  | [] => .ok ()
  | ev :: evs =>
      match h ev with
      | .error e => .error e
      | .ok _ => notifyAll h evs

end SpecSide

section Adapter

variable {K V : Type} [DecidableEq K] [DecidableEq V]

/-- `CacheItem<V>` of the `TTLLRUCache` adapter: a stored value (`none`
models the `null` written by the adapter's `delete`) and an absolute expiry
timestamp. -/
structure CacheItem (V : Type) where
  value : Option V
  expiry : Nat
  deriving DecidableEq, Repr

/-- Modelled from the spec: the `@joaquimserafim/lru-cache` package that
`TTLLRUCache` extends is an external collaborator whose source is not part of
this repository.  Specification §6 describes it as an arbitrary bounded
key/value store exposing `get(key) → value or a recognizable not-found
signal` and `put(key, value)`.  It is modelled as a bounded
most-recently-used-first entry list: `put` refreshes or inserts at the front
and drops the least-recent entry when over capacity; `get` reports the tagged
not-found result (the `KeyNotFoundError` of the real package) and refreshes
recency on a hit. -/
structure LRUState (K A : Type) where
  entries : List (K × A)
  capacity : Nat
  deriving DecidableEq, Repr

def lruPut {A : Type} (st : LRUState K A) (k : K) (a : A) : LRUState K A :=
  { st with entries :=
      ((k, a) :: st.entries.filter (fun p => decide (p.1 ≠ k))).take st.capacity }

def lruGet {A : Type} (st : LRUState K A) (k : K) : Option A × LRUState K A :=
  match alLookup st.entries k with
  | none => (none, st)
  | some a =>
      (some a,
        { st with entries := (k, a) :: st.entries.filter (fun p => decide (p.1 ≠ k)) })

def lruKeys {A : Type} (st : LRUState K A) : List K := st.entries.map Prod.fst

/-- The `TTLLRUCache` instance state: the inherited LRU store of
`CacheItem<V>` plus the constructor's `defaultTTL`. -/
structure TTLLRU (K V : Type) where
  lru : LRUState K (CacheItem V)
  defaultTTL : Nat
  deriving DecidableEq, Repr

/-- `TTLLRUCache.set(key, value, ttl?)`. -/
def ttlSet (c : TTLLRU K V) (k : K) (v : V) (ttl : Option Nat) (now : Nat) :
    TTLLRU K V :=
  { c with lru := lruPut c.lru k ⟨some v, now + ttl.getD c.defaultTTL⟩ }

/-- `TTLLRUCache.delete(key)`: overwrites the slot with an already-expired
sentinel (`value: null`, `expiry: 0`) via `super.put` — the key is never
removed from the underlying store (the `KeyNotFoundError` catch is dead code
because `put` does not throw it). -/
def ttlDelete (c : TTLLRU K V) (k : K) : TTLLRU K V :=
  { c with lru := lruPut c.lru k ⟨none, 0⟩ }

/-- `TTLLRUCache.getValue(key)`.  A `null` stored value and a missing key
both come out as `none` (the JS code returns `null` resp. `undefined`). -/
def ttlGetValue (c : TTLLRU K V) (k : K) (now : Nat) :
    Option V × TTLLRU K V :=
  match lruGet c.lru k with
  | (none, st1) => (none, { c with lru := st1 })
  | (some item, st1) =>
      if now > item.expiry then (none, ttlDelete { c with lru := st1 } k)
      else (item.value, { c with lru := st1 })

/-- `TTLLRUCache.getWithTTL(key)`: `ttl = item.expiry - now ≤ 0` deletes and
misses. -/
def ttlGetWithTTL (c : TTLLRU K V) (k : K) (now : Nat) :
    Option (Option V × Nat) × TTLLRU K V :=
  match lruGet c.lru k with
  | (none, st1) => (none, { c with lru := st1 })
  | (some item, st1) =>
      if item.expiry ≤ now then (none, ttlDelete { c with lru := st1 } k)
      else (some (item.value, item.expiry - now), { c with lru := st1 })

/-- `TTLLRUCache.has(key)`. -/
def ttlHas (c : TTLLRU K V) (k : K) (now : Nat) : Bool × TTLLRU K V :=
  match lruGet c.lru k with
  | (none, st1) => (false, { c with lru := st1 })
  | (some item, st1) =>
      if now > item.expiry then (false, ttlDelete { c with lru := st1 } k)
      else (true, { c with lru := st1 })

/-- `TTLLRUCache.touch(key, ttl?)`. -/
def ttlTouch (c : TTLLRU K V) (k : K) (ttl : Option Nat) (now : Nat) :
    Bool × TTLLRU K V :=
  match lruGet c.lru k with
  | (none, st1) => (false, { c with lru := st1 })
  | (some item, st1) =>
      if now > item.expiry then (false, ttlDelete { c with lru := st1 } k)
      else
        (true,
          { c with lru := lruPut st1 k ⟨item.value, now + ttl.getD c.defaultTTL⟩ })

/-- The `allKeys.filter((key) => this.has(key))` loop of
`TTLLRUCache.keys()`: each `has` call can mutate the store (expired entries
are re-overwritten), so the state is threaded. -/
def ttlKeysGo (now : Nat) : List K → TTLLRU K V → List K × TTLLRU K V
  | [], c => ([], c)
  | k :: ks, c =>
      let res := ttlHas c k now
      let res2 := ttlKeysGo now ks res.2
      (if res.1 then k :: res2.1 else res2.1, res2.2)

/-- `TTLLRUCache.keys()`. -/
def ttlKeys (c : TTLLRU K V) (now : Nat) : List K × TTLLRU K V :=
  ttlKeysGo now (lruKeys c.lru) c

end Adapter

section Scenarios

/-- Unwraps a successful `set`, for chaining concrete scenarios. -/
def setOk : SetResult Nat Nat → CacheState Nat Nat
  | .ok s _ => s
  | _ => emptyCache

/-- No per-call `set` options. -/
def optsNone : SetOptions := ⟨none, none, none⟩

/-- No per-call `get` options. -/
def gOptsNone : GetOptions := ⟨none, none, none⟩

/-- `max: 2, ttl: 1000`, with a custom removal handler. -/
def cfgMax2 : Config := ⟨some 2, some (.fin 1000), false, false, false, false, true⟩

/-- Unbounded cache, `ttl: 1000`, custom removal handler. -/
def cfgNoMax : Config := ⟨none, some (.fin 1000), false, false, false, false, true⟩

/-- Unbounded cache, `ttl: 1000`, `updateAgeOnGet: true`. -/
def cfgUpd : Config := ⟨none, some (.fin 1000), true, false, false, false, true⟩

/-- Two keys `10`, `11` set with the default ttl at time 0 into the
`max: 2` cache. -/
def sTwo : CacheState Nat Nat :=
  setOk (set cfgMax2 (setOk (set cfgMax2 emptyCache 10 1 optsNone 0 5)) 11 2 optsNone 0 5)

/-- The third `set` into the full `max: 2` cache (same ttl, hence the same
expiry bucket). -/
def resThird : SetResult Nat Nat := set cfgMax2 sTwo 12 3 optsNone 0 5

/-- The state after the third `set`: key `10` — the first-inserted of the
tied group — has been evicted. -/
def sThird : CacheState Nat Nat :=
  ⟨[(1000, [11, 12])], [(11, 2), (12, 3)], [(11, .fin 1000), (12, .fin 1000)], some 1000⟩

/-- The third `set`'s trace: one eviction of key `10`. -/
def trThird : Trace Nat Nat := [(⟨some 1, 10, .evict⟩, sThird)]

/-- Keys `0`, `1`, `2` set with ttls 1000, 2000, 3000 at time 0 (claim C6). -/
def sABC : CacheState Nat Nat :=
  setOk (set cfgNoMax
    (setOk (set cfgNoMax
      (setOk (set cfgNoMax emptyCache 0 5 ⟨some (.fin 1000), none, none⟩ 0 5))
      1 6 ⟨some (.fin 2000), none, none⟩ 0 5))
    2 7 ⟨some (.fin 3000), none, none⟩ 0 5)

/-- `sABC` after `delete(1)`. -/
def sACdel : CacheState Nat Nat := (delete sABC 1).1

/-- A key stored with `ttl: Infinity` (claims C3 and C9). -/
def sInf : CacheState Nat Nat :=
  setOk (set cfgNoMax emptyCache 5 55 ⟨some .inf, none, none⟩ 0 5)

/-- The phantom state of claim C8: `get(7)` on an empty cache with
`updateAgeOnGet` files key `7` in the index and a bucket with no stored
value, arming the timer. -/
def sPhantom : CacheState Nat Nat := (get cfgUpd emptyCache 7 gOptsNone 0).2.1

/-- Claim C5's counterexample state: `set(1)` at ttl 1000, `set(2)` at
ttl 2000, then `delete(1)` — the timer stays armed for the vanished
timestamp 1000 while the only bucket is 2000. -/
def sStaleTimer : CacheState Nat Nat :=
  (delete
    (setOk (set cfgNoMax
      (setOk (set cfgNoMax emptyCache 1 1 ⟨some (.fin 1000), none, none⟩ 0 5))
      2 2 ⟨some (.fin 2000), none, none⟩ 0 5))
    1).1

/-- After `set(1, ttl 1000)` from the empty cache. -/
def sC5a : CacheState Nat Nat :=
  ⟨[(1000, [1])], [(1, 1)], [(1, .fin 1000)], some 1000⟩

/-- After `set(2, ttl 2000)` on `sC5a`. -/
def sC5b : CacheState Nat Nat :=
  ⟨[(1000, [1]), (2000, [2])], [(1, 1), (2, 2)],
    [(1, .fin 1000), (2, .fin 2000)], some 1000⟩

/-- After `delete(1)` on `sC5b`: the timer target 1000 is no longer any
bucket's timestamp (the minimum present is 2000). -/
def sC5c : CacheState Nat Nat :=
  ⟨[(2000, [2])], [(2, 2)], [(2, .fin 2000)], some 1000⟩

/-- After `set(3, ttl Infinity)` on `sC5c`. -/
def sC5d : CacheState Nat Nat :=
  ⟨[(2000, [2])], [(2, 2), (3, 7)], [(2, .fin 2000), (3, .inf)], some 1000⟩

/-- After `delete(2)` on `sC5d`: a timer is armed though no finite
expiration timestamp is present in any bucket. -/
def sC5e : CacheState Nat Nat :=
  ⟨[], [(3, 7)], [(3, .inf)], some 1000⟩

/-- A removal handler that always throws (error code 42). -/
def throwing : RemovalEvent Nat Nat → Except Nat Unit := fun _ => .error 42

/-- Three keys in one tied bucket, one over the `max: 2` capacity — the
state `set` hands to the purge loop when the third key arrives. -/
def sOver : CacheState Nat Nat :=
  ⟨[(1000, [10, 11, 12])], [(10, 1), (11, 2), (12, 3)],
    [(10, .fin 1000), (11, .fin 1000), (12, .fin 1000)], some 1000⟩

/-- An adapter cache (capacity 2, default ttl 1000) holding `1 ↦ 5`. -/
def cAdapter : TTLLRU Nat Nat := ttlSet ⟨⟨[], 2⟩, 1000⟩ 1 5 none 0

end Scenarios

section SupportLemmas

variable {K V A : Type} [DecidableEq K] [DecidableEq V]

@[simp] theorem alLookup_nil (k : K) : alLookup ([] : List (K × A)) k = none := rfl

@[simp] theorem alLookup_cons (k' : K) (a : A) (l : List (K × A)) (k : K) :
    alLookup ((k', a) :: l) k = if k' = k then some a else alLookup l k := rfl

@[simp] theorem alLookup_alInsert_self (l : List (K × A)) (k : K) (a : A) :
    alLookup (alInsert l k a) k = some a := by
  induction l with
  | nil => simp [alInsert]
  | cons p l ih =>
      obtain ⟨k', a'⟩ := p
      by_cases h : k' = k
      · simp [alInsert, h]
      · simp [alInsert, h, ih]

theorem alLookup_alInsert_ne (l : List (K × A)) (k k' : K) (a : A) (h : k ≠ k') :
    alLookup (alInsert l k a) k' = alLookup l k' := by
  induction l with
  | nil => simp [alInsert, alLookup, h]
  | cons p l ih =>
      obtain ⟨k₀, a₀⟩ := p
      by_cases h₀ : k₀ = k
      · subst h₀; simp [alInsert, alLookup, h]
      · simp [alInsert, h₀, alLookup, ih]

@[simp] theorem alLookup_alErase_self (l : List (K × A)) (k : K) :
    alLookup (alErase l k) k = none := by
  induction l with
  | nil => simp [alErase]
  | cons p l ih =>
      obtain ⟨k', a'⟩ := p
      by_cases h : k' = k
      · simp [alErase, h, ih]
      · simp [alErase, h, alLookup, ih]

theorem alLookup_alErase_ne (l : List (K × A)) (k k' : K) (h : k ≠ k') :
    alLookup (alErase l k) k' = alLookup l k' := by
  induction l with
  | nil => simp [alErase]
  | cons p l ih =>
      obtain ⟨k₀, a₀⟩ := p
      by_cases h₀ : k₀ = k
      · subst h₀
        simp [alErase, alLookup, ih, h]
      · simp [alErase, h₀, alLookup, ih]

theorem alLookup_eq_none_iff (l : List (K × A)) (k : K) :
    alLookup l k = none ↔ k ∉ l.map Prod.fst := by
  induction l with
  | nil => simp
  | cons p l ih =>
      obtain ⟨k', a'⟩ := p
      by_cases h : k' = k
      · subst h; simp
      · simp [alLookup, h, ih, Ne.symm h]

theorem alErase_of_not_mem (l : List (K × A)) (k : K) (h : k ∉ l.map Prod.fst) :
    alErase l k = l := by
  induction l with
  | nil => rfl
  | cons p l ih =>
      obtain ⟨k', a'⟩ := p
      simp only [List.map_cons, List.mem_cons] at h
      push_neg at h
      have h' : ¬ k' = k := fun hh => h.1 hh.symm
      simp [alErase, h', ih h.2]

theorem length_alErase_le (l : List (K × A)) (k : K) :
    (alErase l k).length ≤ l.length := by
  induction l with
  | nil => simp [alErase]
  | cons p l ih =>
      obtain ⟨k', a'⟩ := p
      by_cases h : k' = k
      · simp [alErase, h]; omega
      · simp [alErase, h]; omega

theorem mem_keys_alErase (l : List (K × A)) (k k' : K) :
    k' ∈ (alErase l k).map Prod.fst → k' ∈ l.map Prod.fst := by
  induction l with
  | nil => simp [alErase]
  | cons p l ih =>
      obtain ⟨k₀, a₀⟩ := p
      by_cases h : k₀ = k
      · simp only [alErase, if_pos h]
        intro hm; exact List.mem_cons_of_mem _ (ih hm)
      · simp only [alErase, if_neg h, List.map_cons, List.mem_cons]
        rintro (rfl | hm)
        · exact Or.inl rfl
        · exact Or.inr (ih hm)

theorem mem_keys_alInsert (l : List (K × A)) (k : K) (a : A) (k' : K) :
    k' ∈ (alInsert l k a).map Prod.fst ↔ k' = k ∨ k' ∈ l.map Prod.fst := by
  induction l with
  | nil => simp [alInsert]
  | cons p l ih =>
      obtain ⟨k₀, a₀⟩ := p
      by_cases h : k₀ = k
      · subst h; simp [alInsert]
      · simp only [alInsert, if_neg h, List.map_cons, List.mem_cons, ih]
        tauto

theorem nodup_keys_alErase (l : List (K × A)) (k : K)
    (h : (l.map Prod.fst).Nodup) : ((alErase l k).map Prod.fst).Nodup := by
  induction l with
  | nil => simp [alErase]
  | cons p l ih =>
      obtain ⟨k₀, a₀⟩ := p
      simp only [List.map_cons, List.nodup_cons] at h
      by_cases h₀ : k₀ = k
      · simp only [alErase, if_pos h₀]
        exact ih h.2
      · simp only [alErase, if_neg h₀, List.map_cons, List.nodup_cons]
        exact ⟨fun hm => h.1 (mem_keys_alErase l k k₀ hm), ih h.2⟩

theorem nodup_keys_alInsert (l : List (K × A)) (k : K) (a : A)
    (h : (l.map Prod.fst).Nodup) : ((alInsert l k a).map Prod.fst).Nodup := by
  induction l with
  | nil => simp [alInsert]
  | cons p l ih =>
      obtain ⟨k₀, a₀⟩ := p
      simp only [List.map_cons, List.nodup_cons] at h
      by_cases h₀ : k₀ = k
      · subst h₀
        simp only [alInsert, if_pos trivial, List.map_cons, List.nodup_cons,
          eq_self_iff_true]
        exact ⟨h.1, h.2⟩
      · simp only [alInsert, if_neg h₀, List.map_cons, List.nodup_cons]
        refine ⟨fun hm => ?_, ih h.2⟩
        rcases (mem_keys_alInsert l k a k₀).1 hm with rfl | hm
        · exact h₀ rfl
        · exact h.1 hm

@[simp] theorem alLookup_bucketInsert_self (l : List (Nat × List K)) (t : Nat)
    (ks : List K) : alLookup (bucketInsert l t ks) t = some ks := by
  induction l with
  | nil => simp [bucketInsert, alLookup]
  | cons p l ih =>
      obtain ⟨u, us⟩ := p
      by_cases h₁ : t < u
      · simp [bucketInsert, h₁, alLookup]
      · by_cases h₂ : t = u
        · simp [bucketInsert, h₁, h₂, alLookup]
        · have hne : ¬ u = t := fun hh => h₂ hh.symm
          simp [bucketInsert, h₁, h₂, alLookup, hne, ih]

theorem alLookup_bucketInsert_ne (l : List (Nat × List K)) (t t' : Nat)
    (ks : List K) (h : t ≠ t') :
    alLookup (bucketInsert l t ks) t' = alLookup l t' := by
  induction l with
  | nil => simp [bucketInsert, alLookup, h]
  | cons p l ih =>
      obtain ⟨u, us⟩ := p
      by_cases h₁ : t < u
      · simp [bucketInsert, h₁, alLookup, h]
      · by_cases h₂ : t = u
        · subst h₂; simp [bucketInsert, h₁, alLookup, h]
        · simp [bucketInsert, h₁, h₂, alLookup, ih]

theorem mem_fst_bucketInsert (l : List (Nat × List K)) (t : Nat) (ks : List K)
    (t' : Nat) :
    t' ∈ (bucketInsert l t ks).map Prod.fst ↔ t' = t ∨ t' ∈ l.map Prod.fst := by
  induction l with
  | nil => simp [bucketInsert]
  | cons p l ih =>
      obtain ⟨u, us⟩ := p
      by_cases h₁ : t < u
      · simp [bucketInsert, h₁]
      · by_cases h₂ : t = u
        · subst h₂; simp [bucketInsert, h₁]
        · simp [bucketInsert, h₁, h₂, ih]; tauto

/-- Sorted insertion preserves the ascending order of the bucket timestamps. -/
theorem pairwise_bucketInsert (l : List (Nat × List K)) (t : Nat) (ks : List K)
    (h : (l.map Prod.fst).Pairwise (· < ·)) :
    ((bucketInsert l t ks).map Prod.fst).Pairwise (· < ·) := by
  induction l with
  | nil => simp [bucketInsert]
  | cons p l ih =>
      obtain ⟨u, us⟩ := p
      simp only [List.map_cons, List.pairwise_cons] at h
      by_cases h₁ : t < u
      · simp only [bucketInsert, if_pos h₁, List.map_cons, List.pairwise_cons]
        refine ⟨?_, h.1, h.2⟩
        intro v hv
        rcases List.mem_cons.1 hv with rfl | hv
        · exact h₁
        · exact lt_trans h₁ (h.1 v hv)
      · by_cases h₂ : t = u
        · subst h₂
          have hins : bucketInsert ((t, us) :: l) t ks = (t, ks) :: l := by
            simp [bucketInsert, h₁]
          rw [hins]
          simp only [List.map_cons, List.pairwise_cons]
          exact h
        · have h₃ : u < t := by omega
          simp only [bucketInsert, if_neg h₁, if_neg h₂, List.map_cons,
            List.pairwise_cons]
          refine ⟨?_, ih h.2⟩
          intro v hv
          rcases (mem_fst_bucketInsert l t ks v).1 hv with rfl | hv
          · exact h₃
          · exact h.1 v hv

theorem mem_bucketInsert (l : List (Nat × List K)) (t : Nat) (ks : List K)
    (b : Nat × List K) (h : (l.map Prod.fst).Pairwise (· < ·)) :
    b ∈ bucketInsert l t ks ↔ b = (t, ks) ∨ (b ∈ l ∧ b.1 ≠ t) := by
  induction l with
  | nil => simp [bucketInsert]
  | cons p l ih =>
      obtain ⟨u, us⟩ := p
      simp only [List.map_cons, List.pairwise_cons] at h
      by_cases h₁ : t < u
      · simp only [bucketInsert, if_pos h₁, List.mem_cons]
        constructor
        · rintro (rfl | rfl | hb)
          · exact Or.inl rfl
          · exact Or.inr ⟨Or.inl rfl, by simp; omega⟩
          · refine Or.inr ⟨Or.inr hb, ?_⟩
            have := h.1 b.1 (List.mem_map_of_mem Prod.fst hb)
            omega
        · rintro (rfl | ⟨rfl | hb, hne⟩)
          · exact Or.inl rfl
          · exact Or.inr (Or.inl rfl)
          · exact Or.inr (Or.inr hb)
      · by_cases h₂ : t = u
        · subst h₂
          have hins : bucketInsert ((t, us) :: l) t ks = (t, ks) :: l := by
            simp [bucketInsert, h₁]
          rw [hins]
          simp only [List.mem_cons]
          constructor
          · rintro (rfl | hb)
            · exact Or.inl rfl
            · refine Or.inr ⟨Or.inr hb, ?_⟩
              have := h.1 b.1 (List.mem_map_of_mem Prod.fst hb)
              omega
          · rintro (rfl | ⟨rfl | hb, hne⟩)
            · exact Or.inl rfl
            · exact absurd rfl hne
            · exact Or.inr hb
        · have h₃ : u < t := by omega
          simp only [bucketInsert, if_neg h₁, if_neg h₂, List.mem_cons, ih h.2]
          constructor
          · rintro (rfl | rfl | ⟨hb, hne⟩)
            · exact Or.inr ⟨Or.inl rfl, by simp; omega⟩
            · exact Or.inl rfl
            · exact Or.inr ⟨Or.inr hb, hne⟩
          · rintro (rfl | ⟨rfl | hb, hne⟩)
            · exact Or.inr (Or.inl rfl)
            · exact Or.inl rfl
            · exact Or.inr (Or.inr ⟨hb, hne⟩)


theorem alErase_eq_filter (l : List (K × A)) (k : K) :
    alErase l k = l.filter (fun p => decide (p.1 ≠ k)) := by
  induction l with
  | nil => rfl
  | cons p l ih =>
      obtain ⟨k', a'⟩ := p
      by_cases h : k' = k
      · simp [alErase, h, ih]
      · simp [alErase, h, ih, List.filter_cons]

theorem alLookup_of_mem_sorted (l : List (Nat × List K)) (b : Nat × List K)
    (hs : (l.map Prod.fst).Pairwise (· < ·)) (hb : b ∈ l) :
    alLookup l b.1 = some b.2 := by
  induction l with
  | nil => cases hb
  | cons p l ih =>
      obtain ⟨u, us⟩ := p
      simp only [List.map_cons, List.pairwise_cons] at hs
      rcases List.mem_cons.1 hb with rfl | hb
      · simp [alLookup]
      · have hne : u ≠ b.1 := by
          have := hs.1 b.1 (List.mem_map_of_mem Prod.fst hb)
          omega
        simp [alLookup, hne, ih hs.2 hb]

theorem mem_of_alLookup (l : List (K × A)) (k : K) (a : A)
    (h : alLookup l k = some a) : (k, a) ∈ l := by
  induction l with
  | nil => simp [alLookup] at h
  | cons p l ih =>
      obtain ⟨k', a'⟩ := p
      by_cases hk : k' = k
      · subst hk
        simp [alLookup] at h
        subst h
        exact List.mem_cons_self _ _
      · simp only [alLookup_cons, if_neg hk] at h
        exact List.mem_cons_of_mem _ (ih h)

theorem alLookup_isSome_iff (l : List (K × A)) (k : K) :
    (alLookup l k).isSome = true ↔ k ∈ l.map Prod.fst := by
  constructor
  · intro h
    cases hl : alLookup l k with
    | none => rw [hl] at h; cases h
    | some a => exact List.mem_map_of_mem Prod.fst (mem_of_alLookup l k a hl)
  · intro h
    cases hl : alLookup l k with
    | some a => rfl
    | none => exact absurd h ((alLookup_eq_none_iff l k).1 hl)

/-- Removing one matching entry from a duplicate-free association list
shortens it by exactly one. -/
theorem length_alErase_nodup (l : List (K × A)) (k : K)
    (hn : (l.map Prod.fst).Nodup) (hk : k ∈ l.map Prod.fst) :
    (alErase l k).length = l.length - 1 := by
  induction l with
  | nil => cases hk
  | cons p l ih =>
      obtain ⟨k', a'⟩ := p
      simp only [List.map_cons, List.nodup_cons] at hn
      rcases List.mem_cons.1 hk with rfl | hk
      · rw [alErase, if_pos rfl, alErase_of_not_mem l k hn.1]
        simp
      · have hne : k' ≠ k := fun hh => hn.1 (hh ▸ hk)
        rw [alErase, if_neg hne]
        simp only [List.length_cons, ih hn.2 hk]
        have : 1 ≤ l.length := List.length_pos.2 (by
          rintro rfl; cases hk)
        omega

/-- `removeKeysStruct` leaves the bucket object and the timer untouched. -/
theorem removeKeysStruct_expirations (s : CacheState K V) (ks : List K) :
    (removeKeysStruct s ks).1.expirations = s.expirations := by
  induction ks generalizing s with
  | nil => rfl
  | cons k ks ih => simp [removeKeysStruct, ih]

theorem removeKeysStruct_timer (s : CacheState K V) (ks : List K) :
    (removeKeysStruct s ks).1.timer = s.timer := by
  induction ks generalizing s with
  | nil => rfl
  | cons k ks ih => simp [removeKeysStruct, ih]

theorem removeKeysStruct_data (s : CacheState K V) (ks : List K) :
    (removeKeysStruct s ks).1.data =
      s.data.filter (fun p => decide (p.1 ∉ ks)) := by
  induction ks generalizing s with
  | nil => simp [removeKeysStruct]
  | cons k ks ih =>
      simp only [removeKeysStruct, ih, alErase_eq_filter, List.filter_filter]
      congr 1
      funext p
      by_cases h1 : p.1 = k <;> by_cases h2 : p.1 ∈ ks <;>
        simp [h1, h2, List.mem_cons]

theorem removeKeysStruct_expirationMap (s : CacheState K V) (ks : List K) :
    (removeKeysStruct s ks).1.expirationMap =
      s.expirationMap.filter (fun p => decide (p.1 ∉ ks)) := by
  induction ks generalizing s with
  | nil => simp [removeKeysStruct]
  | cons k ks ih =>
      simp only [removeKeysStruct, ih, alErase_eq_filter, List.filter_filter]
      congr 1
      funext p
      by_cases h1 : p.1 = k <;> by_cases h2 : p.1 ∈ ks <;>
        simp [h1, h2, List.mem_cons]

theorem alLookup_filter_keep (l : List (K × A)) (q : K × A → Bool) (k : K)
    (hq : ∀ a, q (k, a) = true) :
    alLookup (l.filter q) k = alLookup l k := by
  induction l with
  | nil => rfl
  | cons p l ih =>
      obtain ⟨k', a'⟩ := p
      by_cases hk' : k' = k
      · subst hk'
        rw [List.filter_cons, if_pos (by simp [hq a'])]
        simp [alLookup]
      · cases hq' : q (k', a') with
        | true => rw [List.filter_cons, if_pos (by simp [hq'])]
                  simp [alLookup, hk', ih]
        | false => rw [List.filter_cons, if_neg (by simp [hq'])]
                   simp [alLookup, hk', ih]

theorem alLookup_filter_drop (l : List (K × A)) (q : K × A → Bool) (k : K)
    (hq : ∀ a, q (k, a) = false) :
    alLookup (l.filter q) k = none := by
  induction l with
  | nil => rfl
  | cons p l ih =>
      obtain ⟨k', a'⟩ := p
      by_cases hk' : k' = k
      · subst hk'
        rw [List.filter_cons, if_neg (by simp [hq a'])]
        exact ih
      · cases hq' : q (k', a') with
        | true => rw [List.filter_cons, if_pos (by simp [hq'])]
                  simp [alLookup, hk', ih]
        | false => rw [List.filter_cons, if_neg (by simp [hq'])]
                   exact ih

theorem alLookup_filter_not_mem (l : List (K × A)) (ks : List K) (k : K)
    (hk : k ∉ ks) :
    alLookup (l.filter (fun p => decide (p.1 ∉ ks))) k = alLookup l k :=
  alLookup_filter_keep l _ k (fun a => by simp [hk])

theorem alLookup_filter_mem (l : List (K × A)) (ks : List K) (k : K)
    (hk : k ∈ ks) :
    alLookup (l.filter (fun p => decide (p.1 ∉ ks))) k = none :=
  alLookup_filter_drop l _ k (fun a => by simp [hk])

/-- With duplicate-free keys to remove, the recorded entries are the keys
paired with their value in the store at entry to `removeKeys`. -/
theorem removeKeysStruct_entries (s : CacheState K V) (ks : List K)
    (hn : ks.Nodup) :
    (removeKeysStruct s ks).2 = ks.map (fun k => (k, alLookup s.data k)) := by
  induction ks generalizing s with
  | nil => rfl
  | cons k ks ih =>
      simp only [List.nodup_cons] at hn
      simp only [removeKeysStruct, List.map_cons, ih _ hn.2]
      congr 1
      apply List.map_congr_left
      intro k' hk'
      have hne : k ≠ k' := fun hh => hn.1 (hh ▸ hk')
      simp [alLookup_alErase_ne s.data k k' hne]

theorem mem_alErase_iff (l : List (K × A)) (k : K) (b : K × A) :
    b ∈ alErase l k ↔ b ∈ l ∧ b.1 ≠ k := by
  rw [alErase_eq_filter, List.mem_filter]
  simp

theorem pairwise_fst_alErase (l : List (Nat × A)) (k : Nat)
    (h : (l.map Prod.fst).Pairwise (· < ·)) :
    ((alErase l k).map Prod.fst).Pairwise (· < ·) := by
  rw [alErase_eq_filter]
  exact List.Pairwise.sublist (List.Sublist.map Prod.fst (List.filter_sublist l)) h

theorem mem_alInsert_iff (l : List (K × A)) (k : K) (a : A) (b : K × A)
    (hn : (l.map Prod.fst).Nodup) :
    b ∈ alInsert l k a ↔ b = (k, a) ∨ (b ∈ l ∧ b.1 ≠ k) := by
  induction l with
  | nil => simp [alInsert]
  | cons p l ih =>
      obtain ⟨k₀, a₀⟩ := p
      simp only [List.map_cons, List.nodup_cons] at hn
      by_cases h₀ : k₀ = k
      · subst h₀
        have hins : alInsert ((k₀, a₀) :: l) k₀ a = (k₀, a) :: l := by
          simp [alInsert]
        rw [hins]
        simp only [List.mem_cons]
        constructor
        · rintro (rfl | hb)
          · exact Or.inl rfl
          · refine Or.inr ⟨Or.inr hb, fun hh => hn.1 (hh ▸ List.mem_map_of_mem Prod.fst hb)⟩
        · rintro (rfl | ⟨rfl | hb, hne⟩)
          · exact Or.inl rfl
          · exact absurd rfl hne
          · exact Or.inr hb
      · simp only [alInsert, if_neg h₀, List.mem_cons, ih hn.2]
        constructor
        · rintro (rfl | rfl | ⟨hb, hne⟩)
          · exact Or.inr ⟨Or.inl rfl, fun hh => h₀ hh⟩
          · exact Or.inl rfl
          · exact Or.inr ⟨Or.inr hb, hne⟩
        · rintro (rfl | ⟨rfl | hb, hne⟩)
          · exact Or.inr (Or.inl rfl)
          · exact Or.inl rfl
          · exact Or.inr (Or.inr ⟨hb, hne⟩)

/-- A duplicate-free list with at least two elements still has an element
after one value is filtered out. -/
theorem filter_ne_nonempty (l : List K) (k : K) (hn : l.Nodup)
    (hlen : 2 ≤ l.length) : l.filter (fun x => decide (x ≠ k)) ≠ [] := by
  match l, hlen with
  | x :: y :: l, _ =>
      simp only [List.nodup_cons, List.mem_cons] at hn
      intro hemp
      by_cases hx : x = k
      · subst hx
        have hy : ¬ y = x := fun hh => hn.1 (Or.inl hh.symm)
        have : y ∈ List.filter (fun z => decide (z ≠ x)) (x :: y :: l) := by
          simp [List.mem_filter, hy]
        rw [hemp] at this
        cases this
      · have : x ∈ List.filter (fun z => decide (z ≠ k)) (x :: y :: l) := by
          simp [List.mem_filter, hx]
        rw [hemp] at this
        cases this

theorem bucketInsert_bucketInsert_same (l : List (Nat × List K)) (t : Nat)
    (ks ks' : List K) :
    bucketInsert (bucketInsert l t ks) t ks' = bucketInsert l t ks' := by
  induction l with
  | nil => simp [bucketInsert]
  | cons p l ih =>
      obtain ⟨u, us⟩ := p
      by_cases h₁ : t < u
      · simp [bucketInsert, h₁]
      · by_cases h₂ : t = u
        · subst h₂; simp [bucketInsert, h₁]
        · simp [bucketInsert, h₁, h₂, ih]

/-- Size bookkeeping: removing `ks.length` distinct keys that are all present
in a duplicate-free store shrinks it by exactly `ks.length`. -/
theorem removeKeysStruct_size (s : CacheState K V) (ks : List K)
    (hn : ks.Nodup) (hd : (s.data.map Prod.fst).Nodup)
    (hmem : ∀ k ∈ ks, k ∈ s.data.map Prod.fst) :
    size (removeKeysStruct s ks).1 = size s - ks.length := by
  induction ks generalizing s with
  | nil => simp [removeKeysStruct]
  | cons k ks ih =>
      simp only [List.nodup_cons] at hn
      have hkmem : k ∈ s.data.map Prod.fst := hmem k (List.mem_cons_self _ _)
      have hpos : 0 < s.data.length :=
        List.length_pos.2 (fun hnil => by simp [hnil] at hkmem)
      have hstep : (alErase s.data k).length = s.data.length - 1 :=
        length_alErase_nodup s.data k hd hkmem
      have hmem' : ∀ k' ∈ ks, k' ∈ (alErase s.data k).map Prod.fst := by
        intro k' hk'
        have h1 := hmem k' (List.mem_cons_of_mem _ hk')
        have hne : k ≠ k' := fun hh => hn.1 (hh ▸ hk')
        rw [← alLookup_isSome_iff] at h1 ⊢
        rwa [alLookup_alErase_ne s.data k k' hne]
      simp only [removeKeysStruct]
      rw [ih _ hn.2 (nodup_keys_alErase _ _ hd) hmem']
      simp only [size, hstep, List.length_cons]
      omega

end SupportLemmas

section InvariantLemmas

variable {K V : Type} [DecidableEq K] [DecidableEq V]

theorem WF.mapBucket {s : CacheState K V} (h : WF s) {k : K} {t : Nat}
    (hk : alLookup s.expirationMap k = some (.fin t)) :
    ∃ ks, alLookup s.expirations t = some ks ∧ k ∈ ks := by
  obtain ⟨-, -, hmb, -, -⟩ := h
  have hp := hmb (k, .fin t) (mem_of_alLookup _ _ _ hk)
  change k ∈ (alLookup s.expirations t).getD [] at hp
  cases hl : alLookup s.expirations t with
  | none => rw [hl] at hp; cases hp
  | some ks => rw [hl] at hp; exact ⟨ks, rfl, hp⟩

/-- A key listed in some bucket of a well-formed state is not listed in any
bucket with a different timestamp. -/
theorem WF.bucket_key_unique {s : CacheState K V} (h : WF s)
    {b b' : Nat × List K} (hb : b ∈ s.expirations) (hb' : b' ∈ s.expirations)
    {k : K} (hk : k ∈ b.2) (hk' : k ∈ b'.2) : b = b' := by
  obtain ⟨hsorted, hbuckets, -, -, -⟩ := h
  have h1 := (hbuckets b hb).2.2 k hk
  have h2 := (hbuckets b' hb').2.2 k hk'
  rw [h1] at h2
  have ht : b.1 = b'.1 := by
    injection h2 with h2; injection h2
  have l1 := alLookup_of_mem_sorted s.expirations b hsorted hb
  have l2 := alLookup_of_mem_sorted s.expirations b' hsorted hb'
  rw [ht] at l1
  rw [l1] at l2
  injection l2 with l2
  exact Prod.ext ht l2

/-- Effect of the bucket-removal half of `setTTL` on a well-formed state:
everything but `expirations` is untouched; the buckets stay sorted,
non-empty, duplicate-free and backed by the (unchanged) reverse index; the
key is listed in no bucket any more; every other reverse-index entry is still
backed; and no new timestamp appears. -/
theorem removeFromCurrentBucket_spec (s : CacheState K V) (key : K)
    (h : WF s) :
    (removeFromCurrentBucket s key).data = s.data ∧
    (removeFromCurrentBucket s key).expirationMap = s.expirationMap ∧
    (removeFromCurrentBucket s key).timer = s.timer ∧
    ((removeFromCurrentBucket s key).expirations.map Prod.fst).Pairwise (· < ·) ∧
    (∀ b ∈ (removeFromCurrentBucket s key).expirations, b.2 ≠ [] ∧ b.2.Nodup ∧
        ∀ k ∈ b.2, alLookup s.expirationMap k = some (.fin b.1)) ∧
    (∀ b ∈ (removeFromCurrentBucket s key).expirations, key ∉ b.2) ∧
    (∀ p ∈ s.expirationMap, p.1 ≠ key →
        mapBucketOK (removeFromCurrentBucket s key) p) ∧
    (∀ b ∈ (removeFromCurrentBucket s key).expirations,
        b.1 ∈ s.expirations.map Prod.fst) := by
  obtain ⟨hsorted, hbuckets, hmb, hdn, hmn⟩ := h
  cases hcur : alLookup s.expirationMap key with
  | none =>
      have hid : removeFromCurrentBucket s key = s := by
        unfold removeFromCurrentBucket
        rw [hcur]
      rw [hid]
      refine ⟨rfl, rfl, rfl, hsorted, hbuckets, ?_, ?_, ?_⟩
      · intro b hb hk
        have := (hbuckets b hb).2.2 key hk
        rw [hcur] at this; cases this
      · intro p hp _
        exact hmb p hp
      · intro b hb; exact List.mem_map_of_mem Prod.fst hb
  | some cur =>
      cases cur with
      | inf =>
          have hid : removeFromCurrentBucket s key = s := by
            unfold removeFromCurrentBucket
            rw [hcur]
          rw [hid]
          refine ⟨rfl, rfl, rfl, hsorted, hbuckets, ?_, ?_, ?_⟩
          · intro b hb hk
            have := (hbuckets b hb).2.2 key hk
            rw [hcur] at this
            injection this with this; cases this
          · intro p hp _
            exact hmb p hp
          · intro b hb; exact List.mem_map_of_mem Prod.fst hb
      | fin cur =>
          obtain ⟨exp, hexp, hkey⟩ :=
            WF.mapBucket ⟨hsorted, hbuckets, hmb, hdn, hmn⟩ hcur
          have hcurb : (cur, exp) ∈ s.expirations := mem_of_alLookup _ _ _ hexp
          by_cases hlen : exp.length ≤ 1
          · -- the bucket was (at most) the key alone: delete it whole
            have hid : removeFromCurrentBucket s key =
                { s with expirations := alErase s.expirations cur } := by
              unfold removeFromCurrentBucket
              rw [hcur]
              dsimp only
              rw [hexp]
              dsimp only
              rw [if_pos hlen]
            rw [hid]
            refine ⟨rfl, rfl, rfl,
              pairwise_fst_alErase _ _ hsorted, ?_, ?_, ?_, ?_⟩
            · intro b hb
              exact hbuckets b ((mem_alErase_iff _ _ _).1 hb).1
            · intro b hb hk
              obtain ⟨hbm, hbne⟩ := (mem_alErase_iff _ _ _).1 hb
              have := WF.bucket_key_unique ⟨hsorted, hbuckets, hmb, hdn, hmn⟩
                hbm hcurb hk hkey
              exact hbne (by rw [this])
            · intro p hp hpne
              cases hpt : p.2 with
              | inf =>
                  have : mapBucketOK
                      { s with expirations := alErase s.expirations cur }
                      (p.1, ExpiryTime.inf) := trivial
                  rw [show p = (p.1, p.2) from rfl, hpt]
                  exact this
              | fin u =>
                  have hpm := hmb p hp
                  rw [show p = (p.1, p.2) from rfl, hpt] at hpm ⊢
                  change p.1 ∈ (alLookup s.expirations u).getD [] at hpm
                  change p.1 ∈ (alLookup (alErase s.expirations cur) u).getD []
                  by_cases hu : u = cur
                  · subst hu
                    rw [hexp] at hpm
                    simp only [Option.getD_some] at hpm
                    -- the bucket has at most one element and contains both
                    -- `key` and `p.1 ≠ key`: impossible
                    have hx : exp = [key] := by
                      cases exp with
                      | nil => cases hkey
                      | cons x l =>
                          cases l with
                          | nil =>
                              simp only [List.mem_singleton] at hkey
                              rw [hkey]
                          | cons y l => simp at hlen
                    rw [hx] at hpm
                    simp only [List.mem_singleton] at hpm
                    exact absurd hpm hpne
                  · have hne : cur ≠ u := fun hh => hu hh.symm
                    rwa [alLookup_alErase_ne _ _ _ hne]
            · intro b hb
              exact List.mem_map_of_mem Prod.fst ((mem_alErase_iff _ _ _).1 hb).1
          · -- filter the key out of the bucket, in place
            have hcnd := hbuckets (cur, exp) hcurb
            have hid : removeFromCurrentBucket s key =
                { s with expirations :=
                    (bucketInsert s.expirations cur (exp.filter (fun k => k ≠ key))) } := by
              unfold removeFromCurrentBucket
              rw [hcur]
              dsimp only
              rw [hexp]
              dsimp only
              rw [if_neg hlen]
            rw [hid]
            refine ⟨rfl, rfl, rfl, pairwise_bucketInsert _ _ _ hsorted,
              ?_, ?_, ?_, ?_⟩
            · intro b hb
              rcases (mem_bucketInsert _ _ _ _ hsorted).1 hb with rfl | ⟨hbm, hbne⟩
              · refine ⟨?_, ?_, ?_⟩
                · exact filter_ne_nonempty exp key hcnd.2.1 (by omega)
                · exact List.Nodup.filter _ hcnd.2.1
                · intro k hk
                  exact hcnd.2.2 k (List.mem_of_mem_filter hk)
              · exact hbuckets b hbm
            · intro b hb hk
              rcases (mem_bucketInsert _ _ _ _ hsorted).1 hb with rfl | ⟨hbm, hbne⟩
              · simp only [List.mem_filter] at hk
                simp at hk
              · have := WF.bucket_key_unique ⟨hsorted, hbuckets, hmb, hdn, hmn⟩
                  hbm hcurb hk hkey
                exact hbne (by rw [this])
            · intro p hp hpne
              cases hpt : p.2 with
              | inf =>
                  have : mapBucketOK
                      { s with expirations :=
                          (bucketInsert s.expirations cur (exp.filter (fun k => k ≠ key))) }
                      (p.1, ExpiryTime.inf) := trivial
                  rw [show p = (p.1, p.2) from rfl, hpt]
                  exact this
              | fin u =>
                  have hpm := hmb p hp
                  rw [show p = (p.1, p.2) from rfl, hpt] at hpm ⊢
                  change p.1 ∈ (alLookup s.expirations u).getD [] at hpm
                  change p.1 ∈ (alLookup (bucketInsert s.expirations cur
                    (exp.filter (fun k => k ≠ key))) u).getD []
                  by_cases hu : u = cur
                  · subst hu
                    rw [alLookup_bucketInsert_self]
                    rw [hexp] at hpm
                    simp only [Option.getD_some] at hpm ⊢
                    simp [List.mem_filter, hpm, hpne]
                  · have hne : cur ≠ u := fun hh => hu hh.symm
                    rwa [alLookup_bucketInsert_ne _ _ _ _ hne]
            · intro b hb
              rcases (mem_fst_bucketInsert _ _ _ _).1
                  (List.mem_map_of_mem Prod.fst hb) with heq | hm
              · rw [heq]; exact List.mem_map_of_mem Prod.fst hcurb
              · exact hm

theorem mapBucketOK_congr {s s' : CacheState K V}
    (h : s.expirations = s'.expirations) {p : K × ExpiryTime}
    (hp : mapBucketOK s p) : mapBucketOK s' p := by
  obtain ⟨k, e⟩ := p
  cases e with
  | inf => trivial
  | fin t =>
      change k ∈ (alLookup s'.expirations t).getD []
      change k ∈ (alLookup s.expirations t).getD [] at hp
      rwa [h] at hp

/-- `setTTL` with a finite ttl, written as a single record: relocate the key
(`removeFromCurrentBucket`), point the reverse index at `now + t`, append the
key to the target bucket (created empty if fresh, in which case the timer is
re-evaluated). -/
theorem setTTL_fin_eq (s : CacheState K V) (key : K) (t now : Nat) :
    setTTL s key (.fin t) now =
      { expirations :=
          (bucketInsert (removeFromCurrentBucket s key).expirations (now + t)
            (((alLookup (removeFromCurrentBucket s key).expirations (now + t)).getD [])
              ++ [key])),
        data := (removeFromCurrentBucket s key).data,
        expirationMap :=
          (alInsert (removeFromCurrentBucket s key).expirationMap key (.fin (now + t))),
        timer :=
          (match alLookup (removeFromCurrentBucket s key).expirations (now + t) with
            | some _ => (removeFromCurrentBucket s key).timer
            | none => (setTimer (removeFromCurrentBucket s key) (now + t)).timer) } := by
  unfold setTTL
  dsimp only
  cases h : alLookup (removeFromCurrentBucket s key).expirations (now + t) with
  | some ks => simp
  | none =>
      dsimp only
      unfold setTimer
      dsimp only
      cases ht : (removeFromCurrentBucket s key).timer with
      | none => simp [bucketInsert_bucketInsert_same]
      | some te =>
          by_cases hte : te < now + t <;>
            simp [hte, ht, bucketInsert_bucketInsert_same]

theorem setTTL_inf_eq (s : CacheState K V) (key : K) (now : Nat) :
    setTTL s key .inf now =
      { expirations := (removeFromCurrentBucket s key).expirations,
        data := (removeFromCurrentBucket s key).data,
        expirationMap :=
          (alInsert (removeFromCurrentBucket s key).expirationMap key .inf),
        timer := (removeFromCurrentBucket s key).timer } := rfl

/-- `setTTL` preserves well-formedness. -/
theorem setTTL_WF (s : CacheState K V) (key : K) (ttl : ExpiryTime) (now : Nat)
    (h : WF s) : WF (setTTL s key ttl now) := by
  obtain ⟨hdata, hmap, htimer, hsorted, hbuckets, hnokey, hmbok, hts⟩ :=
    removeFromCurrentBucket_spec s key h
  obtain ⟨-, -, -, hdn, hmn⟩ := h
  have hmn1 : ((removeFromCurrentBucket s key).expirationMap.map Prod.fst).Nodup := by
    rw [hmap]; exact hmn
  cases ttl with
  | inf =>
      rw [setTTL_inf_eq]
      refine ⟨hsorted, ?_, ?_, ?_, ?_⟩
      · intro b hb
        obtain ⟨h1, h2, h3⟩ := hbuckets b hb
        refine ⟨h1, h2, ?_⟩
        intro k hk
        have hne : key ≠ k := fun hh => hnokey b hb (hh ▸ hk)
        rw [alLookup_alInsert_ne _ _ _ _ hne, hmap]
        exact h3 k hk
      · intro p hp
        rcases (mem_alInsert_iff _ _ _ _ hmn1).1 hp with rfl | ⟨hpm, hpne⟩
        · trivial
        · rw [hmap] at hpm
          exact mapBucketOK_congr rfl (hmbok p hpm hpne)
      · rw [hdata]; exact hdn
      · exact nodup_keys_alInsert _ _ _ hmn1
  | fin t =>
      rw [setTTL_fin_eq]
      set s1 := removeFromCurrentBucket s key with hs1
      set E := now + t with hE
      set oldB := (alLookup s1.expirations E).getD [] with holdB
      have holdmem : ∀ k ∈ oldB, ∃ b ∈ s1.expirations, b.1 = E ∧ k ∈ b.2 := by
        intro k hk
        cases hl : alLookup s1.expirations E with
        | none => rw [holdB, hl] at hk; cases hk
        | some ks =>
            rw [holdB, hl] at hk
            exact ⟨(E, ks), mem_of_alLookup _ _ _ hl, rfl, hk⟩
      have hkeyold : key ∉ oldB := by
        intro hk
        obtain ⟨b, hb, -, hkb⟩ := holdmem key hk
        exact hnokey b hb hkb
      refine ⟨?_, ?_, ?_, ?_, ?_⟩
      · exact pairwise_bucketInsert _ _ _ hsorted
      · intro b hb
        rcases (mem_bucketInsert _ _ _ _ hsorted).1 hb with rfl | ⟨hbm, hbne⟩
        · refine ⟨by simp, ?_, ?_⟩
          · rw [List.nodup_append]
            refine ⟨?_, List.nodup_singleton key, ?_⟩
            · cases hl : alLookup s1.expirations E with
              | none => rw [holdB, hl]; exact List.nodup_nil
              | some ks =>
                  rw [holdB, hl]
                  exact (hbuckets (E, ks) (mem_of_alLookup _ _ _ hl)).2.1
            · intro a ha hb
              simp only [List.mem_singleton] at hb
              exact hkeyold (hb ▸ ha)
          · intro k hk
            rcases List.mem_append.1 hk with hk | hk
            · obtain ⟨b', hb', hbE, hkb⟩ := holdmem k hk
              have hne : key ≠ k := fun hh => hnokey b' hb' (hh ▸ hkb)
              rw [alLookup_alInsert_ne _ _ _ _ hne, hmap]
              rw [(hbuckets b' hb').2.2 k hkb, hbE]
            · simp only [List.mem_singleton] at hk
              subst hk
              simp
        · obtain ⟨h1, h2, h3⟩ := hbuckets b hbm
          refine ⟨h1, h2, ?_⟩
          intro k hk
          have hne : key ≠ k := fun hh => hnokey b hbm (hh ▸ hk)
          rw [alLookup_alInsert_ne _ _ _ _ hne, hmap]
          exact h3 k hk
      · intro p hp
        rcases (mem_alInsert_iff _ _ _ _ hmn1).1 hp with rfl | ⟨hpm, hpne⟩
        · change key ∈ (alLookup (bucketInsert s1.expirations E (oldB ++ [key])) E).getD []
          rw [alLookup_bucketInsert_self]
          simp
        · rw [hmap] at hpm
          have hok := hmbok p hpm hpne
          obtain ⟨k, e⟩ := p
          cases e with
          | inf => trivial
          | fin u =>
              change k ∈ (alLookup s1.expirations u).getD [] at hok
              change k ∈
                (alLookup (bucketInsert s1.expirations E (oldB ++ [key])) u).getD []
              by_cases hu : E = u
              · subst hu
                rw [alLookup_bucketInsert_self]
                simp only [Option.getD_some]
                exact List.mem_append.2 (Or.inl hok)
              · rwa [alLookup_bucketInsert_ne _ _ _ _ hu]
      · rw [hdata]; exact hdn
      · exact nodup_keys_alInsert _ _ _ hmn1

/-- `setTTL` preserves the timer discipline: the only timer write is the
`setTimer` guarding a newly created bucket, which never raises the armed
target above an existing bucket's timestamp. -/
theorem setTTL_TimerInv (s : CacheState K V) (key : K) (ttl : ExpiryTime)
    (now : Nat) (h : WF s) (ht : TimerInv s) : TimerInv (setTTL s key ttl now) := by
  obtain ⟨hdata, hmap, htimer, hsorted, hbuckets, hnokey, hmbok, hts⟩ :=
    removeFromCurrentBucket_spec s key h
  obtain ⟨harm, hle⟩ := ht
  have hsub : ∀ b ∈ (removeFromCurrentBucket s key).expirations,
      s.timer.getD 0 ≤ b.1 := by
    intro b hb
    rcases List.mem_map.1 (hts b hb) with ⟨b', hb', hfst⟩
    exact hfst ▸ hle b' hb'
  have hnil : s.timer = none → (removeFromCurrentBucket s key).expirations = [] := by
    intro hn
    have := harm hn
    rw [List.eq_nil_iff_forall_not_mem]
    intro b hb
    have h1 := hts b hb
    rw [this] at h1
    cases h1
  cases ttl with
  | inf =>
      rw [setTTL_inf_eq]
      constructor
      · intro hn
        exact hnil (htimer ▸ hn)
      · intro b hb
        rw [htimer]
        exact hsub b hb
  | fin t =>
      rw [setTTL_fin_eq]
      cases hl : alLookup (removeFromCurrentBucket s key).expirations (now + t) with
      | some ks =>
          refine ⟨?_, ?_⟩
          · intro hn
            dsimp only at hn
            have h0 := hnil (htimer ▸ hn)
            rw [h0] at hl
            simp [alLookup] at hl
          · intro b hb
            dsimp only at hb ⊢
            rw [htimer]
            rcases (mem_bucketInsert _ _ _ _ hsorted).1 hb with rfl | ⟨hbm, hbne⟩
            · exact hsub (now + t, ks) (mem_of_alLookup _ _ _ hl)
            · exact hsub b hbm
      | none =>
          refine ⟨?_, ?_⟩
          · intro hn
            dsimp only at hn
            unfold setTimer at hn
            cases ht1 : (removeFromCurrentBucket s key).timer with
            | none => rw [ht1] at hn; simp at hn
            | some te =>
                rw [ht1] at hn
                dsimp only at hn
                by_cases hte : te < now + t
                · rw [if_pos hte, ht1] at hn
                  simp at hn
                · rw [if_neg hte] at hn
                  simp at hn
          · intro b hb
            dsimp only at hb ⊢
            unfold setTimer
            rcases (mem_bucketInsert _ _ _ _ hsorted).1 hb with rfl | ⟨hbm, hbne⟩
            · cases ht1 : (removeFromCurrentBucket s key).timer with
              | none => simp
              | some te =>
                  dsimp only
                  by_cases hte : te < now + t
                  · rw [if_pos hte, ht1]
                    simp
                    omega
                  · rw [if_neg hte]
                    simp
            · cases ht1 : (removeFromCurrentBucket s key).timer with
              | none =>
                  have h0 : s.timer = none := htimer ▸ ht1
                  have h1 := hnil h0
                  rw [h1] at hbm
                  cases hbm
              | some te =>
                  have hteb : te ≤ b.1 := by
                    have hx := hsub b hbm
                    rw [htimer] at ht1
                    rw [ht1] at hx
                    exact hx
                  dsimp only
                  by_cases hte : te < now + t
                  · rw [if_pos hte, ht1]
                    simpa using hteb
                  · rw [if_neg hte]
                    simp
                    omega

/-- `setTTL` keeps every bucket-listed key backed by a stored value, except
possibly the relocated key itself (which `set` stores right afterwards). -/
theorem setTTL_coherent (s : CacheState K V) (key : K) (ttl : ExpiryTime)
    (now : Nat) (h : WF s) (hc : Coherent s) :
    ∀ b ∈ (setTTL s key ttl now).expirations, ∀ k ∈ b.2,
      k = key ∨ k ∈ s.data.map Prod.fst := by
  obtain ⟨hdata, hmap, htimer, hsorted, hbuckets, hnokey, hmbok, hts⟩ :=
    removeFromCurrentBucket_spec s key h
  have hback : ∀ b ∈ (removeFromCurrentBucket s key).expirations, ∀ k ∈ b.2,
      k ∈ s.data.map Prod.fst := by
    intro b hb k hk
    have hlk := (hbuckets b hb).2.2 k hk
    obtain ⟨ks, hks, hkks⟩ := WF.mapBucket h hlk
    exact hc (b.1, ks) (mem_of_alLookup _ _ _ hks) k hkks
  cases ttl with
  | inf =>
      rw [setTTL_inf_eq]
      intro b hb k hk
      exact Or.inr (hback b hb k hk)
  | fin t =>
      rw [setTTL_fin_eq]
      intro b hb k hk
      dsimp only at hb
      rcases (mem_bucketInsert _ _ _ _ hsorted).1 hb with rfl | ⟨hbm, hbne⟩
      · rcases List.mem_append.1 hk with hk | hk
        · cases hl : alLookup (removeFromCurrentBucket s key).expirations (now + t) with
          | none => rw [hl] at hk; cases hk
          | some ks =>
              rw [hl] at hk
              simp only [Option.getD_some] at hk
              exact Or.inr (hback (now + t, ks) (mem_of_alLookup _ _ _ hl) k hk)
        · simp only [List.mem_singleton] at hk
          exact Or.inl hk
      · exact Or.inr (hback b hbm k hk)

theorem nodup_drop_not_mem_take (l : List K) (n : Nat) (hn : l.Nodup)
    (a : K) (ha : a ∈ l.drop n) : a ∉ l.take n := by
  intro hmem
  have := List.take_append_drop n l
  rw [← this] at hn
  rw [List.nodup_append] at hn
  exact hn.2.2 hmem ha

/-- Keys of a bucket at the head of the list appear in no later bucket. -/
theorem head_bucket_keys_not_later (s : CacheState K V) (t : Nat) (ks : List K)
    (rest : List (Nat × List K)) (h : WF s)
    (hexp : s.expirations = (t, ks) :: rest) :
    ∀ b ∈ rest, ∀ k ∈ b.2, k ∉ ks := by
  obtain ⟨hsorted, hbuckets, -, -, -⟩ := h
  intro b hb k hk hkks
  have h1 := (hbuckets (t, ks) (by rw [hexp]; exact List.mem_cons_self _ _)).2.2 k hkks
  have h2 := (hbuckets b (by rw [hexp]; exact List.mem_cons_of_mem _ hb)).2.2 k hk
  rw [h1] at h2
  injection h2 with h2
  injection h2 with h2
  rw [hexp] at hsorted
  simp only [List.map_cons, List.pairwise_cons] at hsorted
  have := hsorted.1 b.1 (List.mem_map_of_mem Prod.fst hb)
  omega

/-- Removing a whole head bucket (`purgeToCapacity`'s first branch and every
`purgeStale` step): characterization and invariant preservation. -/
theorem removeBucket_spec (s : CacheState K V) (t : Nat) (ks : List K)
    (rest : List (Nat × List K)) (h : WF s)
    (hexp : s.expirations = (t, ks) :: rest) :
    (removeKeysStruct { s with expirations := rest } ks).1.expirations = rest ∧
    (removeKeysStruct { s with expirations := rest } ks).1.data =
      s.data.filter (fun p => decide (p.1 ∉ ks)) ∧
    (removeKeysStruct { s with expirations := rest } ks).1.expirationMap =
      s.expirationMap.filter (fun p => decide (p.1 ∉ ks)) ∧
    (removeKeysStruct { s with expirations := rest } ks).1.timer = s.timer ∧
    WF (removeKeysStruct { s with expirations := rest } ks).1 ∧
    (Coherent s → Coherent (removeKeysStruct { s with expirations := rest } ks).1) ∧
    (Coherent s → size (removeKeysStruct { s with expirations := rest } ks).1 =
      size s - ks.length) ∧
    (TimerInv s → TimerInv (removeKeysStruct { s with expirations := rest } ks).1) := by
  obtain ⟨hsorted, hbuckets, hmb, hdn, hmn⟩ := h
  have hnotlater := head_bucket_keys_not_later s t ks rest
    ⟨hsorted, hbuckets, hmb, hdn, hmn⟩ hexp
  have he : (removeKeysStruct { s with expirations := rest } ks).1.expirations = rest :=
    removeKeysStruct_expirations _ _
  have hd : (removeKeysStruct { s with expirations := rest } ks).1.data =
      s.data.filter (fun p => decide (p.1 ∉ ks)) :=
    removeKeysStruct_data _ _
  have hm : (removeKeysStruct { s with expirations := rest } ks).1.expirationMap =
      s.expirationMap.filter (fun p => decide (p.1 ∉ ks)) :=
    removeKeysStruct_expirationMap _ _
  have hti : (removeKeysStruct { s with expirations := rest } ks).1.timer = s.timer :=
    removeKeysStruct_timer _ _
  have hsorted' : (rest.map Prod.fst).Pairwise (· < ·) := by
    rw [hexp] at hsorted
    simp only [List.map_cons, List.pairwise_cons] at hsorted
    exact hsorted.2
  refine ⟨he, hd, hm, hti, ⟨?_, ?_, ?_, ?_, ?_⟩, ?_, ?_, ?_⟩
  · rw [he]; exact hsorted'
  · rw [he]
    intro b hb
    have hbmem : b ∈ s.expirations := by
      rw [hexp]; exact List.mem_cons_of_mem _ hb
    obtain ⟨h1, h2, h3⟩ := hbuckets b hbmem
    refine ⟨h1, h2, ?_⟩
    intro k hk
    rw [hm]
    rw [alLookup_filter_not_mem _ _ _ (hnotlater b hb k hk)]
    exact h3 k hk
  · rw [hm]
    intro p hp
    rw [List.mem_filter] at hp
    have hpk : p.1 ∉ ks := by simpa using hp.2
    have hok := hmb p hp.1
    obtain ⟨k, e⟩ := p
    cases e with
    | inf => trivial
    | fin u =>
        change k ∈ (alLookup s.expirations u).getD [] at hok
        change k ∈ (alLookup (removeKeysStruct
          { s with expirations := rest } ks).1.expirations u).getD []
        rw [he]
        rw [hexp] at hok
        by_cases hu : t = u
        · subst hu
          simp only [alLookup_cons, if_pos rfl, Option.getD_some] at hok
          exact absurd hok hpk
        · rwa [alLookup_cons, if_neg hu] at hok
  · rw [hd]
    exact List.Nodup.sublist (List.Sublist.map Prod.fst (List.filter_sublist _)) hdn
  · rw [hm]
    exact List.Nodup.sublist (List.Sublist.map Prod.fst (List.filter_sublist _)) hmn
  · intro hc
    intro b hb k hk
    rw [he] at hb
    have hbmem : b ∈ s.expirations := by
      rw [hexp]; exact List.mem_cons_of_mem _ hb
    have hkd := hc b hbmem k hk
    rcases List.mem_map.1 hkd with ⟨p, hp, rfl⟩
    rw [hd]
    refine List.mem_map_of_mem Prod.fst (List.mem_filter.2 ⟨hp, ?_⟩)
    simpa using hnotlater b hb p.1 hk
  · intro hc
    have := removeKeysStruct_size { s with expirations := rest } ks
      (hbuckets (t, ks) (by rw [hexp]; exact List.mem_cons_self _ _)).2.1
      hdn
      (fun k hk => hc (t, ks) (by rw [hexp]; exact List.mem_cons_self _ _) k hk)
    simpa [size] using this
  · intro ht
    obtain ⟨harm, hle⟩ := ht
    constructor
    · intro hn
      rw [hti] at hn
      have := harm hn
      rw [hexp] at this
      cases this
    · intro b hb
      rw [he] at hb
      rw [hti]
      exact hle b (by rw [hexp]; exact List.mem_cons_of_mem _ hb)

/-- Splicing the first `n` keys out of the head bucket (`purgeToCapacity`'s
stopping branch): characterization and invariant preservation.  `n` is kept
strictly below the bucket length, which the branch condition guarantees. -/
theorem spliceBucket_spec (s : CacheState K V) (t : Nat) (ks : List K)
    (rest : List (Nat × List K)) (n : Nat) (h : WF s)
    (hexp : s.expirations = (t, ks) :: rest) (hn : n < ks.length) :
    (removeKeysStruct { s with expirations := (t, ks.drop n) :: rest }
      (ks.take n)).1.expirations = (t, ks.drop n) :: rest ∧
    (removeKeysStruct { s with expirations := (t, ks.drop n) :: rest }
      (ks.take n)).1.data =
      s.data.filter (fun p => decide (p.1 ∉ ks.take n)) ∧
    (removeKeysStruct { s with expirations := (t, ks.drop n) :: rest }
      (ks.take n)).1.expirationMap =
      s.expirationMap.filter (fun p => decide (p.1 ∉ ks.take n)) ∧
    (removeKeysStruct { s with expirations := (t, ks.drop n) :: rest }
      (ks.take n)).1.timer = s.timer ∧
    WF (removeKeysStruct { s with expirations := (t, ks.drop n) :: rest }
      (ks.take n)).1 ∧
    (Coherent s → Coherent (removeKeysStruct
      { s with expirations := (t, ks.drop n) :: rest } (ks.take n)).1) ∧
    (Coherent s → size (removeKeysStruct
      { s with expirations := (t, ks.drop n) :: rest } (ks.take n)).1 =
      size s - n) ∧
    (TimerInv s → TimerInv (removeKeysStruct
      { s with expirations := (t, ks.drop n) :: rest } (ks.take n)).1) := by
  obtain ⟨hsorted, hbuckets, hmb, hdn, hmn⟩ := h
  have hnotlater := head_bucket_keys_not_later s t ks rest
    ⟨hsorted, hbuckets, hmb, hdn, hmn⟩ hexp
  have hheadmem : (t, ks) ∈ s.expirations := by
    rw [hexp]; exact List.mem_cons_self _ _
  have hksnd := hbuckets (t, ks) hheadmem
  have he : (removeKeysStruct { s with expirations := (t, ks.drop n) :: rest }
      (ks.take n)).1.expirations = (t, ks.drop n) :: rest :=
    removeKeysStruct_expirations _ _
  have hd := removeKeysStruct_data
    { s with expirations := (t, ks.drop n) :: rest } (ks.take n)
  have hm := removeKeysStruct_expirationMap
    { s with expirations := (t, ks.drop n) :: rest } (ks.take n)
  have hti : (removeKeysStruct { s with expirations := (t, ks.drop n) :: rest }
      (ks.take n)).1.timer = s.timer :=
    removeKeysStruct_timer _ _
  have hfst : ((((t, ks.drop n) :: rest) : List (Nat × List K)).map Prod.fst) =
      s.expirations.map Prod.fst := by
    rw [hexp]; simp
  refine ⟨he, hd, hm, hti, ⟨?_, ?_, ?_, ?_, ?_⟩, ?_, ?_, ?_⟩
  · rw [he, hfst]; exact hsorted
  · rw [he]
    intro b hb
    rcases List.mem_cons.1 hb with rfl | hb
    · refine ⟨?_, List.Nodup.sublist (List.drop_sublist n ks) hksnd.2.1, ?_⟩
      · intro hnil
        have := List.drop_eq_nil_iff.1 hnil
        omega
      · intro k hk
        rw [hm]
        rw [alLookup_filter_not_mem _ _ _
          (nodup_drop_not_mem_take ks n hksnd.2.1 k hk)]
        exact hksnd.2.2 k (List.mem_of_mem_drop hk)
    · have hbmem : b ∈ s.expirations := by
        rw [hexp]; exact List.mem_cons_of_mem _ hb
      obtain ⟨h1, h2, h3⟩ := hbuckets b hbmem
      refine ⟨h1, h2, ?_⟩
      intro k hk
      rw [hm]
      have hkt : k ∉ ks.take n :=
        fun hmem => hnotlater b hb k hk (List.mem_of_mem_take hmem)
      rw [alLookup_filter_not_mem _ _ _ hkt]
      exact h3 k hk
  · rw [hm]
    intro p hp
    rw [List.mem_filter] at hp
    have hpk : p.1 ∉ ks.take n := by simpa using hp.2
    have hok := hmb p hp.1
    obtain ⟨k, e⟩ := p
    cases e with
    | inf => trivial
    | fin u =>
        change k ∈ (alLookup s.expirations u).getD [] at hok
        change k ∈ (alLookup (removeKeysStruct
          { s with expirations := (t, ks.drop n) :: rest }
          (ks.take n)).1.expirations u).getD []
        rw [he]
        rw [hexp] at hok
        by_cases hu : t = u
        · subst hu
          simp only [alLookup_cons, if_pos rfl, Option.getD_some] at hok ⊢
          have : k ∈ ks.take n ∨ k ∈ ks.drop n := by
            rw [← List.mem_append, List.take_append_drop]
            exact hok
          rcases this with hmem | hmem
          · exact absurd hmem hpk
          · exact hmem
        · rw [alLookup_cons, if_neg hu] at hok ⊢
          exact hok
  · rw [hd]
    exact List.Nodup.sublist (List.Sublist.map Prod.fst (List.filter_sublist _)) hdn
  · rw [hm]
    exact List.Nodup.sublist (List.Sublist.map Prod.fst (List.filter_sublist _)) hmn
  · intro hc
    intro b hb k hk
    rw [he] at hb
    have hkd : k ∈ s.data.map Prod.fst := by
      rcases List.mem_cons.1 hb with rfl | hb
      · exact hc (t, ks) hheadmem k (List.mem_of_mem_drop hk)
      · exact hc b (by rw [hexp]; exact List.mem_cons_of_mem _ hb) k hk
    have hkt : k ∉ ks.take n := by
      rcases List.mem_cons.1 hb with rfl | hb
      · exact nodup_drop_not_mem_take ks n hksnd.2.1 k hk
      · exact fun hmem => hnotlater b hb k hk (List.mem_of_mem_take hmem)
    rcases List.mem_map.1 hkd with ⟨p, hp, rfl⟩
    rw [hd]
    exact List.mem_map_of_mem Prod.fst (List.mem_filter.2 ⟨hp, by simpa using hkt⟩)
  · intro hc
    have := removeKeysStruct_size
      { s with expirations := (t, ks.drop n) :: rest } (ks.take n)
      (List.Nodup.sublist (List.take_sublist n ks) hksnd.2.1)
      hdn
      (fun k hk => hc (t, ks) hheadmem k (List.mem_of_mem_take hk))
    rw [this]
    simp only [size]
    rw [List.length_take]
    congr 1
    omega
  · intro ht
    obtain ⟨harm, hle⟩ := ht
    constructor
    · intro hnone
      rw [hti] at hnone
      have := harm hnone
      rw [hexp] at this
      cases this
    · intro b hb
      rw [he] at hb
      rw [hti]
      rcases List.mem_cons.1 hb with rfl | hb
      · exact hle (t, ks) hheadmem
      · exact hle b (by rw [hexp]; exact List.mem_cons_of_mem _ hb)

/-- Capacity eviction preserves the invariants. -/
theorem purgeGo_pres (m : Nat) (l : List (Nat × List K)) (s : CacheState K V)
    (h : WF s) (hc : Coherent s) (ht : TimerInv s) (hl : s.expirations = l) :
    WF (purgeGo m l s).1 ∧ Coherent (purgeGo m l s).1 ∧
      TimerInv (purgeGo m l s).1 := by
  induction l generalizing s with
  | nil => exact ⟨h, hc, ht⟩
  | cons b rest ih =>
      obtain ⟨t, ks⟩ := b
      obtain ⟨he, hd, hm, hti, hwf, hcoh, -, htim⟩ :=
        removeBucket_spec s t ks rest h hl
      unfold purgeGo
      by_cases hcond : (size s : Int) - ks.length ≥ (m : Int)
      · rw [if_pos hcond]
        dsimp only [removeKeys]
        exact ih (removeKeysStruct { s with expirations := rest } ks).1
          hwf (hcoh hc) (htim ht) he
      · rw [if_neg hcond]
        dsimp only [removeKeys]
        have hlen : 0 < ks.length := by
          obtain ⟨-, hbuckets, -, -, -⟩ := h
          have := (hbuckets (t, ks) (by rw [hl]; exact List.mem_cons_self _ _)).1
          exact List.length_pos.2 this
        have hn : ((size s : Int) - (m : Int)).toNat < ks.length := by omega
        obtain ⟨-, -, -, -, hwf', hcoh', -, htim'⟩ :=
          spliceBucket_spec s t ks rest _ h hl hn
        exact ⟨hwf', hcoh' hc, htim' ht⟩

theorem purgeToCapacity_pres (m : Nat) (s : CacheState K V)
    (h : WF s) (hc : Coherent s) (ht : TimerInv s) :
    WF (purgeToCapacity m s).1 ∧ Coherent (purgeToCapacity m s).1 ∧
      TimerInv (purgeToCapacity m s).1 :=
  purgeGo_pres m s.expirations s h hc ht rfl

theorem purgeLoop_pres (m : Nat) (fuel : Nat) (s : CacheState K V)
    (tr : Trace K V) (s' : CacheState K V) (tr' : Trace K V)
    (h : WF s) (hc : Coherent s) (ht : TimerInv s)
    (hres : purgeLoop m fuel s tr = some (s', tr')) :
    WF s' ∧ Coherent s' ∧ TimerInv s' := by
  induction fuel generalizing s tr with
  | zero =>
      unfold purgeLoop at hres
      by_cases hsz : size s ≤ m
      · rw [if_pos hsz] at hres
        injection hres with hres
        injection hres with h1 h2
        subst h1
        exact ⟨h, hc, ht⟩
      · rw [if_neg hsz] at hres
        cases hres
  | succ fuel ih =>
      unfold purgeLoop at hres
      by_cases hsz : size s ≤ m
      · rw [if_pos hsz] at hres
        injection hres with hres
        injection hres with h1 h2
        subst h1
        exact ⟨h, hc, ht⟩
      · rw [if_neg hsz] at hres
        obtain ⟨hwf, hcoh, htim⟩ := purgeToCapacity_pres m s h hc ht
        exact ih (purgeToCapacity m s).1 _ hwf hcoh htim hres

/-- The purge loop only returns once `size ≤ max` (claim C1's core). -/
theorem purgeLoop_ok_size (m : Nat) (fuel : Nat) (s : CacheState K V)
    (tr : Trace K V) (s' : CacheState K V) (tr' : Trace K V)
    (hres : purgeLoop m fuel s tr = some (s', tr')) : size s' ≤ m := by
  induction fuel generalizing s tr with
  | zero =>
      unfold purgeLoop at hres
      by_cases hsz : size s ≤ m
      · rw [if_pos hsz] at hres
        injection hres with hres
        injection hres with h1 h2
        subst h1
        exact hsz
      · rw [if_neg hsz] at hres
        cases hres
  | succ fuel ih =>
      unfold purgeLoop at hres
      by_cases hsz : size s ≤ m
      · rw [if_pos hsz] at hres
        injection hres with hres
        injection hres with h1 h2
        subst h1
        exact hsz
      · rw [if_neg hsz] at hres
        exact ih (purgeToCapacity m s).1 _ hres

/-- A well-formed coherent cache with an empty store has no buckets. -/
theorem empty_no_buckets (s : CacheState K V) (h : WF s) (hc : Coherent s)
    (hsz : size s = 0) : s.expirations = [] := by
  obtain ⟨-, hbuckets, -, -, -⟩ := h
  have hdata : s.data = [] := List.length_eq_zero.1 hsz
  rw [List.eq_nil_iff_forall_not_mem]
  intro b hb
  obtain ⟨h1, -, -⟩ := hbuckets b hb
  obtain ⟨k, hk⟩ := List.exists_mem_of_ne_nil b.2 h1
  have := hc b hb k hk
  rw [hdata] at this
  cases this

/-- The post-structural state of a successful `delete(key)`: store, reverse
index and bucket cleaned, timer untouched.  This is the state the removal
handler observes. -/
def deleteStruct (s : CacheState K V) (key : K) (current : ExpiryTime) :
    CacheState K V :=
  let s1 : CacheState K V := { s with
    data := alErase s.data key,
    expirationMap := alErase s.expirationMap key }
  match current with
  | .fin c =>
      match alLookup s1.expirations c with
      | none => s1
      | some exp =>
          if exp.length ≤ 1 then
            { s1 with expirations := alErase s1.expirations c }
          else
            { s1 with expirations :=
                (bucketInsert s1.expirations c (exp.filter (fun k => k ≠ key))) }
  | .inf => s1

theorem delete_eq_of_lookup (s : CacheState K V) (key : K)
    (current : ExpiryTime)
    (hcur : alLookup s.expirationMap key = some current) :
    delete s key =
      (if size (deleteStruct s key current) = 0 then
          cancelTimer (deleteStruct s key current)
        else deleteStruct s key current,
       true,
       [(⟨alLookup s.data key, key, .delete⟩, deleteStruct s key current)]) := by
  unfold delete
  rw [hcur]
  rfl

theorem delete_eq_of_none (s : CacheState K V) (key : K)
    (hcur : alLookup s.expirationMap key = none) :
    delete s key = (s, false, []) := by
  unfold delete
  rw [hcur]

/-- Structural facts about `deleteStruct` on a well-formed state: the key is
gone from store, reverse index and all buckets; everything else keeps the
invariants; the timer is untouched. -/
theorem deleteStruct_spec (s : CacheState K V) (key : K)
    (current : ExpiryTime) (h : WF s)
    (hcur : alLookup s.expirationMap key = some current) :
    alLookup (deleteStruct s key current).data key = none ∧
    alLookup (deleteStruct s key current).expirationMap key = none ∧
    (∀ b ∈ (deleteStruct s key current).expirations, key ∉ b.2) ∧
    (deleteStruct s key current).timer = s.timer ∧
    WF (deleteStruct s key current) ∧
    (Coherent s → Coherent (deleteStruct s key current)) ∧
    (∀ b ∈ (deleteStruct s key current).expirations,
        b.1 ∈ s.expirations.map Prod.fst) := by
  obtain ⟨hsorted, hbuckets, hmb, hdn, hmn⟩ := h
  have hkeybucket : ∀ b ∈ s.expirations, key ∈ b.2 →
      some (ExpiryTime.fin b.1) = some current := by
    intro b hb hk
    rw [← hcur, ← (hbuckets b hb).2.2 key hk]
  cases current with
  | inf =>
      have hid : deleteStruct s key .inf = { s with
          data := alErase s.data key,
          expirationMap := alErase s.expirationMap key } := rfl
      rw [hid]
      refine ⟨alLookup_alErase_self _ _, alLookup_alErase_self _ _, ?_, rfl,
        ⟨hsorted, ?_, ?_, nodup_keys_alErase _ _ hdn, nodup_keys_alErase _ _ hmn⟩,
        ?_, ?_⟩
      · intro b hb hk
        have := hkeybucket b hb hk
        injection this with this
        cases this
      · intro b hb
        obtain ⟨h1, h2, h3⟩ := hbuckets b hb
        refine ⟨h1, h2, ?_⟩
        intro k hk
        have hne : key ≠ k := by
          intro hh
          subst hh
          have := hkeybucket b hb hk
          injection this with this
          cases this
        rw [alLookup_alErase_ne _ _ _ hne]
        exact h3 k hk
      · intro p hp
        obtain ⟨hpm, hpne⟩ := (mem_alErase_iff _ _ _).1 hp
        exact mapBucketOK_congr rfl (hmb p hpm)
      · intro hc b hb k hk
        have hne : key ≠ k := by
          intro hh
          subst hh
          have := hkeybucket b hb hk
          injection this with this
          cases this
        have := hc b hb k hk
        rw [← alLookup_isSome_iff] at this ⊢
        rwa [alLookup_alErase_ne _ _ _ hne]
      · intro b hb
        exact List.mem_map_of_mem Prod.fst hb
  | fin cur =>
      obtain ⟨exp, hexp, hkey⟩ :=
        WF.mapBucket ⟨hsorted, hbuckets, hmb, hdn, hmn⟩ hcur
      have hcurb : (cur, exp) ∈ s.expirations := mem_of_alLookup _ _ _ hexp
      have hexpand : ∀ b ∈ s.expirations, key ∈ b.2 → b.1 = cur := by
        intro b hb hk
        have h2 := hkeybucket b hb hk
        simp only [Option.some.injEq, ExpiryTime.fin.injEq] at h2
        exact h2
      have hkne : ∀ b ∈ s.expirations, b.1 ≠ cur → ∀ k ∈ b.2, key ≠ k := by
        intro b hb hbne k hk hh
        subst hh
        exact hbne (hexpand b hb hk)
      have hcnd := hbuckets (cur, exp) hcurb
      by_cases hlen : exp.length ≤ 1
      · have hid : deleteStruct s key (.fin cur) = { s with
            data := alErase s.data key,
            expirationMap := alErase s.expirationMap key,
            expirations := alErase s.expirations cur } := by
          unfold deleteStruct
          dsimp only
          rw [hexp]
          dsimp only
          rw [if_pos hlen]
        have hexpone : exp = [key] := by
          cases exp with
          | nil => cases hkey
          | cons x l =>
              cases l with
              | nil =>
                  simp only [List.mem_singleton] at hkey
                  rw [hkey]
              | cons y l => simp at hlen
        rw [hid]
        refine ⟨alLookup_alErase_self _ _, alLookup_alErase_self _ _, ?_, rfl,
          ⟨pairwise_fst_alErase _ _ hsorted, ?_, ?_,
            nodup_keys_alErase _ _ hdn, nodup_keys_alErase _ _ hmn⟩, ?_, ?_⟩
        · intro b hb hk
          obtain ⟨hbm, hbne⟩ := (mem_alErase_iff _ _ _).1 hb
          exact hbne (hexpand b hbm hk)
        · intro b hb
          obtain ⟨hbm, hbne⟩ := (mem_alErase_iff _ _ _).1 hb
          obtain ⟨h1, h2, h3⟩ := hbuckets b hbm
          refine ⟨h1, h2, ?_⟩
          intro k hk
          rw [alLookup_alErase_ne _ _ _ (hkne b hbm hbne k hk)]
          exact h3 k hk
        · intro p hp
          obtain ⟨hpm, hpne⟩ := (mem_alErase_iff _ _ _).1 hp
          have hok := hmb p hpm
          obtain ⟨k, e⟩ := p
          cases e with
          | inf => trivial
          | fin u =>
              change k ∈ (alLookup s.expirations u).getD [] at hok
              change k ∈ (alLookup (alErase s.expirations cur) u).getD []
              by_cases hu : u = cur
              · subst hu
                rw [hexp] at hok
                simp only [Option.getD_some, hexpone, List.mem_singleton] at hok
                exact absurd hok hpne
              · have hne2 : cur ≠ u := fun hh => hu hh.symm
                rwa [alLookup_alErase_ne _ _ _ hne2]
        · intro hc b hb k hk
          obtain ⟨hbm, hbne⟩ := (mem_alErase_iff _ _ _).1 hb
          have hne := hkne b hbm hbne k hk
          have := hc b hbm k hk
          rw [← alLookup_isSome_iff] at this ⊢
          rwa [alLookup_alErase_ne _ _ _ hne]
        · intro b hb
          exact List.mem_map_of_mem Prod.fst ((mem_alErase_iff _ _ _).1 hb).1
      · have hid : deleteStruct s key (.fin cur) = { s with
            data := alErase s.data key,
            expirationMap := alErase s.expirationMap key,
            expirations :=
              (bucketInsert s.expirations cur (exp.filter (fun k => k ≠ key))) } := by
          unfold deleteStruct
          dsimp only
          rw [hexp]
          dsimp only
          rw [if_neg hlen]
        rw [hid]
        refine ⟨alLookup_alErase_self _ _, alLookup_alErase_self _ _, ?_, rfl,
          ⟨pairwise_bucketInsert _ _ _ hsorted, ?_, ?_,
            nodup_keys_alErase _ _ hdn, nodup_keys_alErase _ _ hmn⟩, ?_, ?_⟩
        · intro b hb hk
          rcases (mem_bucketInsert _ _ _ _ hsorted).1 hb with rfl | ⟨hbm, hbne⟩
          · simp only [List.mem_filter] at hk
            simp at hk
          · exact hbne (hexpand b hbm hk)
        · intro b hb
          rcases (mem_bucketInsert _ _ _ _ hsorted).1 hb with rfl | ⟨hbm, hbne⟩
          · refine ⟨filter_ne_nonempty exp key hcnd.2.1 (by omega),
              List.Nodup.filter _ hcnd.2.1, ?_⟩
            intro k hk
            rw [List.mem_filter] at hk
            have hne : key ≠ k := by
              intro hh
              subst hh
              simp at hk
            rw [alLookup_alErase_ne _ _ _ hne]
            exact hcnd.2.2 k hk.1
          · obtain ⟨h1, h2, h3⟩ := hbuckets b hbm
            refine ⟨h1, h2, ?_⟩
            intro k hk
            rw [alLookup_alErase_ne _ _ _ (hkne b hbm hbne k hk)]
            exact h3 k hk
        · intro p hp
          obtain ⟨hpm, hpne⟩ := (mem_alErase_iff _ _ _).1 hp
          have hok := hmb p hpm
          obtain ⟨k, e⟩ := p
          cases e with
          | inf => trivial
          | fin u =>
              change k ∈ (alLookup s.expirations u).getD [] at hok
              change k ∈ (alLookup (bucketInsert s.expirations cur
                (exp.filter (fun k => k ≠ key))) u).getD []
              by_cases hu : cur = u
              · subst hu
                rw [alLookup_bucketInsert_self]
                rw [hexp] at hok
                simp only [Option.getD_some] at hok ⊢
                rw [List.mem_filter]
                refine ⟨hok, by simpa using hpne⟩
              · rwa [alLookup_bucketInsert_ne _ _ _ _ hu]
        · intro hc b hb k hk
          rcases (mem_bucketInsert _ _ _ _ hsorted).1 hb with rfl | ⟨hbm, hbne⟩
          · rw [List.mem_filter] at hk
            have hne : key ≠ k := by
              intro hh
              subst hh
              simp at hk
            have := hc (cur, exp) hcurb k hk.1
            rw [← alLookup_isSome_iff] at this ⊢
            rwa [alLookup_alErase_ne _ _ _ hne]
          · have hne := hkne b hbm hbne k hk
            have := hc b hbm k hk
            rw [← alLookup_isSome_iff] at this ⊢
            rwa [alLookup_alErase_ne _ _ _ hne]
        · intro b hb
          rcases (mem_fst_bucketInsert _ _ _ _).1
              (List.mem_map_of_mem Prod.fst hb) with heq | hm
          · rw [heq]; exact List.mem_map_of_mem Prod.fst hcurb
          · exact hm

/-- `delete` preserves the invariants. -/
theorem delete_pres (s : CacheState K V) (key : K) (h : WF s)
    (hc : Coherent s) (ht : TimerInv s) :
    WF (delete s key).1 ∧ Coherent (delete s key).1 ∧
      TimerInv (delete s key).1 := by
  cases hcur : alLookup s.expirationMap key with
  | none =>
      rw [delete_eq_of_none s key hcur]
      exact ⟨h, hc, ht⟩
  | some current =>
      rw [delete_eq_of_lookup s key current hcur]
      dsimp only
      obtain ⟨-, -, -, htimer, hwf, hcoh, hts⟩ :=
        deleteStruct_spec s key current h hcur
      by_cases hsz : size (deleteStruct s key current) = 0
      · rw [if_pos hsz]
        have hnil := empty_no_buckets _ hwf (hcoh hc) hsz
        refine ⟨?_, ?_, ?_⟩
        · obtain ⟨a1, a2, a3, a4, a5⟩ := hwf
          exact ⟨a1, a2, a3, a4, a5⟩
        · intro b hb
          exact hcoh hc b hb
        · constructor
          · intro _
            show (deleteStruct s key current).expirations = []
            exact hnil
          · intro b hb
            have hb' : b ∈ (deleteStruct s key current).expirations := hb
            rw [hnil] at hb'
            cases hb'
      · rw [if_neg hsz]
        refine ⟨hwf, hcoh hc, ?_, ?_⟩
        · intro hn
          rw [htimer] at hn
          have := ht.1 hn
          rw [List.eq_nil_iff_forall_not_mem]
          intro b hb
          have h1 := hts b hb
          rw [this] at h1
          cases h1
        · intro b hb
          rw [htimer]
          rcases List.mem_map.1 (hts b hb) with ⟨b', hb', hfst⟩
          exact hfst ▸ ht.2 b' hb'

theorem data_insert_WF (s : CacheState K V) (key : K) (val : V) (h : WF s) :
    WF { s with data := alInsert s.data key val } := by
  obtain ⟨hsorted, hbuckets, hmb, hdn, hmn⟩ := h
  exact ⟨hsorted, hbuckets, fun p hp => mapBucketOK_congr rfl (hmb p hp),
    nodup_keys_alInsert _ _ _ hdn, hmn⟩

/-- The mutation phase of `set` preserves the invariants. -/
theorem setMutate_pres (s : CacheState K V) (key : K) (val : V)
    (ttl : ExpiryTime) (noUpd skip : Bool) (now : Nat)
    (h : WF s) (hc : Coherent s) (ht : TimerInv s) :
    WF (setMutate s key val ttl noUpd skip now).1 ∧
    Coherent (setMutate s key val ttl noUpd skip now).1 ∧
    TimerInv (setMutate s key val ttl noUpd skip now).1 := by
  unfold setMutate
  by_cases hmem : (alLookup s.expirationMap key).isSome
  · rw [if_pos hmem]
    dsimp only
    set s1 := if noUpd = false then setTTL s key ttl now else s with hs1
    have hwf1 : WF s1 := by
      rw [hs1]
      by_cases hnu : noUpd = false
      · rw [if_pos hnu]; exact setTTL_WF s key ttl now h
      · rw [if_neg hnu]; exact h
    have hcoh1 : ∀ b ∈ s1.expirations, ∀ k ∈ b.2,
        k = key ∨ k ∈ s.data.map Prod.fst := by
      rw [hs1]
      by_cases hnu : noUpd = false
      · rw [if_pos hnu]; exact setTTL_coherent s key ttl now h hc
      · rw [if_neg hnu]
        intro b hb k hk
        exact Or.inr (hc b hb k hk)
    have ht1 : TimerInv s1 := by
      rw [hs1]
      by_cases hnu : noUpd = false
      · rw [if_pos hnu]; exact setTTL_TimerInv s key ttl now h ht
      · rw [if_neg hnu]; exact ht
    have hdata1 : s1.data = s.data := by
      rw [hs1]
      by_cases hnu : noUpd = false
      · rw [if_pos hnu]
        cases ttl with
        | fin t =>
            rw [setTTL_fin_eq]
            exact (removeFromCurrentBucket_spec s key h).1
        | inf =>
            rw [setTTL_inf_eq]
            exact (removeFromCurrentBucket_spec s key h).1
      · rw [if_neg hnu]
    have hkeydata : key ∈ s.data.map Prod.fst →
        key ∈ (alInsert s1.data key val).map Prod.fst ∧ True := by
      intro _
      exact ⟨(mem_keys_alInsert _ _ _ _).2 (Or.inl rfl), trivial⟩
    by_cases hold : alLookup s1.data key ≠ some val
    · rw [if_pos hold]
      have hres : WF { s1 with data := alInsert s1.data key val } ∧
          Coherent { s1 with data := alInsert s1.data key val } ∧
          TimerInv { s1 with data := alInsert s1.data key val } := by
        refine ⟨data_insert_WF s1 key val hwf1, ?_, ?_⟩
        · intro b hb k hk
          rcases hcoh1 b hb k hk with rfl | hkd
          · exact (mem_keys_alInsert _ _ _ _).2 (Or.inl rfl)
          · rw [hdata1]
            exact (mem_keys_alInsert _ _ _ _).2 (Or.inr hkd)
        · exact ⟨ht1.1, ht1.2⟩
      by_cases hskip : skip = false
      · rw [if_pos hskip]; exact hres
      · rw [if_neg hskip]; exact hres
    · rw [if_neg hold]
      push_neg at hold
      refine ⟨hwf1, ?_, ht1⟩
      intro b hb k hk
      show k ∈ List.map Prod.fst s1.data
      rcases hcoh1 b hb k hk with rfl | hkd
      · rw [← alLookup_isSome_iff, hold]
        rfl
      · rw [hdata1]
        exact hkd
  · rw [if_neg hmem]
    dsimp only
    refine ⟨data_insert_WF _ key val (setTTL_WF s key ttl now h), ?_, ?_⟩
    · intro b hb k hk
      rcases setTTL_coherent s key ttl now h hc b hb k hk with rfl | hkd
      · exact (mem_keys_alInsert _ _ _ _).2 (Or.inl rfl)
      · have hdata1 : (setTTL s key ttl now).data = s.data := by
          cases ttl with
          | fin t =>
              rw [setTTL_fin_eq]
              exact (removeFromCurrentBucket_spec s key h).1
          | inf =>
              rw [setTTL_inf_eq]
              exact (removeFromCurrentBucket_spec s key h).1
        rw [hdata1]
        exact (mem_keys_alInsert _ _ _ _).2 (Or.inr hkd)
    · have := setTTL_TimerInv s key ttl now h ht
      exact ⟨this.1, this.2⟩

/-- `set` preserves the invariants whenever it returns normally. -/
theorem set_pres (cfg : Config) (s : CacheState K V) (key : K) (val : V)
    (opts : SetOptions) (now fuel : Nat) (s' : CacheState K V) (tr : Trace K V)
    (h : WF s) (hc : Coherent s) (ht : TimerInv s)
    (hok : set cfg s key val opts now fuel = .ok s' tr) :
    WF s' ∧ Coherent s' ∧ TimerInv s' := by
  unfold set at hok
  cases httl : (match opts.ttl with | some t => some t | none => cfg.ttl) with
  | none => rw [httl] at hok; cases hok
  | some ttl =>
      rw [httl] at hok
      dsimp only at hok
      by_cases hval : isPosIntOrInf ttl = false
      · rw [if_pos hval] at hok; cases hok
      · rw [if_neg hval] at hok
        obtain ⟨hwf, hcoh, htim⟩ := setMutate_pres s key val ttl
          (opts.noUpdateTTL.getD cfg.noUpdateTTL)
          (opts.skipRemoveOnSet.getD cfg.skipRemoveOnSet) now h hc ht
        cases hmax : cfg.max with
        | none =>
            rw [hmax] at hok
            dsimp only at hok
            injection hok with h1 h2
            subst h1
            exact ⟨hwf, hcoh, htim⟩
        | some m =>
            rw [hmax] at hok
            dsimp only at hok
            cases hloop : purgeLoop m fuel
                (setMutate s key val ttl (opts.noUpdateTTL.getD cfg.noUpdateTTL)
                  (opts.skipRemoveOnSet.getD cfg.skipRemoveOnSet) now).1
                (setMutate s key val ttl (opts.noUpdateTTL.getD cfg.noUpdateTTL)
                  (opts.skipRemoveOnSet.getD cfg.skipRemoveOnSet) now).2 with
            | none => rw [hloop] at hok; cases hok
            | some res =>
                rw [hloop] at hok
                dsimp only at hok
                injection hok with h1 h2
                subst h1
                exact purgeLoop_pres m fuel _ _ res.1 res.2 hwf hcoh htim
                  (by rw [hloop])

/-- The stale sweep preserves the invariants.  The timer clauses: the
discipline is preserved when it held on entry, and a cleared timer is never
re-armed by the sweep itself (the callback re-arms separately). -/
theorem purgeStaleGo_pres (now : Nat) (l : List (Nat × List K))
    (s : CacheState K V) (tr : Trace K V)
    (h : WF s) (hc : Coherent s) (hl : s.expirations = l) :
    WF (purgeStaleGo now l s tr).1 ∧ Coherent (purgeStaleGo now l s tr).1 ∧
      (TimerInv s → TimerInv (purgeStaleGo now l s tr).1) ∧
      (s.timer = none → (purgeStaleGo now l s tr).1.timer = none) := by
  induction l generalizing s tr with
  | nil =>
      unfold purgeStaleGo
      by_cases hsz : size s = 0
      · rw [if_pos hsz]
        obtain ⟨a1, a2, a3, a4, a5⟩ := h
        refine ⟨⟨a1, fun b hb => a2 b hb,
          fun p hp => mapBucketOK_congr rfl (a3 p hp), a4, a5⟩,
          fun b hb k hk => hc b hb k hk, ?_, fun _ => rfl⟩
        intro _
        refine ⟨fun _ => ?_, ?_⟩
        · show s.expirations = []
          exact hl
        · intro b hb
          have hb' : b ∈ s.expirations := hb
          rw [hl] at hb'
          cases hb'
      · rw [if_neg hsz]
        exact ⟨h, hc, fun ht => ht, fun hn => hn⟩
  | cons b rest ih =>
      obtain ⟨t, ks⟩ := b
      unfold purgeStaleGo
      by_cases hdue : t > now
      · rw [if_pos hdue]
        exact ⟨h, hc, fun ht => ht, fun hn => hn⟩
      · rw [if_neg hdue]
        dsimp only [removeKeys]
        obtain ⟨he, hd, hm, hti, hwf, hcoh, -, htim⟩ :=
          removeBucket_spec s t ks rest h hl
        obtain ⟨q1, q2, q3, q4⟩ := ih
          (removeKeysStruct { s with expirations := rest } ks).1 _
          hwf (hcoh hc) he
        refine ⟨q1, q2, fun ht => q3 (htim ht), fun hn => q4 (by rw [hti]; exact hn)⟩

theorem purgeStale_pres (s : CacheState K V) (now : Nat)
    (h : WF s) (hc : Coherent s) (ht : TimerInv s) :
    WF (purgeStale s now).1 ∧ Coherent (purgeStale s now).1 ∧
      TimerInv (purgeStale s now).1 := by
  obtain ⟨q1, q2, q3, -⟩ := purgeStaleGo_pres now s.expirations s [] h hc rfl
  exact ⟨q1, q2, q3 ht⟩

theorem clear_pres (cfg : Config) (s : CacheState K V) :
    WF (clear cfg s).1 ∧ Coherent (clear cfg s).1 ∧
      TimerInv (clear cfg s).1 := by
  refine ⟨⟨?_, ?_, ?_, ?_, ?_⟩, ?_, ?_, ?_⟩ <;>
    simp [clear, WF, Coherent, TimerInv]

/-- `get` (on a present key, with a resolvable ttl) preserves the
invariants. -/
theorem get_pres (cfg : Config) (s : CacheState K V) (key : K)
    (opts : GetOptions) (now : Nat)
    (h : WF s) (hc : Coherent s) (ht : TimerInv s)
    (hkey : has s key = true)
    (httl : (match opts.ttl with | some t => some t | none => cfg.ttl) ≠ none) :
    WF (get cfg s key opts now).2.1 ∧ Coherent (get cfg s key opts now).2.1 ∧
      TimerInv (get cfg s key opts now).2.1 := by
  unfold get
  by_cases hchk : (opts.checkAgeOnGet.getD cfg.checkAgeOnGet) = true ∧
      getRemainingTTL s key now = .fin 0
  · rw [if_pos hchk]
    exact delete_pres s key h hc ht
  · rw [if_neg hchk]
    by_cases hupd : (opts.updateAgeOnGet.getD cfg.updateAgeOnGet) = true
    · rw [if_pos hupd]
      cases httl2 : (match opts.ttl with | some t => some t | none => cfg.ttl) with
      | none => exact absurd httl2 httl
      | some ttl =>
          dsimp only
          refine ⟨setTTL_WF s key ttl now h, ?_,
            setTTL_TimerInv s key ttl now h ht⟩
          intro b hb k hk
          have hdata1 : (setTTL s key ttl now).data = s.data := by
            cases ttl with
            | fin t =>
                rw [setTTL_fin_eq]
                exact (removeFromCurrentBucket_spec s key h).1
            | inf =>
                rw [setTTL_inf_eq]
                exact (removeFromCurrentBucket_spec s key h).1
          rw [hdata1]
          rcases setTTL_coherent s key ttl now h hc b hb k hk with rfl | hkd
          · unfold has at hkey
            rwa [← alLookup_isSome_iff]
          · exact hkd
    · rw [if_neg hupd]
      exact ⟨h, hc, ht⟩

/-- The timer callback preserves the invariants: after the sweep it re-arms
for the first — under sortedness the minimum — remaining timestamp. -/
theorem onTimerFire_pres (s : CacheState K V) (now : Nat)
    (h : WF s) (hc : Coherent s) (ht : TimerInv s) :
    WF (onTimerFire s now).1 ∧ Coherent (onTimerFire s now).1 ∧
      TimerInv (onTimerFire s now).1 := by
  have hwf0 : WF ({ s with timer := none } : CacheState K V) := by
    obtain ⟨a1, a2, a3, a4, a5⟩ := h
    exact ⟨a1, fun b hb => a2 b hb,
      fun p hp => mapBucketOK_congr rfl (a3 p hp), a4, a5⟩
  have hc0 : Coherent ({ s with timer := none } : CacheState K V) :=
    fun b hb k hk => hc b hb k hk
  obtain ⟨hwf, hcoh, -, hnone⟩ := purgeStaleGo_pres now s.expirations
    ({ s with timer := none } : CacheState K V) [] hwf0 hc0 rfl
  have htnone : (purgeStale ({ s with timer := none } : CacheState K V) now).1.timer
      = none := hnone rfl
  cases hrest : (purgeStale ({ s with timer := none } : CacheState K V) now).1.expirations with
  | nil =>
      have heq : onTimerFire s now =
          purgeStale ({ s with timer := none } : CacheState K V) now := by
        unfold onTimerFire
        dsimp only
        rw [hrest]
      rw [heq]
      refine ⟨hwf, hcoh, ?_, ?_⟩
      · intro _
        exact hrest
      · intro b hb
        rw [hrest] at hb
        cases hb
  | cons b0 rest =>
      obtain ⟨t0, ks0⟩ := b0
      have heq : onTimerFire s now =
          ({ expirations :=
              (purgeStale ({ s with timer := none } : CacheState K V) now).1.expirations,
             data :=
              (purgeStale ({ s with timer := none } : CacheState K V) now).1.data,
             expirationMap :=
              (purgeStale ({ s with timer := none } : CacheState K V) now).1.expirationMap,
             timer := some t0 },
            (purgeStale ({ s with timer := none } : CacheState K V) now).2) := by
        unfold onTimerFire
        dsimp only
        rw [hrest]
        dsimp only
        unfold setTimer
        rw [htnone]
        dsimp only
        rw [hrest]
      rw [heq]
      dsimp only
      obtain ⟨a1, a2, a3, a4, a5⟩ := hwf
      refine ⟨⟨a1, fun b hb => a2 b hb,
        fun p hp => mapBucketOK_congr rfl (a3 p hp), a4, a5⟩,
        fun b hb k hk => hcoh b hb k hk, ?_, ?_⟩
      · intro hn
        cases hn
      · intro b hb
        have hb' : b ∈ (purgeStale
            ({ s with timer := none } : CacheState K V) now).1.expirations := hb
        rw [hrest] at hb'
        have hsorted : ((purgeStale ({ s with timer := none } : CacheState K V)
            now).1.expirations.map Prod.fst).Pairwise (· < ·) := a1
        rw [hrest] at hsorted
        simp only [List.map_cons, List.pairwise_cons] at hsorted
        rcases List.mem_cons.1 hb' with rfl | hb2
        · simp
        · have := hsorted.1 b.1 (List.mem_map_of_mem Prod.fst hb2)
          simp
          omega

/-- Every state reachable by the public operations is well-formed, coherent
and obeys the timer discipline. -/
theorem Reach_invariants (cfg : Config) (s : CacheState K V)
    (h : Reach cfg s) : WF s ∧ Coherent s ∧ TimerInv s := by
  induction h with
  | empty =>
      refine ⟨⟨?_, ?_, ?_, ?_, ?_⟩, ?_, ?_, ?_⟩ <;>
        simp [emptyCache, WF, Coherent, TimerInv]
  | setStep hr hok ih =>
      exact set_pres _ _ _ _ _ _ _ _ _ ih.1 ih.2.1 ih.2.2 hok
  | getStep hr hkey httl ih =>
      exact get_pres _ _ _ _ _ ih.1 ih.2.1 ih.2.2 hkey httl
  | deleteStep hr ih =>
      exact delete_pres _ _ ih.1 ih.2.1 ih.2.2
  | purgeStaleStep hr ih =>
      exact purgeStale_pres _ _ ih.1 ih.2.1 ih.2.2
  | clearStep hr ih =>
      exact clear_pres _ _
  | timerFireStep hr ih =>
      exact onTimerFire_pres _ _ ih.1 ih.2.1 ih.2.2

theorem filter_not_mem_nil {A : Type} (l : List (K × A)) :
    l.filter (fun p => decide (p.1 ∉ ([] : List K))) = l := by
  induction l with
  | nil => rfl
  | cons p l ih => simp [List.filter_cons, ih]

theorem filter_not_mem_append {A : Type} (l : List (K × A)) (ks ks' : List K) :
    (l.filter (fun p => decide (p.1 ∉ ks))).filter
        (fun p => decide (p.1 ∉ ks')) =
      l.filter (fun p => decide (p.1 ∉ ks ++ ks')) := by
  rw [List.filter_filter]
  congr 1
  funext p
  by_cases h1 : p.1 ∈ ks <;> by_cases h2 : p.1 ∈ ks' <;>
    simp [h1, h2]

theorem mem_dueKeys (l : List (Nat × List K)) (now : Nat) (k : K)
    (hk : k ∈ dueKeys l now) : ∃ b ∈ l, b.1 ≤ now ∧ k ∈ b.2 := by
  unfold dueKeys at hk
  rcases List.mem_flatten.1 hk with ⟨l', hl', hkl⟩
  rcases List.mem_map.1 hl' with ⟨b, hb, rfl⟩
  rw [List.mem_filter] at hb
  exact ⟨b, hb.1, by simpa using hb.2, hkl⟩

/-- `purgeStale`'s loop refines the specification-side sweep: due buckets
are removed whole in ascending order with `"stale"` notifications carrying
the stored values, future buckets survive, and the timer is cancelled
exactly when the sweep ran to the end of the buckets and the store is empty
afterwards. -/
theorem purgeStaleGo_spec (now : Nat) (l : List (Nat × List K))
    (s : CacheState K V) (tr : Trace K V) (h : WF s)
    (hl : s.expirations = l) :
    (purgeStaleGo now l s tr).1.expirations =
      l.filter (fun b => decide (now < b.1)) ∧
    (purgeStaleGo now l s tr).1.data =
      s.data.filter (fun p => decide (p.1 ∉ dueKeys l now)) ∧
    (purgeStaleGo now l s tr).1.expirationMap =
      s.expirationMap.filter (fun p => decide (p.1 ∉ dueKeys l now)) ∧
    (purgeStaleGo now l s tr).1.timer =
      (if l.filter (fun b => decide (now < b.1)) = [] ∧
          (s.data.filter (fun p => decide (p.1 ∉ dueKeys l now))).length = 0
        then none else s.timer) ∧
    traceEvents (purgeStaleGo now l s tr).2 =
      traceEvents tr ++
        (dueKeys l now).map (fun k => ⟨alLookup s.data k, k, .stale⟩) := by
  induction l generalizing s tr with
  | nil =>
      unfold purgeStaleGo
      have hdue : dueKeys ([] : List (Nat × List K)) now = [] := rfl
      rw [hdue, filter_not_mem_nil, filter_not_mem_nil]
      by_cases hsz : size s = 0
      · rw [if_pos hsz]
        refine ⟨hl, rfl, rfl, ?_, by simp [traceEvents]⟩
        rw [if_pos ⟨by simp, hsz⟩]
        rfl
      · rw [if_neg hsz]
        refine ⟨hl, rfl, rfl, ?_, by simp [traceEvents]⟩
        rw [if_neg (fun hh => hsz hh.2)]
  | cons b rest ih =>
      obtain ⟨t, ks⟩ := b
      unfold purgeStaleGo
      by_cases hdue : t > now
      · rw [if_pos hdue]
        have hall : ∀ b ∈ ((t, ks) :: rest : List (Nat × List K)), now < b.1 := by
          intro b hb
          rcases List.mem_cons.1 hb with rfl | hb
          · exact hdue
          · obtain ⟨hsorted, -, -, -, -⟩ := h
            rw [hl] at hsorted
            simp only [List.map_cons, List.pairwise_cons] at hsorted
            have := hsorted.1 b.1 (List.mem_map_of_mem Prod.fst hb)
            omega
        have hfut : ((t, ks) :: rest).filter (fun b => decide (now < b.1)) =
            (t, ks) :: rest :=
          List.filter_eq_self.2 (fun b hb => by simpa using hall b hb)
        have hdk : dueKeys ((t, ks) :: rest) now = [] := by
          unfold dueKeys
          have : ((t, ks) :: rest).filter (fun b => decide (b.1 ≤ now)) = [] := by
            rw [List.filter_eq_nil_iff]
            intro b hb
            have := hall b hb
            simp
            omega
          rw [this]
          rfl
        rw [hfut, hdk, filter_not_mem_nil, filter_not_mem_nil]
        refine ⟨hl, rfl, rfl, ?_, by simp [traceEvents]⟩
        rw [if_neg (fun hh => List.cons_ne_nil _ _ hh.1)]
      · rw [if_neg hdue]
        dsimp only [removeKeys]
        obtain ⟨he, hd, hm, hti, hwf, hcoh, -, -⟩ :=
          removeBucket_spec s t ks rest h hl
        have hksnd2 : ks.Nodup := by
          obtain ⟨-, hbuckets, -, -, -⟩ := h
          exact (hbuckets (t, ks) (by rw [hl]; exact List.mem_cons_self _ _)).2.1
        obtain ⟨q1, q2, q3, q4, q5⟩ := ih
          (removeKeysStruct { s with expirations := rest } ks).1 _ hwf he
        have htle : t ≤ now := by omega
        have hfilt : ((t, ks) :: rest).filter (fun b => decide (now < b.1)) =
            rest.filter (fun b => decide (now < b.1)) := by
          rw [List.filter_cons]
          rw [if_neg (by simpa using hdue)]
        have hdk : dueKeys ((t, ks) :: rest) now = ks ++ dueKeys rest now := by
          unfold dueKeys
          rw [List.filter_cons, if_pos (by simpa using htle)]
          simp
        have hqdata : (removeKeysStruct { s with expirations := rest } ks).1.data =
            s.data.filter (fun p => decide (p.1 ∉ ks)) := hd
        have hnotlater := head_bucket_keys_not_later s t ks rest h hl
        refine ⟨?_, ?_, ?_, ?_, ?_⟩
        · rw [q1, hfilt]
        · rw [q2, hqdata, hdk, filter_not_mem_append]
        · rw [q3, hm, hdk, filter_not_mem_append]
        · rw [q4, hti, hfilt, hdk]
          rw [hqdata, filter_not_mem_append]
        · rw [q5, hdk]
          have hstep : traceEvents
              ((removeKeysStruct { s with expirations := rest } ks).2.map
                (fun e => (⟨e.2, e.1, Reason.stale⟩, (removeKeysStruct
                  { s with expirations := rest } ks).1))) =
              ks.map (fun k => ⟨alLookup s.data k, k, .stale⟩) := by
            unfold traceEvents
            rw [List.map_map]
            rw [removeKeysStruct_entries _ _ hksnd2]
            rw [List.map_map]
            rfl
          have hvals : (dueKeys rest now).map
              (fun k => (⟨alLookup (removeKeysStruct
                { s with expirations := rest } ks).1.data k, k,
                Reason.stale⟩ : RemovalEvent K V)) =
              (dueKeys rest now).map
                (fun k => ⟨alLookup s.data k, k, .stale⟩) := by
            apply List.map_congr_left
            intro k hk
            obtain ⟨b, hb, -, hkb⟩ := mem_dueKeys rest now k hk
            have hnk : k ∉ ks := hnotlater b hb k hkb
            rw [hqdata, alLookup_filter_not_mem _ _ _ hnk]
          rw [hvals]
          unfold traceEvents
          rw [List.map_append]
          have : traceEvents tr = tr.map Prod.fst := rfl
          rw [List.map_map]
          simp only [List.map_append]
          rw [List.append_assoc]
          congr 1
          have := hstep
          unfold traceEvents at this
          rw [List.map_map] at this
          rw [this]

/-- `purgeStale` refines `staleSpec`. -/
theorem purgeStale_spec (s : CacheState K V) (now : Nat) (h : WF s) :
    (purgeStale s now).1 = (staleSpec s now).1 ∧
    traceEvents (purgeStale s now).2 = (staleSpec s now).2 := by
  obtain ⟨q1, q2, q3, q4, q5⟩ := purgeStaleGo_spec now s.expirations s [] h rfl
  have q1' : (purgeStale s now).1.expirations =
      s.expirations.filter (fun b => decide (now < b.1)) := q1
  have q2' : (purgeStale s now).1.data =
      s.data.filter (fun p => decide (p.1 ∉ dueKeys s.expirations now)) := q2
  have q3' : (purgeStale s now).1.expirationMap =
      s.expirationMap.filter (fun p => decide (p.1 ∉ dueKeys s.expirations now)) := q3
  have q4' : (purgeStale s now).1.timer =
      (if s.expirations.filter (fun b => decide (now < b.1)) = [] ∧
          (s.data.filter (fun p => decide (p.1 ∉ dueKeys s.expirations now))).length = 0
        then none else s.timer) := q4
  have q5' : traceEvents (purgeStale s now).2 =
      traceEvents ([] : Trace K V) ++
        (dueKeys s.expirations now).map
          (fun k => ⟨alLookup s.data k, k, .stale⟩) := q5
  constructor
  · have heta : (purgeStale s now).1 =
        ⟨(purgeStale s now).1.expirations, (purgeStale s now).1.data,
          (purgeStale s now).1.expirationMap, (purgeStale s now).1.timer⟩ := rfl
    rw [heta]
    show (⟨_, _, _, _⟩ : CacheState K V) = _
    rw [q1', q2', q3', q4']
    rfl
  · rw [q5']
    rfl

/-- Every key evicted by the specification-side policy is listed in some
bucket of the input. -/
theorem evictSpecGo_sub (m : Nat) (l : List (Nat × List K)) (sz : Nat)
    (k : K) (hk : k ∈ (evictSpecGo m l sz).2) : ∃ b ∈ l, k ∈ b.2 := by
  induction l generalizing sz with
  | nil => cases hk
  | cons b rest ih =>
      obtain ⟨t, ks⟩ := b
      unfold evictSpecGo at hk
      by_cases hcond : (sz : Int) - ks.length ≥ (m : Int)
      · rw [if_pos hcond] at hk
        dsimp only at hk
        rcases List.mem_append.1 hk with hk | hk
        · exact ⟨(t, ks), List.mem_cons_self _ _, hk⟩
        · obtain ⟨b, hb, hkb⟩ := ih (sz - ks.length) hk
          exact ⟨b, List.mem_cons_of_mem _ hb, hkb⟩
      · rw [if_neg hcond] at hk
        dsimp only at hk
        exact ⟨(t, ks), List.mem_cons_self _ _, List.mem_of_mem_take hk⟩

/-- `purgeToCapacity`'s loop refines the specification-side eviction policy:
buckets are consumed in ascending order, whole while that still leaves the
cache at or above capacity, then the first `size − max` keys of the
stopping bucket (FIFO), with every evicted entry notified `"evict"` with
its stored value; the timer is untouched. -/
theorem purgeGo_spec (m : Nat) (l : List (Nat × List K)) (s : CacheState K V)
    (h : WF s) (hc : Coherent s) (hl : s.expirations = l) :
    (purgeGo m l s).1.expirations = (evictSpecGo m l (size s)).1 ∧
    (purgeGo m l s).1.data =
      s.data.filter (fun p => decide (p.1 ∉ (evictSpecGo m l (size s)).2)) ∧
    (purgeGo m l s).1.expirationMap =
      s.expirationMap.filter
        (fun p => decide (p.1 ∉ (evictSpecGo m l (size s)).2)) ∧
    (purgeGo m l s).1.timer = s.timer ∧
    traceEvents (purgeGo m l s).2 =
      ((evictSpecGo m l (size s)).2).map
        (fun k => ⟨alLookup s.data k, k, .evict⟩) := by
  induction l generalizing s with
  | nil =>
      unfold purgeGo evictSpecGo
      exact ⟨hl, (filter_not_mem_nil s.data).symm,
        (filter_not_mem_nil s.expirationMap).symm, rfl, rfl⟩
  | cons b rest ih =>
      obtain ⟨t, ks⟩ := b
      have hksnd : ks.Nodup := by
        obtain ⟨-, hbuckets, -, -, -⟩ := h
        exact (hbuckets (t, ks) (by rw [hl]; exact List.mem_cons_self _ _)).2.1
      have hnotlater := head_bucket_keys_not_later s t ks rest h hl
      unfold purgeGo evictSpecGo
      by_cases hcond : (size s : Int) - ks.length ≥ (m : Int)
      · rw [if_pos hcond, if_pos hcond]
        dsimp only [removeKeys]
        obtain ⟨he, hd, hm, hti, hwf, hcoh, hsz, -⟩ :=
          removeBucket_spec s t ks rest h hl
        have hsz2 : size (removeKeysStruct
            { s with expirations := rest } ks).1 = size s - ks.length := hsz hc
        obtain ⟨q1, q2, q3, q4, q5⟩ := ih
          (removeKeysStruct { s with expirations := rest } ks).1
          hwf (hcoh hc) he
        rw [hsz2] at q1 q2 q3 q5
        refine ⟨q1, ?_, ?_, ?_, ?_⟩
        · rw [q2, hd, filter_not_mem_append]
        · rw [q3, hm, filter_not_mem_append]
        · rw [q4, hti]
        · unfold traceEvents
          rw [List.map_append]
          have hstep : ((removeKeysStruct { s with expirations := rest } ks).2.map
              (fun e => ((⟨e.2, e.1, Reason.evict⟩ : RemovalEvent K V),
                (removeKeysStruct { s with expirations := rest } ks).1))).map
                Prod.fst =
              ks.map (fun k => ⟨alLookup s.data k, k, .evict⟩) := by
            rw [List.map_map, removeKeysStruct_entries _ _ hksnd, List.map_map]
            rfl
          rw [hstep]
          unfold traceEvents at q5
          rw [q5]
          rw [List.map_append]
          congr 1
          apply List.map_congr_left
          intro k hk
          obtain ⟨b, hb, hkb⟩ := evictSpecGo_sub m rest (size s - ks.length) k hk
          have hnk : k ∉ ks := hnotlater b hb k hkb
          rw [hd, alLookup_filter_not_mem _ _ _ hnk]
      · rw [if_neg hcond, if_neg hcond]
        dsimp only [removeKeys]
        have hkslen : 0 < ks.length := by
          obtain ⟨-, hbuckets, -, -, -⟩ := h
          exact List.length_pos.2
            (hbuckets (t, ks) (by rw [hl]; exact List.mem_cons_self _ _)).1
        have hn : ((size s : Int) - (m : Int)).toNat < ks.length := by omega
        obtain ⟨he, hd, hm, hti, -, -, -, -⟩ :=
          spliceBucket_spec s t ks rest _ h hl hn
        refine ⟨he, hd, hm, hti, ?_⟩
        unfold traceEvents
        rw [List.map_map]
        rw [removeKeysStruct_entries _ _
          (List.Nodup.sublist (List.take_sublist _ ks) hksnd)]
        rw [List.map_map]
        rfl

/-- `purgeToCapacity` refines `evictSpec`. -/
theorem purgeToCapacity_spec (m : Nat) (s : CacheState K V)
    (h : WF s) (hc : Coherent s) :
    (purgeToCapacity m s).1 = (evictSpec m s).1 ∧
    traceEvents (purgeToCapacity m s).2 = (evictSpec m s).2 := by
  obtain ⟨q1, q2, q3, q4, q5⟩ := purgeGo_spec m s.expirations s h hc rfl
  have q1' : (purgeToCapacity m s).1.expirations =
      (evictSpecGo m s.expirations (size s)).1 := q1
  have q2' : (purgeToCapacity m s).1.data =
      s.data.filter
        (fun p => decide (p.1 ∉ (evictSpecGo m s.expirations (size s)).2)) := q2
  have q3' : (purgeToCapacity m s).1.expirationMap =
      s.expirationMap.filter
        (fun p => decide (p.1 ∉ (evictSpecGo m s.expirations (size s)).2)) := q3
  have q4' : (purgeToCapacity m s).1.timer = s.timer := q4
  have q5' : traceEvents (purgeToCapacity m s).2 =
      ((evictSpecGo m s.expirations (size s)).2).map
        (fun k => ⟨alLookup s.data k, k, .evict⟩) := q5
  constructor
  · have heta : (purgeToCapacity m s).1 =
        ⟨(purgeToCapacity m s).1.expirations, (purgeToCapacity m s).1.data,
          (purgeToCapacity m s).1.expirationMap,
          (purgeToCapacity m s).1.timer⟩ := rfl
    rw [heta]
    show (⟨_, _, _, _⟩ : CacheState K V) = _
    rw [q1', q2', q3', q4']
    rfl
  · rw [q5']
    rfl

theorem mem_keysList (s : CacheState K V) (k : K) :
    k ∈ keysList s ↔ ∃ b ∈ s.expirations, k ∈ b.2 := by
  unfold keysList
  constructor
  · intro hk
    rcases List.mem_flatten.1 hk with ⟨l', hl', hkl⟩
    rcases List.mem_map.1 hl' with ⟨b, hb, rfl⟩
    exact ⟨b, hb, hkl⟩
  · rintro ⟨b, hb, hkb⟩
    exact List.mem_flatten.2 ⟨b.2, List.mem_map_of_mem Prod.snd hb, hkb⟩

theorem count_flatten_one (l : List (Nat × List K)) (t : Nat) (ks : List K)
    (k : K) (hsorted : (l.map Prod.fst).Pairwise (· < ·))
    (hb : (t, ks) ∈ l) (hcnt : ks.count k = 1)
    (honly : ∀ b ∈ l, k ∈ b.2 → b = (t, ks)) :
    ((l.map Prod.snd).flatten).count k = 1 := by
  induction l with
  | nil => cases hb
  | cons b rest ih =>
      simp only [List.map_cons, List.flatten_cons, List.count_append]
      simp only [List.map_cons, List.pairwise_cons] at hsorted
      rcases List.mem_cons.1 hb with rfl | hbr
      · rw [hcnt]
        have hrest : k ∉ (rest.map Prod.snd).flatten := by
          intro hmem
          rcases List.mem_flatten.1 hmem with ⟨l2, hl2, hkl⟩
          rcases List.mem_map.1 hl2 with ⟨b2, hb2, rfl⟩
          have := honly b2 (List.mem_cons_of_mem _ hb2) hkl
          subst this
          have := hsorted.1 t (List.mem_map_of_mem Prod.fst hb2)
          omega
        rw [List.count_eq_zero.2 hrest]
      · have hknb : k ∉ b.2 := by
          intro hkb
          have := honly b (List.mem_cons_self _ _) hkb
          subst this
          have := hsorted.1 t (List.mem_map_of_mem Prod.fst hbr)
          omega
        rw [List.count_eq_zero.2 hknb, Nat.zero_add]
        exact ih hsorted.2 hbr
          (fun b2 hb2 hkb => honly b2 (List.mem_cons_of_mem _ hb2) hkb)

/-- In a well-formed state every key with a finite reverse-index entry is
listed by `keys()` exactly once. -/
theorem keysList_count_one (s : CacheState K V) (h : WF s) (k : K) (t : Nat)
    (hk : alLookup s.expirationMap k = some (.fin t)) :
    (keysList s).count k = 1 := by
  obtain ⟨ks, hks, hkks⟩ := WF.mapBucket h hk
  have hb : (t, ks) ∈ s.expirations := mem_of_alLookup _ _ _ hks
  have honly : ∀ b ∈ s.expirations, k ∈ b.2 → b = (t, ks) := by
    intro b hbm hkb
    exact WF.bucket_key_unique h hbm hb hkb hkks
  have hcnt : ks.count k = 1 :=
    List.count_eq_one_of_mem (h.2.1 (t, ks) hb).2.1 hkks
  exact count_flatten_one s.expirations t ks k h.1 hb hcnt honly

/-- An `Infinity` entry is listed by no iteration. -/
theorem not_mem_keysList_inf (s : CacheState K V) (h : WF s) (k : K)
    (hk : alLookup s.expirationMap k = some .inf) : k ∉ keysList s := by
  intro hmem
  obtain ⟨b, hb, hkb⟩ := (mem_keysList s k).1 hmem
  obtain ⟨-, hbuckets, -, -, -⟩ := h
  have := (hbuckets b hb).2.2 k hkb
  rw [hk] at this
  injection this with this
  cases this

theorem not_mem_keysList_none (s : CacheState K V) (h : WF s) (k : K)
    (hk : alLookup s.expirationMap k = none) : k ∉ keysList s := by
  intro hmem
  obtain ⟨b, hb, hkb⟩ := (mem_keysList s k).1 hmem
  obtain ⟨-, hbuckets, -, -, -⟩ := h
  have := (hbuckets b hb).2.2 k hkb
  rw [hk] at this
  cases this

/-- `keys()` lists no key twice in a well-formed state. -/
theorem keysList_nodup (s : CacheState K V) (h : WF s) :
    (keysList s).Nodup := by
  have honce : ∀ k ∈ keysList s, (keysList s).count k = 1 := by
    intro k hk
    obtain ⟨b, hb, hkb⟩ := (mem_keysList s k).1 hk
    exact keysList_count_one s h k b.1 ((h.2.1 b hb).2.2 k hkb)
  exact List.nodup_iff_count_eq_one.2 honce

/-- Every key due for the stale sweep is listed in some bucket. -/
theorem dueKeys_subset_keysList (s : CacheState K V) (now : Nat) (k : K)
    (hk : k ∈ dueKeys s.expirations now) : k ∈ keysList s := by
  unfold dueKeys at hk
  rcases List.mem_flatten.1 hk with ⟨ks, hks, hkks⟩
  rcases List.mem_map.1 hks with ⟨b, hb, rfl⟩
  exact (mem_keysList s k).2 ⟨b, (List.mem_filter.1 hb).1, hkks⟩

/-- `entries()` pairs each iterated key with its stored value. -/
theorem entriesList_eq (s : CacheState K V) :
    entriesList s = (keysList s).map (fun k => (k, alLookup s.data k)) := by
  unfold entriesList keysList
  rw [List.map_flatten, List.map_map]
  rfl

/-- The removal events of `clear` with a custom handler: one `"delete"`
event per iterated key, in iteration order, carrying the stored value. -/
theorem clear_trace_events (cfg : Config) (s : CacheState K V)
    (hch : cfg.customHandler = true) :
    traceEvents (clear cfg s).2 =
      (keysList s).map (fun k => ⟨alLookup s.data k, k, .delete⟩) := by
  unfold clear traceEvents
  rw [hch]
  dsimp only
  rw [if_pos rfl, List.map_map, entriesList_eq, List.map_map]
  rfl

/-- `values()` pairs off with `keys()` through the store lookup. -/
theorem valuesList_eq (s : CacheState K V) :
    valuesList s = (keysList s).map (fun k => alLookup s.data k) := by
  unfold valuesList keysList
  rw [List.map_flatten, List.map_map]
  rfl

/-- Iteration order: under well-formedness, whenever key `a` is yielded
before key `b`, `a`'s finite expiration timestamp is ≤ `b`'s (equal inside
one bucket, strictly smaller across buckets). -/
theorem keysList_pairwise (s : CacheState K V) (h : WF s) :
    (keysList s).Pairwise (fun a b => ∀ ta tb,
      alLookup s.expirationMap a = some (.fin ta) →
      alLookup s.expirationMap b = some (.fin tb) → ta ≤ tb) := by
  unfold keysList
  rw [List.pairwise_flatten]
  constructor
  · intro l' hl'
    rcases List.mem_map.1 hl' with ⟨b, hb, rfl⟩
    refine List.pairwise_of_forall_mem_list ?_
    intro a ha c hc ta tb hta htb
    have h1 := (h.2.1 b hb).2.2 a ha
    have h2 := (h.2.1 b hb).2.2 c hc
    rw [h1] at hta
    rw [h2] at htb
    injection hta with h3
    injection htb with h4
    injection h3 with h5
    injection h4 with h6
    omega
  · have hp : s.expirations.Pairwise (fun b1 b2 => b1.1 < b2.1) :=
      List.pairwise_map.1 h.1
    rw [List.pairwise_map]
    refine List.Pairwise.imp_of_mem ?_ hp
    intro b1 b2 hb1 hb2 hlt a ha c hc ta tb hta htb
    have h1 := (h.2.1 b1 hb1).2.2 a ha
    have h2 := (h.2.1 b2 hb2).2.2 c hc
    rw [h1] at hta
    rw [h2] at htb
    injection hta with h3
    injection htb with h4
    injection h3 with h5
    injection h4 with h6
    omega

theorem removeKeysStruct_entry_keys (s : CacheState K V) (ks : List K) :
    (removeKeysStruct s ks).2.map Prod.fst = ks := by
  induction ks generalizing s with
  | nil => rfl
  | cons k ks ih => simp [removeKeysStruct, ih]

/-- Events of a whole-bucket removal observe a state without the removed
keys. -/
theorem removeBucket_trace_clean (s : CacheState K V) (t : Nat) (ks : List K)
    (rest : List (Nat × List K)) (reason : Reason) (h : WF s)
    (hexp : s.expirations = (t, ks) :: rest) :
    ∀ e ∈ (removeKeys { s with expirations := rest } ks reason).2,
      snapshotClean e := by
  obtain ⟨he, hd, hm, -, -, -, -, -⟩ := removeBucket_spec s t ks rest h hexp
  have hnotlater := head_bucket_keys_not_later s t ks rest h hexp
  intro e hme
  unfold removeKeys at hme
  rcases List.mem_map.1 hme with ⟨en, hen, rfl⟩
  have hkmem : en.1 ∈ ks := by
    rw [← removeKeysStruct_entry_keys { s with expirations := rest } ks]
    exact List.mem_map_of_mem Prod.fst hen
  refine ⟨?_, ?_, ?_⟩
  · show alLookup (removeKeysStruct
      { s with expirations := rest } ks).1.data en.1 = none
    rw [hd]
    exact alLookup_filter_mem _ _ _ hkmem
  · show alLookup (removeKeysStruct
      { s with expirations := rest } ks).1.expirationMap en.1 = none
    rw [hm]
    exact alLookup_filter_mem _ _ _ hkmem
  · intro b hb
    have hb' : b ∈ rest := by rw [← he]; exact hb
    exact fun hkb => hnotlater b hb' en.1 hkb hkmem

/-- Events of a partial-bucket removal observe a state without the removed
keys. -/
theorem spliceBucket_trace_clean (s : CacheState K V) (t : Nat) (ks : List K)
    (rest : List (Nat × List K)) (n : Nat) (reason : Reason) (h : WF s)
    (hexp : s.expirations = (t, ks) :: rest) (hn : n < ks.length) :
    ∀ e ∈ (removeKeys { s with expirations := (t, ks.drop n) :: rest }
        (ks.take n) reason).2, snapshotClean e := by
  obtain ⟨he, hd, hm, -, -, -, -, -⟩ := spliceBucket_spec s t ks rest n h hexp hn
  have hnotlater := head_bucket_keys_not_later s t ks rest h hexp
  have hksnd : ks.Nodup :=
    (h.2.1 (t, ks) (by rw [hexp]; exact List.mem_cons_self _ _)).2.1
  intro e hme
  unfold removeKeys at hme
  rcases List.mem_map.1 hme with ⟨en, hen, rfl⟩
  have hkmem : en.1 ∈ ks.take n := by
    rw [← removeKeysStruct_entry_keys
      { s with expirations := (t, ks.drop n) :: rest } (ks.take n)]
    exact List.mem_map_of_mem Prod.fst hen
  refine ⟨?_, ?_, ?_⟩
  · show alLookup (removeKeysStruct
      { s with expirations := (t, ks.drop n) :: rest } (ks.take n)).1.data
      en.1 = none
    rw [hd]
    exact alLookup_filter_mem _ _ _ hkmem
  · show alLookup (removeKeysStruct
      { s with expirations := (t, ks.drop n) :: rest } (ks.take n)).1.expirationMap
      en.1 = none
    rw [hm]
    exact alLookup_filter_mem _ _ _ hkmem
  · intro b hb
    have hb' : b ∈ (t, ks.drop n) :: rest := by rw [← he]; exact hb
    rcases List.mem_cons.1 hb' with rfl | hb2
    · intro hkb
      exact nodup_drop_not_mem_take ks n hksnd en.1 hkb hkmem
    · exact fun hkb =>
        hnotlater b hb2 en.1 hkb (List.mem_of_mem_take hkmem)

/-- Every eviction event of `purgeToCapacity`'s loop observes a state
without its key. -/
theorem purgeGo_trace_clean (m : Nat) (l : List (Nat × List K))
    (s : CacheState K V) (h : WF s) (hl : s.expirations = l) :
    ∀ e ∈ (purgeGo m l s).2, snapshotClean e := by
  induction l generalizing s with
  | nil =>
      intro e hme
      cases hme
  | cons b rest ih =>
      obtain ⟨t, ks⟩ := b
      unfold purgeGo
      by_cases hcond : (size s : Int) - ks.length ≥ (m : Int)
      · rw [if_pos hcond]
        dsimp only
        intro e hme
        rcases List.mem_append.1 hme with hme | hme
        · exact removeBucket_trace_clean s t ks rest .evict h hl e hme
        · obtain ⟨he, -, -, -, hwf, -, -, -⟩ :=
            removeBucket_spec s t ks rest h hl
          exact ih (removeKeys { s with expirations := rest } ks .evict).1
            hwf he e hme
      · rw [if_neg hcond]
        dsimp only
        have hkslen : 0 < ks.length :=
          List.length_pos.2
            (h.2.1 (t, ks) (by rw [hl]; exact List.mem_cons_self _ _)).1
        have hn : ((size s : Int) - (m : Int)).toNat < ks.length := by omega
        exact spliceBucket_trace_clean s t ks rest _ .evict h hl hn

/-- Every stale event of `purgeStale`'s loop observes a state without its
key. -/
theorem purgeStaleGo_trace_clean (now : Nat) (l : List (Nat × List K))
    (s : CacheState K V) (tr : Trace K V) (h : WF s) (hl : s.expirations = l)
    (hprev : ∀ e ∈ tr, snapshotClean e) :
    ∀ e ∈ (purgeStaleGo now l s tr).2, snapshotClean e := by
  induction l generalizing s tr with
  | nil =>
      unfold purgeStaleGo
      by_cases hsz : size s = 0
      · rw [if_pos hsz]; exact hprev
      · rw [if_neg hsz]; exact hprev
  | cons b rest ih =>
      obtain ⟨t, ks⟩ := b
      unfold purgeStaleGo
      by_cases hdue : t > now
      · rw [if_pos hdue]; exact hprev
      · rw [if_neg hdue]
        dsimp only
        obtain ⟨he, -, -, -, hwf, -, -, -⟩ := removeBucket_spec s t ks rest h hl
        refine ih (removeKeys { s with expirations := rest } ks .stale).1 _
          hwf he ?_
        intro e hme
        rcases List.mem_append.1 hme with hme | hme
        · exact hprev e hme
        · exact removeBucket_trace_clean s t ks rest .stale h hl e hme

/-- Every event the purge loop accumulates beyond its input trace observes a
state without its key. -/
theorem purgeLoop_trace_clean (m fuel : Nat) (s : CacheState K V)
    (tr : Trace K V) (s' : CacheState K V) (tr' : Trace K V)
    (h : WF s) (hc : Coherent s) (ht : TimerInv s)
    (hres : purgeLoop m fuel s tr = some (s', tr'))
    (P : RemovalEvent K V × CacheState K V → Prop)
    (hP : ∀ e, snapshotClean e → P e)
    (hprev : ∀ e ∈ tr, P e) : ∀ e ∈ tr', P e := by
  induction fuel generalizing s tr with
  | zero =>
      unfold purgeLoop at hres
      by_cases hsz : size s ≤ m
      · rw [if_pos hsz] at hres
        injection hres with hres
        injection hres with h1 h2
        subst h2
        exact hprev
      · rw [if_neg hsz] at hres
        cases hres
  | succ fuel ih =>
      unfold purgeLoop at hres
      by_cases hsz : size s ≤ m
      · rw [if_pos hsz] at hres
        injection hres with hres
        injection hres with h1 h2
        subst h2
        exact hprev
      · rw [if_neg hsz] at hres
        obtain ⟨hwf, hcoh, htim⟩ := purgeToCapacity_pres m s h hc ht
        refine ih (purgeToCapacity m s).1 _ hwf hcoh htim hres ?_
        intro e hme
        rcases List.mem_append.1 hme with hme | hme
        · exact hprev e hme
        · exact hP e (purgeGo_trace_clean m s.expirations s h rfl e hme)

theorem setMutate_trace_reason (s : CacheState K V) (key : K) (val : V)
    (ttl : ExpiryTime) (noUpd skip : Bool) (now : Nat) :
    ∀ e ∈ (setMutate s key val ttl noUpd skip now).2,
      e.1.reason = Reason.set := by
  unfold setMutate
  by_cases hmem : (alLookup s.expirationMap key).isSome
  · rw [if_pos hmem]
    dsimp only
    by_cases hold : alLookup (if noUpd = false then setTTL s key ttl now
        else s).data key ≠ some val
    · rw [if_pos hold]
      by_cases hskip : skip = false
      · rw [if_pos hskip]
        intro e hme
        rcases List.mem_singleton.1 hme with rfl
        rfl
      · rw [if_neg hskip]
        intro e hme
        cases hme
    · rw [if_neg hold]
      intro e hme
      cases hme
  · rw [if_neg hmem]
    intro e hme
    cases hme

/-- `notifyAll` reports exactly an error some handler invocation produced:
the error reaches the caller unchanged. -/
theorem notifyAll_error {E : Type} (h : RemovalEvent K V → Except E Unit)
    (evs : List (RemovalEvent K V)) (e : E)
    (herr : notifyAll h evs = .error e) : ∃ ev ∈ evs, h ev = .error e := by
  induction evs with
  | nil => cases herr
  | cons ev evs ih =>
      unfold notifyAll at herr
      cases hev : h ev with
      | error e2 =>
          rw [hev] at herr
          injection herr with herr
          subst herr
          exact ⟨ev, List.mem_cons_self _ _, hev⟩
      | ok u =>
          rw [hev] at herr
          dsimp only at herr
          obtain ⟨ev2, hm2, he2⟩ := ih herr
          exact ⟨ev2, List.mem_cons_of_mem _ hm2, he2⟩

/-- Every removal event of `delete` observes a state the removed key has
already fully left. -/
theorem delete_trace_clean (s : CacheState K V) (key : K) (h : WF s) :
    ∀ e ∈ (delete s key).2.2, snapshotClean e := by
  cases hcur : alLookup s.expirationMap key with
  | none =>
      rw [delete_eq_of_none s key hcur]
      intro e he
      cases he
  | some current =>
      rw [delete_eq_of_lookup s key current hcur]
      intro e he
      obtain ⟨h1, h2, h3, -, -, -, -⟩ := deleteStruct_spec s key current h hcur
      rw [List.mem_singleton.1 he]
      exact ⟨h1, h2, h3⟩

/-- Every removal event of `purgeStale` observes a state the swept key has
already fully left. -/
theorem purgeStale_trace_clean (s : CacheState K V) (now : Nat) (h : WF s) :
    ∀ e ∈ (purgeStale s now).2, snapshotClean e :=
  purgeStaleGo_trace_clean now s.expirations s [] h rfl
    (fun e he => absurd he (List.not_mem_nil _))

/-- Every removal event of `clear` observes the already-emptied state. -/
theorem clear_trace_clean (cfg : Config) (s : CacheState K V) :
    ∀ e ∈ (clear cfg s).2, snapshotClean e := by
  intro e he
  unfold clear at he
  rcases List.mem_map.1 he with ⟨en, hen, rfl⟩
  exact ⟨rfl, rfl, fun b hb => absurd hb (List.not_mem_nil _)⟩

/-- Every capacity-eviction event of a successful `set` observes a state the
evicted key has already fully left (the `"set"`-reason replacement event is
the only other kind of event a `set` produces). -/
theorem set_trace_evict_clean (cfg : Config) (s : CacheState K V) (key : K)
    (val : V) (opts : SetOptions) (now fuel : Nat) (s' : CacheState K V)
    (tr : Trace K V) (h : WF s) (hc : Coherent s) (ht : TimerInv s)
    (hok : set cfg s key val opts now fuel = .ok s' tr) :
    ∀ e ∈ tr, e.1.reason = .evict → snapshotClean e := by
  unfold set at hok
  cases httl : (match opts.ttl with | some t => some t | none => cfg.ttl) with
  | none => rw [httl] at hok; cases hok
  | some ttl =>
      rw [httl] at hok
      dsimp only at hok
      by_cases hval : isPosIntOrInf ttl = false
      · rw [if_pos hval] at hok; cases hok
      · rw [if_neg hval] at hok
        obtain ⟨hwf, hcoh, htim⟩ := setMutate_pres s key val ttl
          (opts.noUpdateTTL.getD cfg.noUpdateTTL)
          (opts.skipRemoveOnSet.getD cfg.skipRemoveOnSet) now h hc ht
        have hset := setMutate_trace_reason s key val ttl
          (opts.noUpdateTTL.getD cfg.noUpdateTTL)
          (opts.skipRemoveOnSet.getD cfg.skipRemoveOnSet) now
        cases hmax : cfg.max with
        | none =>
            rw [hmax] at hok
            dsimp only at hok
            injection hok with h1 h2
            subst h2
            intro e he hev
            exact absurd ((hset e he).symm.trans hev) (by decide)
        | some m =>
            rw [hmax] at hok
            dsimp only at hok
            cases hloop : purgeLoop m fuel
                (setMutate s key val ttl (opts.noUpdateTTL.getD cfg.noUpdateTTL)
                  (opts.skipRemoveOnSet.getD cfg.skipRemoveOnSet) now).1
                (setMutate s key val ttl (opts.noUpdateTTL.getD cfg.noUpdateTTL)
                  (opts.skipRemoveOnSet.getD cfg.skipRemoveOnSet) now).2 with
            | none => rw [hloop] at hok; cases hok
            | some res =>
                rw [hloop] at hok
                dsimp only at hok
                injection hok with h1 h2
                subst h2
                intro e he hev
                exact purgeLoop_trace_clean m fuel _ _ res.1 res.2 hwf hcoh htim
                  hloop (fun e => e.1.reason = .evict → snapshotClean e)
                  (fun e hce _ => hce)
                  (fun e he2 hev2 =>
                    absurd ((hset e he2).symm.trans hev2) (by decide))
                  e he hev

/-- An LRU `get` introduces no entry that was not already present. -/
theorem lruGet_entries_subset {A : Type} (st : LRUState K A) (k : K) :
    ∀ p ∈ (lruGet st k).2.entries, p ∈ st.entries := by
  unfold lruGet
  cases h : alLookup st.entries k with
  | none => intro p hp; exact hp
  | some a =>
      intro p hp
      dsimp only at hp
      rcases List.mem_cons.1 hp with rfl | hp
      · exact mem_of_alLookup _ _ _ h
      · exact (List.mem_filter.1 hp).1

/-- An LRU `put` introduces no entry beyond the written pair, and every
kept entry is for a different key. -/
theorem lruPut_entries_subset {A : Type} (st : LRUState K A) (k : K) (a : A) :
    ∀ p ∈ (lruPut st k a).entries,
      p = (k, a) ∨ (p ∈ st.entries ∧ p.1 ≠ k) := by
  intro p hp
  unfold lruPut at hp
  rcases List.mem_cons.1 (List.mem_of_mem_take hp) with rfl | hp2
  · exact Or.inl rfl
  · refine Or.inr ⟨(List.mem_filter.1 hp2).1, ?_⟩
    simpa using (List.mem_filter.1 hp2).2

/-- If every slot under key `k` is already expired at `now ≥ 1`, a `has`
probe of any key keeps it that way (the probe either reorders existing
entries or overwrites the probed key with the `expiry: 0` sentinel). -/
theorem ttlHas_dead_pres (c : TTLLRU K V) (k q : K) (now : Nat)
    (hnow : 1 ≤ now)
    (hd : ∀ p ∈ c.lru.entries, p.1 = k → p.2.expiry < now) :
    ∀ p ∈ (ttlHas c q now).2.lru.entries, p.1 = k → p.2.expiry < now := by
  unfold ttlHas
  cases hg : lruGet c.lru q with
  | mk r st1 =>
      have hsub : ∀ p ∈ st1.entries, p ∈ c.lru.entries := by
        have h2 := congrArg Prod.snd hg
        dsimp only at h2
        rw [← h2]
        exact lruGet_entries_subset c.lru q
      cases r with
      | none =>
          intro p hp
          exact hd p (hsub p hp)
      | some item =>
          dsimp only
          by_cases hexp : now > item.expiry
          · rw [if_pos hexp]
            intro p hp hpk
            unfold ttlDelete at hp
            dsimp only at hp
            rcases lruPut_entries_subset st1 q ⟨none, 0⟩ p hp with rfl | hp2
            · exact hnow
            · exact hd p (hsub p hp2.1) hpk
          · rw [if_neg hexp]
            intro p hp
            exact hd p (hsub p hp)

/-- A `has` probe of a key all of whose slots are expired reports false. -/
theorem ttlHas_dead_false (c : TTLLRU K V) (k : K) (now : Nat)
    (hd : ∀ p ∈ c.lru.entries, p.1 = k → p.2.expiry < now) :
    (ttlHas c k now).1 = false := by
  unfold ttlHas lruGet
  cases hl : alLookup c.lru.entries k with
  | none => rfl
  | some a =>
      dsimp only
      rw [if_pos (hd (k, a) (mem_of_alLookup _ _ _ hl) rfl)]

/-- The key-listing filter never reports a key all of whose slots are
expired: every `has` probe along the way answers false for it and preserves
its deadness. -/
theorem ttlKeysGo_dead_not_mem (now : Nat) (ks : List K) (c : TTLLRU K V)
    (k : K) (hnow : 1 ≤ now)
    (hd : ∀ p ∈ c.lru.entries, p.1 = k → p.2.expiry < now) :
    k ∉ (ttlKeysGo now ks c).1 := by
  induction ks generalizing c with
  | nil => intro h; cases h
  | cons q ks ih =>
      unfold ttlKeysGo
      dsimp only
      intro hmem
      have hnext := ih (ttlHas c q now).2 (ttlHas_dead_pres c k q now hnow hd)
      by_cases hq : (ttlHas c q now).1 = true
      · rw [hq] at hmem
        rw [if_pos rfl] at hmem
        rcases List.mem_cons.1 hmem with rfl | hmem2
        · rw [ttlHas_dead_false c k now hd] at hq
          cases hq
        · exact hnext hmem2
      · rw [Bool.not_eq_true] at hq
        rw [hq] at hmem
        rw [if_neg (by simp)] at hmem
        exact hnext hmem

end InvariantLemmas

section Claims

variable {K V : Type} [DecidableEq K] [DecidableEq V]

/-- C1: for every cache constructed with a finite `max`, every call to `set`
that returns leaves the cache with `size ≤ max`, for every sequence of prior
operations (including entries stored with infinite ttl — a `set` that can
never purge below capacity, e.g. because every entry is infinite, does not
return and is modelled by fuel exhaustion, not by a normal result). -/
theorem C1_capacity_invariant (cfg : Config) (s : CacheState K V) (key : K)
    (val : V) (opts : SetOptions) (now fuel m : Nat) (s' : CacheState K V)
    (tr : Trace K V) (hmax : cfg.max = some m)
    (hok : set cfg s key val opts now fuel = .ok s' tr) : size s' ≤ m := by
  unfold set at hok
  cases httl : (match opts.ttl with | some t => some t | none => cfg.ttl) with
  | none => rw [httl] at hok; cases hok
  | some ttl =>
      rw [httl] at hok
      dsimp only at hok
      by_cases hval : isPosIntOrInf ttl = false
      · rw [if_pos hval] at hok; cases hok
      · rw [if_neg hval] at hok
        rw [hmax] at hok
        dsimp only at hok
        cases hloop : purgeLoop m fuel
            (setMutate s key val ttl (opts.noUpdateTTL.getD cfg.noUpdateTTL)
              (opts.skipRemoveOnSet.getD cfg.skipRemoveOnSet) now).1
            (setMutate s key val ttl (opts.noUpdateTTL.getD cfg.noUpdateTTL)
              (opts.skipRemoveOnSet.getD cfg.skipRemoveOnSet) now).2 with
        | none => rw [hloop] at hok; cases hok
        | some res =>
            rw [hloop] at hok
            dsimp only at hok
            injection hok with h1 h2
            subst h1
            exact purgeLoop_ok_size m fuel _ _ res.1 res.2 (by rw [hloop])

/-- C1 witness: the third `set` into the full `max: 2` cache returns
normally and leaves `size = 2 ≤ 2`. -/
theorem C1_capacity_invariant_witness :
    set cfgMax2 sTwo 12 3 optsNone 0 5 = .ok sThird trThird ∧
      size sThird ≤ 2 :=
  ⟨by decide,
    C1_capacity_invariant cfgMax2 sTwo 12 3 optsNone 0 5 2 sThird trThird rfl
      (by decide)⟩

/-- C5 counterexample: both halves of invariant I3 fail on states reachable
by public operations.  First, `set(1, ttl 1000)`, `set(2, ttl 2000)`,
`delete(1)` reaches `sC5c`, whose timer is still armed for 1000 although the
minimum (and only) finite bucket timestamp is 2000 — `delete` never re-arms
or cancels the timer.  Second, continuing with `set(3, ttl ∞)` and
`delete(2)` reaches `sC5e`, where a timer is armed for 1000 though no
bucket, hence no finite expiration timestamp, exists at all. -/
theorem C5_counterexample :
    (Reach cfgNoMax sC5c ∧ sC5c.timer = some 1000 ∧
      sC5c.expirations.map Prod.fst = [2000]) ∧
    (Reach cfgNoMax sC5e ∧ sC5e.timer = some 1000 ∧
      sC5e.expirations = []) := by
  have e1 : set cfgNoMax emptyCache 1 1 ⟨some (.fin 1000), none, none⟩ 0 5 =
      .ok sC5a [] := by decide
  have h1 : Reach cfgNoMax sC5a := Reach.setStep Reach.empty e1
  have e2 : set cfgNoMax sC5a 2 2 ⟨some (.fin 2000), none, none⟩ 0 5 =
      .ok sC5b [] := by decide
  have h2 : Reach cfgNoMax sC5b := Reach.setStep h1 e2
  have h3 : Reach cfgNoMax (delete sC5b 1).1 := Reach.deleteStep h2
  have e3 : (delete sC5b 1).1 = sC5c := by decide
  rw [e3] at h3
  have e4 : set cfgNoMax sC5c 3 7 ⟨some .inf, none, none⟩ 0 5 =
      .ok sC5d [] := by decide
  have h4 : Reach cfgNoMax sC5d := Reach.setStep h3 e4
  have h5 : Reach cfgNoMax (delete sC5d 2).1 := Reach.deleteStep h4
  have e5 : (delete sC5d 2).1 = sC5e := by decide
  rw [e5] at h5
  exact ⟨⟨h3, by decide, by decide⟩, ⟨h5, by decide, by decide⟩⟩

/-- C5 (amended): what survives of invariant I3 — in every state reachable
by the public operations with `get` applied to present keys (`Reach`; a
`get` of an absent key under `updateAgeOnGet` creates a valueless bucket,
claim C8, after which a `delete` can cancel the timer while that bucket
remains, voiding the discipline entirely), an armed timer's target is less
than or equal to every bucket timestamp.  It need not equal the minimum,
and — refuting the claim's second half — a timer can stay armed with no
bucket present at all, because `delete` never cancels (while entries
remain) or re-arms the timer. -/
theorem C5_timer_lower_bound (cfg : Config) (s : CacheState K V)
    (h : Reach cfg s) :
    ∀ b ∈ s.expirations, ∀ tgt, s.timer = some tgt → tgt ≤ b.1 := by
  obtain ⟨-, -, -, hle⟩ := Reach_invariants cfg s h
  intro b hb tgt htgt
  have := hle b hb
  rw [htgt] at this
  exact this

/-- C5 amended-theorem witness: on the concrete reachable state `sC5c` the
armed target 1000 is indeed a lower bound of the (sole) bucket timestamp
2000. -/
theorem C5_timer_lower_bound_witness :
    ((2000, [2]) ∈ sC5c.expirations ∧ sC5c.timer = some 1000) ∧
      1000 ≤ (2000, [2]).1 := by
  have e1 : set cfgNoMax emptyCache 1 1 ⟨some (.fin 1000), none, none⟩ 0 5 =
      .ok sC5a [] := by decide
  have h1 : Reach cfgNoMax sC5a := Reach.setStep Reach.empty e1
  have e2 : set cfgNoMax sC5a 2 2 ⟨some (.fin 2000), none, none⟩ 0 5 =
      .ok sC5b [] := by decide
  have h2 : Reach cfgNoMax sC5b := Reach.setStep h1 e2
  have h3 : Reach cfgNoMax (delete sC5b 1).1 := Reach.deleteStep h2
  have e3 : (delete sC5b 1).1 = sC5c := by decide
  rw [e3] at h3
  exact ⟨⟨by decide, by decide⟩,
    C5_timer_lower_bound cfgNoMax sC5c h3 (2000, [2]) (by decide) 1000
      (by decide)⟩

/-- C4 counterexample: `purgeStale` does not always cancel the timer when
the cache is empty afterwards.  A real call sequence — construct with
`updateAgeOnGet: true`, `get(7)` on the empty cache (which files key `7` in
a bucket at expiry 1000 without storing a value, arming the timer), then
`purgeStale()` at time 500 — hits the early `return` at the future bucket,
which skips the final `if (size === 0) cancelTimer()`: the store is empty
(`size = 0`) yet the timer stays armed for 1000. -/
theorem C4_counterexample :
    sPhantom = (get cfgUpd emptyCache 7 gOptsNone 0).2.1 ∧
    size (purgeStale sPhantom 500).1 = 0 ∧
    (purgeStale sPhantom 500).1.timer = some 1000 := by decide

/-- C4 (amended): on well-formed states, `purgeStale` removes precisely the
buckets whose timestamp is ≤ now (ascending order), notifies each removed
key with reason `"stale"` in that order, keeps the still-future buckets, and
cancels the timer exactly when no future bucket stopped the sweep early and
the store is empty afterwards (rather than whenever the cache ends up
empty); entries stored with infinite ttl are never among the swept keys. -/
theorem C4_stale_sweep (s : CacheState K V) (now : Nat) (h : WF s) :
    (purgeStale s now).1 = (staleSpec s now).1 ∧
    traceEvents (purgeStale s now).2 = (staleSpec s now).2 ∧
    ∀ k, alLookup s.expirationMap k = some .inf →
      k ∉ dueKeys s.expirations now := by
  obtain ⟨h1, h2⟩ := purgeStale_spec s now h
  exact ⟨h1, h2, fun k hk hmem =>
    not_mem_keysList_inf s h k hk (dueKeys_subset_keysList s now k hmem)⟩

/-- C4 amended-theorem witness: the sweep at time 2001 over a cache holding
key `2` (expiry 2000) and key `3` (infinite ttl) — key `2` is removed and
notified stale, key `3` survives and is not due. -/
theorem C4_stale_sweep_witness :
    WF sC5d ∧
    ((purgeStale sC5d 2001).1 = (staleSpec sC5d 2001).1 ∧
      traceEvents (purgeStale sC5d 2001).2 = (staleSpec sC5d 2001).2 ∧
      ∀ k, alLookup sC5d.expirationMap k = some .inf →
        k ∉ dueKeys sC5d.expirations 2001) :=
  ⟨by decide, C4_stale_sweep sC5d 2001 (by decide)⟩

/-- C3 counterexample: `clear` misses entries stored with infinite ttl.  In
a cache with a custom removal handler holding the live entry `5 ↦ 55`
(stored with `ttl: Infinity`, hence listed only in the reverse index and in
no bucket), `clear` removes the entry but fires no notification at all —
the `[...this]` entry list iterates buckets only. -/
theorem C3_counterexample :
    cfgNoMax.customHandler = true ∧
    alLookup sInf.data 5 = some 55 ∧
    (clear cfgNoMax sInf).1 = emptyCache ∧
    (clear cfgNoMax sInf).2 = [] := by decide

/-- C3 (amended): `clear` empties the store, reverse index and buckets and
cancels any timer.  With a custom handler it fires, against the emptied
state, exactly one `(value, key, "delete")` notification for every live
entry that has a finite expiration — entries stored with infinite ttl are
removed silently, contrary to the claim; with the default handler no entry
list is computed and no notification fires. -/
theorem C3_clear (cfg : Config) (s : CacheState K V) (h : WF s) :
    (clear cfg s).1 = emptyCache ∧
    (cfg.customHandler = false → (clear cfg s).2 = []) ∧
    (cfg.customHandler = true →
      (∀ ev ∈ traceEvents (clear cfg s).2, ev.reason = .delete) ∧
      (∀ k t, alLookup s.expirationMap k = some (.fin t) →
        (traceEvents (clear cfg s).2).count
          ⟨alLookup s.data k, k, .delete⟩ = 1) ∧
      (∀ k, alLookup s.expirationMap k = some .inf →
        ∀ ev ∈ traceEvents (clear cfg s).2, ev.key ≠ k)) := by
  refine ⟨rfl, fun hch => ?_, fun hch => ⟨?_, ?_, ?_⟩⟩
  · unfold clear
    rw [hch]
    rfl
  · rw [clear_trace_events cfg s hch]
    intro ev hev
    rcases List.mem_map.1 hev with ⟨k, -, rfl⟩
    rfl
  · intro k t hk
    rw [clear_trace_events cfg s hch]
    have hinj : Function.Injective
        (fun k => (⟨alLookup s.data k, k, .delete⟩ : RemovalEvent K V)) :=
      fun a b hab => by simpa using congrArg RemovalEvent.key hab
    have := List.count_map_of_injective (keysList s)
      (fun k => (⟨alLookup s.data k, k, .delete⟩ : RemovalEvent K V)) hinj k
    rw [this]
    exact keysList_count_one s h k t hk
  · intro k hk ev hev
    rw [clear_trace_events cfg s hch] at hev
    rcases List.mem_map.1 hev with ⟨k', hk', rfl⟩
    intro hkey
    dsimp only at hkey
    rw [hkey] at hk'
    exact not_mem_keysList_inf s h k hk hk'

/-- C3 amended-theorem witness: clearing a cache holding finite-expiry key
`2` and infinite-ttl key `3` with a custom handler. -/
theorem C3_clear_witness :
    WF sC5d ∧
    ((clear cfgNoMax sC5d).1 = emptyCache ∧
      (cfgNoMax.customHandler = false → (clear cfgNoMax sC5d).2 = []) ∧
      (cfgNoMax.customHandler = true →
        (∀ ev ∈ traceEvents (clear cfgNoMax sC5d).2, ev.reason = .delete) ∧
        (∀ k t, alLookup sC5d.expirationMap k = some (.fin t) →
          (traceEvents (clear cfgNoMax sC5d).2).count
            ⟨alLookup sC5d.data k, k, .delete⟩ = 1) ∧
        (∀ k, alLookup sC5d.expirationMap k = some .inf →
          ∀ ev ∈ traceEvents (clear cfgNoMax sC5d).2, ev.key ≠ k))) :=
  ⟨by decide, C3_clear cfgNoMax sC5d (by decide)⟩

/-- C2: on well-formed coherent states, one capacity-eviction pass equals
the specification's policy — scan buckets in ascending timestamp order,
remove a bucket whole while doing so still leaves `size ≥ max`, otherwise
remove exactly the first `size − max` keys of the bucket (FIFO) and stop —
and every removed entry is notified with reason `"evict"` carrying its
stored value.  In particular the third `set` of three keys with identical
ttl into the `max: 2` cache evicts exactly the first-inserted key `10`. -/
theorem C2_eviction_policy (m : Nat) (s : CacheState K V)
    (h : WF s) (hc : Coherent s) :
    ((purgeToCapacity m s).1 = (evictSpec m s).1 ∧
      traceEvents (purgeToCapacity m s).2 = (evictSpec m s).2) ∧
    (resThird = .ok sThird trThird ∧
      traceEvents trThird = [⟨some 1, 10, .evict⟩]) :=
  ⟨purgeToCapacity_spec m s h hc, by decide, by decide⟩

/-- C2 witness: the eviction pass on the concrete over-capacity tied bucket
`[10, 11, 12]` with `max = 2`. -/
theorem C2_eviction_policy_witness :
    (WF sOver ∧ Coherent sOver) ∧
    (((purgeToCapacity 2 sOver).1 = (evictSpec 2 sOver).1 ∧
      traceEvents (purgeToCapacity 2 sOver).2 = (evictSpec 2 sOver).2) ∧
      (resThird = .ok sThird trThird ∧
        traceEvents trThird = [⟨some 1, 10, .evict⟩])) :=
  ⟨⟨by decide, by decide⟩,
    C2_eviction_policy 2 sOver (by decide) (by decide)⟩

/-- C6: every fresh iteration draws from the same bucket traversal —
`keys()` and `values()` are the first and second projections of `entries()`
and whole-cache iteration delegates to `entries()`; on well-formed states a
key yielded earlier has a finite expiration timestamp ≤ that of a key
yielded later (buckets ascend, and within one bucket the timestamps tie
while keys come in insertion order).  Concretely, keys `0`, `1`, `2` set
with ttls 1000, 2000, 3000 iterate as `[0, 1, 2]`, and after `delete(1)` as
`[0, 2]`. -/
theorem C6_iteration_order (s : CacheState K V) (h : WF s) :
    (keysList s = (entriesList s).map Prod.fst ∧
      valuesList s = (entriesList s).map Prod.snd ∧
      iterList s = entriesList s) ∧
    (keysList s).Pairwise (fun a b => ∀ ta tb,
      alLookup s.expirationMap a = some (.fin ta) →
      alLookup s.expirationMap b = some (.fin tb) → ta ≤ tb) ∧
    (entriesList sABC = [(0, some 5), (1, some 6), (2, some 7)] ∧
      keysList sABC = [0, 1, 2] ∧
      entriesList sACdel = [(0, some 5), (2, some 7)] ∧
      keysList sACdel = [0, 2]) := by
  refine ⟨⟨?_, ?_, rfl⟩, keysList_pairwise s h, by decide⟩
  · rw [entriesList_eq, List.map_map]
    show keysList s = (keysList s).map (fun k => k)
    exact (List.map_id' _).symm
  · rw [entriesList_eq, List.map_map, valuesList_eq]
    rfl

/-- C6 witness: the iteration facts at the concrete three-key state. -/
theorem C6_iteration_order_witness :
    WF sABC ∧
    ((keysList sABC = (entriesList sABC).map Prod.fst ∧
      valuesList sABC = (entriesList sABC).map Prod.snd ∧
      iterList sABC = entriesList sABC) ∧
    (keysList sABC).Pairwise (fun a b => ∀ ta tb,
      alLookup sABC.expirationMap a = some (.fin ta) →
      alLookup sABC.expirationMap b = some (.fin tb) → ta ≤ tb) ∧
    (entriesList sABC = [(0, some 5), (1, some 6), (2, some 7)] ∧
      keysList sABC = [0, 1, 2] ∧
      entriesList sACdel = [(0, some 5), (2, some 7)] ∧
      keysList sACdel = [0, 2])) :=
  ⟨by decide, C6_iteration_order sABC (by decide)⟩

/-- C7: a removal handler's error is never swallowed — the first failing
notification aborts the remaining ones and surfaces as the result the caller
of the triggering operation observes — and on well-formed states every
removal event of `delete`, the stale sweep, `clear`, and the capacity
evictions of a successful `set` is invoked against a state from which the
removed key has already fully left (store, reverse index, and every bucket),
so a throw never leaves the structures inconsistent and never rolls the
removal back. -/
theorem C7_handler_error_consistency {E : Type} (cfg : Config)
    (s : CacheState K V) (key : K) (val : V) (opts : SetOptions)
    (now fuel : Nat) (s' : CacheState K V) (tr : Trace K V)
    (handler : RemovalEvent K V → Except E Unit) (err : E)
    (h : WF s) (hc : Coherent s) (ht : TimerInv s) :
    (∀ e ∈ (delete s key).2.2, snapshotClean e) ∧
    (∀ e ∈ (purgeStale s now).2, snapshotClean e) ∧
    (∀ e ∈ (clear cfg s).2, snapshotClean e) ∧
    (set cfg s key val opts now fuel = .ok s' tr →
      ∀ e ∈ tr, e.1.reason = .evict → snapshotClean e) ∧
    (∀ evs : List (RemovalEvent K V), notifyAll handler evs = .error err →
      ∃ ev ∈ evs, handler ev = .error err) :=
  ⟨delete_trace_clean s key h,
   purgeStale_trace_clean s now h,
   clear_trace_clean cfg s,
   fun hok => set_trace_evict_clean cfg s key val opts now fuel s' tr h hc ht hok,
   fun evs herr => notifyAll_error handler evs err herr⟩

/-- C7 witness: the concrete `max: 2` cache with an always-throwing
handler, around the eviction-triggering third `set`. -/
theorem C7_handler_error_consistency_witness :
    (WF sTwo ∧ Coherent sTwo ∧ TimerInv sTwo) ∧
    ((∀ e ∈ (delete sTwo 12).2.2, snapshotClean e) ∧
     (∀ e ∈ (purgeStale sTwo 0).2, snapshotClean e) ∧
     (∀ e ∈ (clear cfgMax2 sTwo).2, snapshotClean e) ∧
     (set cfgMax2 sTwo 12 3 optsNone 0 5 = .ok sThird trThird →
       ∀ e ∈ trThird, e.1.reason = .evict → snapshotClean e) ∧
     (∀ evs : List (RemovalEvent Nat Nat), notifyAll throwing evs = .error 42 →
       ∃ ev ∈ evs, throwing ev = .error 42)) :=
  ⟨⟨by decide, by decide, by decide⟩,
    C7_handler_error_consistency cfgMax2 sTwo 12 3 optsNone 0 5 sThird trThird
      throwing 42 (by decide) (by decide) (by decide)⟩

/-- C8: `get` on a key absent from both the store and the reverse index,
with `updateAgeOnGet` resolving true, `checkAgeOnGet` resolving false and a
finite resolved ttl, reports not-found yet is not read-only: the store is
untouched while the key is filed in the reverse index at `now + ttl` and
listed in that bucket.  Afterwards `has` is false, `delete` returns true,
and a fresh iteration yields the key paired with no stored value. -/
theorem C8_phantom_get (cfg : Config) (s : CacheState K V) (k : K)
    (opts : GetOptions) (now t : Nat)
    (hdata : alLookup s.data k = none)
    (hmap : alLookup s.expirationMap k = none)
    (hupd : opts.updateAgeOnGet.getD cfg.updateAgeOnGet = true)
    (hchk : opts.checkAgeOnGet.getD cfg.checkAgeOnGet = false)
    (httl : (match opts.ttl with | some u => some u | none => cfg.ttl) =
      some (.fin t)) :
    (get cfg s k opts now).1 = none ∧
    (get cfg s k opts now).2.1.data = s.data ∧
    alLookup (get cfg s k opts now).2.1.expirationMap k =
      some (.fin (now + t)) ∧
    k ∈ keysList (get cfg s k opts now).2.1 ∧
    has (get cfg s k opts now).2.1 k = false ∧
    (delete (get cfg s k opts now).2.1 k).2.1 = true ∧
    (k, (none : Option V)) ∈ entriesList (get cfg s k opts now).2.1 := by
  have hrm : removeFromCurrentBucket s k = s := by
    unfold removeFromCurrentBucket
    rw [hmap]
  have hget : get cfg s k opts now = (none, setTTL s k (.fin t) now, []) := by
    unfold get
    rw [if_neg (fun hco => by rw [hchk] at hco; exact absurd hco.1 (by decide))]
    rw [if_pos hupd, httl]
    dsimp only
    rw [hdata]
  rw [hget]
  dsimp only
  rw [setTTL_fin_eq, hrm]
  dsimp only
  have hkmem : k ∈ (alLookup s.expirations (now + t)).getD [] ++ [k] :=
    List.mem_append_right _ (List.mem_singleton.2 rfl)
  have hbmem : (now + t, (alLookup s.expirations (now + t)).getD [] ++ [k]) ∈
      bucketInsert s.expirations (now + t)
        ((alLookup s.expirations (now + t)).getD [] ++ [k]) :=
    mem_of_alLookup _ _ _ (alLookup_bucketInsert_self _ _ _)
  refine ⟨rfl, rfl, alLookup_alInsert_self _ _ _, ?_, ?_, ?_, ?_⟩
  · exact (mem_keysList _ k).2 ⟨_, hbmem, hkmem⟩
  · show (alLookup s.data k).isSome = false
    rw [hdata]
    rfl
  · rw [delete_eq_of_lookup _ k (.fin (now + t)) (alLookup_alInsert_self _ _ _)]
  · rw [entriesList_eq]
    dsimp only
    exact List.mem_map.2
      ⟨k, (mem_keysList _ k).2 ⟨_, hbmem, hkmem⟩, by rw [hdata]⟩

/-- C8 witness: `get(7)` on the freshly constructed `updateAgeOnGet: true`
cache with default `ttl: 1000` at time 0. -/
theorem C8_phantom_get_witness :
    (alLookup (emptyCache : CacheState Nat Nat).data 7 = none ∧
      alLookup (emptyCache : CacheState Nat Nat).expirationMap 7 = none ∧
      gOptsNone.updateAgeOnGet.getD cfgUpd.updateAgeOnGet = true ∧
      gOptsNone.checkAgeOnGet.getD cfgUpd.checkAgeOnGet = false ∧
      (match gOptsNone.ttl with | some u => some u | none => cfgUpd.ttl) =
        some (.fin 1000)) ∧
    ((get cfgUpd (emptyCache : CacheState Nat Nat) 7 gOptsNone 0).1 = none ∧
      (get cfgUpd (emptyCache : CacheState Nat Nat) 7 gOptsNone 0).2.1.data =
        (emptyCache : CacheState Nat Nat).data ∧
      alLookup (get cfgUpd (emptyCache : CacheState Nat Nat) 7 gOptsNone 0).2.1.expirationMap 7 =
        some (.fin (0 + 1000)) ∧
      7 ∈ keysList (get cfgUpd (emptyCache : CacheState Nat Nat) 7 gOptsNone 0).2.1 ∧
      has (get cfgUpd (emptyCache : CacheState Nat Nat) 7 gOptsNone 0).2.1 7 = false ∧
      (delete (get cfgUpd (emptyCache : CacheState Nat Nat) 7 gOptsNone 0).2.1 7).2.1 = true ∧
      (7, (none : Option Nat)) ∈
        entriesList (get cfgUpd (emptyCache : CacheState Nat Nat) 7 gOptsNone 0).2.1) :=
  ⟨⟨by decide, by decide, by decide, by decide, by decide⟩,
    C8_phantom_get cfgUpd (emptyCache : CacheState Nat Nat) 7 gOptsNone 0 1000 (by decide) (by decide)
      (by decide) (by decide) (by decide)⟩

/-- C9: an entry stored with infinite ttl (reverse-index sentinel `inf`, no
bucket) is reachable — `has` is true, `get` returns the stored value
whatever the per-call options, `getRemainingTTL` reports `Infinity` — yet it
is yielded by no iteration: its key is in no bucket, so it appears in
neither `keys()` nor `entries()`; consequently the iteration yields strictly
fewer entries than `size` counts. -/
theorem C9_infinite_entries (cfg : Config) (s : CacheState K V) (k : K)
    (v : V) (opts : GetOptions) (now : Nat) (h : WF s) (hc : Coherent s)
    (hmap : alLookup s.expirationMap k = some .inf)
    (hv : alLookup s.data k = some v) :
    has s k = true ∧
    (get cfg s k opts now).1 = some v ∧
    getRemainingTTL s k now = .inf ∧
    k ∉ keysList s ∧
    (∀ p ∈ entriesList s, p.1 ≠ k) ∧
    (keysList s).length < size s := by
  have hrem : getRemainingTTL s k now = .inf := by
    unfold getRemainingTTL
    rw [hmap]
  have hnotmem : k ∉ keysList s := not_mem_keysList_inf s h k hmap
  refine ⟨?_, ?_, hrem, hnotmem, ?_, ?_⟩
  · show (alLookup s.data k).isSome = true
    rw [hv]
    rfl
  · unfold get
    rw [if_neg (fun hco => ExpiryTime.noConfusion (hrem ▸ hco.2))]
    by_cases hupd : opts.updateAgeOnGet.getD cfg.updateAgeOnGet = true
    · rw [if_pos hupd]
      cases httlo : (match opts.ttl with | some u => some u | none => cfg.ttl)
      · exact hv
      · exact hv
    · rw [if_neg hupd]
      exact hv
  · rw [entriesList_eq]
    intro p hp
    rcases List.mem_map.1 hp with ⟨k', hk', rfl⟩
    intro heq
    dsimp only at heq
    rw [heq] at hk'
    exact hnotmem hk'
  · have hsub : k :: keysList s ⊆ s.data.map Prod.fst := by
      intro x hx
      rcases List.mem_cons.1 hx with rfl | hx
      · exact List.mem_map_of_mem Prod.fst (mem_of_alLookup _ _ _ hv)
      · rcases (mem_keysList s x).1 hx with ⟨b, hb, hxb⟩
        exact hc b hb x hxb
    have hnd : (k :: keysList s).Nodup :=
      List.nodup_cons.2 ⟨hnotmem, keysList_nodup s h⟩
    have hle := (hnd.subperm hsub).length_le
    rw [List.length_cons, List.length_map] at hle
    exact hle

/-- C9 witness: the entry `5 ↦ 55` stored with `ttl: Infinity`. -/
theorem C9_infinite_entries_witness :
    (WF sInf ∧ Coherent sInf ∧
      alLookup sInf.expirationMap 5 = some .inf ∧
      alLookup sInf.data 5 = some 55) ∧
    (has sInf 5 = true ∧
      (get cfgNoMax sInf 5 gOptsNone 0).1 = some 55 ∧
      getRemainingTTL sInf 5 0 = .inf ∧
      5 ∉ keysList sInf ∧
      (∀ p ∈ entriesList sInf, p.1 ≠ 5) ∧
      (keysList sInf).length < size sInf) :=
  ⟨⟨by decide, by decide, by decide, by decide⟩,
    C9_infinite_entries cfgNoMax sInf 5 55 gOptsNone 0 (by decide) (by decide)
      (by decide) (by decide)⟩

/-- C10: the adapter's `delete` never removes the key from the underlying
LRU store — with room for at least one entry it leaves the slot holding the
already-expired sentinel (`value: null`, `expiry: 0`), so the key still
occupies LRU capacity (it is among the raw LRU keys) while `getValue`,
`getWithTTL`, `has`, `touch` and `keys` all report it missing at any
time ≥ 1. -/
theorem C10_adapter_delete (c : TTLLRU K V) (k : K) (ttl : Option Nat)
    (now : Nat) (hcap : 1 ≤ c.lru.capacity) (hnow : 1 ≤ now) :
    alLookup (ttlDelete c k).lru.entries k = some ⟨none, 0⟩ ∧
    k ∈ lruKeys (ttlDelete c k).lru ∧
    (ttlGetValue (ttlDelete c k) k now).1 = none ∧
    (ttlGetWithTTL (ttlDelete c k) k now).1 = none ∧
    (ttlHas (ttlDelete c k) k now).1 = false ∧
    (ttlTouch (ttlDelete c k) k ttl now).1 = false ∧
    k ∉ (ttlKeys (ttlDelete c k) now).1 := by
  have hlook : alLookup (ttlDelete c k).lru.entries k = some ⟨none, 0⟩ := by
    show alLookup (lruPut c.lru k ⟨none, 0⟩).entries k = some ⟨none, 0⟩
    unfold lruPut
    cases hc : c.lru.capacity with
    | zero => rw [hc] at hcap; cases hcap
    | succ m =>
        rw [List.take_succ_cons, alLookup_cons, if_pos rfl]
  have hd : ∀ p ∈ (ttlDelete c k).lru.entries, p.1 = k →
      p.2.expiry < now := by
    intro p hp hpk
    rcases lruPut_entries_subset c.lru k ⟨none, 0⟩ p hp with rfl | hp2
    · exact hnow
    · exact absurd hpk hp2.2
  have hget : lruGet (ttlDelete c k).lru k =
      (some ⟨none, 0⟩,
        { (ttlDelete c k).lru with
            entries := (k, ⟨none, 0⟩) ::
              (ttlDelete c k).lru.entries.filter (fun p => decide (p.1 ≠ k)) }) := by
    unfold lruGet
    rw [hlook]
  refine ⟨hlook, ?_, ?_, ?_, ttlHas_dead_false _ k now hd, ?_, ?_⟩
  · exact List.mem_map_of_mem Prod.fst (mem_of_alLookup _ _ _ hlook)
  · unfold ttlGetValue
    rw [hget]
    dsimp only
    rw [if_pos (show now > 0 by omega)]
  · unfold ttlGetWithTTL
    rw [hget]
    dsimp only
    rw [if_pos (Nat.zero_le now)]
  · unfold ttlTouch
    rw [hget]
    dsimp only
    rw [if_pos (show now > 0 by omega)]
  · exact ttlKeysGo_dead_not_mem now (lruKeys (ttlDelete c k).lru)
      (ttlDelete c k) k hnow hd

/-- C10 witness: deleting key `1` from the concrete capacity-2 adapter cache
holding `1 ↦ 5`, observed at time 1. -/
theorem C10_adapter_delete_witness :
    (1 ≤ cAdapter.lru.capacity ∧ 1 ≤ 1) ∧
    (alLookup (ttlDelete cAdapter 1).lru.entries 1 = some ⟨none, 0⟩ ∧
      1 ∈ lruKeys (ttlDelete cAdapter 1).lru ∧
      (ttlGetValue (ttlDelete cAdapter 1) 1 1).1 = none ∧
      (ttlGetWithTTL (ttlDelete cAdapter 1) 1 1).1 = none ∧
      (ttlHas (ttlDelete cAdapter 1) 1 1).1 = false ∧
      (ttlTouch (ttlDelete cAdapter 1) 1 none 1).1 = false ∧
      1 ∉ (ttlKeys (ttlDelete cAdapter 1) 1).1) :=
  ⟨⟨by decide, by decide⟩,
    C10_adapter_delete cAdapter 1 none 1 (by decide) (by decide)⟩

end Claims

end TTL
